import Mathlib

/-!
RobotBatman: sequence numbers and the OGM wire codec.

A shallow embedding of `math.go`, `sqn.go`, `parameters.go`, `ogm.go`,
`window_ring.go`, the link metrics of `tq_metric.go`, `route_tracking.go`,
`forwarding_rules.go`, and `advertiseOGM` and `rebroadcast` of `batman.go`.

Modelling conventions
* Go's `int` is modelled twice.  The definitions named as in the source
  (`pmod`, `abs`, `sqn.greaterThan`, `windowRing.write`, `routeTracker.update`,
  ...) compute over `Int`: every intermediate value of the sequence-number code
  has magnitude below `2 * limit`, and of the window ring below
  `2 * addressSize`, so they are what the machine computes whenever that bound
  is at most `maxInt` and the modulus is not 0.  The definitions with the
  suffix `Wrap` (`pmodWrap`, `absWrap`, `sqn.greaterThanWrap`,
  `windowRing.writeWrap`, `routeTracker.updateWrap`, ...) and `pmodRun` embed
  the same functions with the 64-bit wrap-around of every sum and difference
  (`wrapInt`) and the run-time panic of a remainder by zero; the lemmas
  `greaterThanWrap_eq`, `writeWrap_eq`, `readWrap_eq` state when the two agree.
  Statements over all limits or address sizes are made on the `Wrap` forms;
  `sqn.add`, `sqn.subtract` and `sqn.increment` exist in that form only.
* Go's `%` truncates towards zero: it is `Int.tmod`.
* `byte` is `Fin 256` and `uint32` is `Fin 4294967296`; conversions into
  them reduce explicitly modulo `2 ^ 8` and `2 ^ 32`.
* A Go `string` is its sequence of bytes, `List Byte`.
* A call that may panic returns `Run α`; a Go `error` result is `Except`.
* Go's `/` truncates towards zero: it is `Int.tdiv`.  A zero divisor or
  modulus panics in Go; the window-ring statements assume sizes of at least 1,
  where none occurs.
* A `time.Time` is an `Int` (an instant on some clock), `time.Time{}` is `0`.
  The readings of `time.Now()` are arguments of the function that takes them.
* A Go map is the list of its entries, read with `mapGet` and written with
  `mapSet`; a pointer stored in a map is the value it points to, written back
  after each method call.
* The channel `outboundOGM` is the list of the OGMs sent on it, oldest first.
-/

namespace Batman

/-! ## Outcomes of calls that may panic -/

/-- Outcome of a Go call: it either completes with a value or panics. -/
inductive Run (α : Type) where
  | done (a : α) : Run α
  | panicked (msg : String) : Run α
  deriving DecidableEq

/-- Sequencing of calls: a panic in the first call propagates. -/
def Run.bind {α β : Type} (r : Run α) (f : α → Run β) : Run β :=
  match r with
  | Run.done a => f a
  | Run.panicked m => Run.panicked m

/-- True when the call panicked. -/
def Run.isPanic {α : Type} : Run α → Bool
  | Run.done _ => false
  | Run.panicked _ => true

/-! ## parameters.go -/

def batSQNAddrSize : Int := 2048
def batLocalWindowSize : Int := 64
def batOGMSize : Nat := 26
def batSafePacketSize : Nat := 512
def batMaxBundleSize : Nat := 19
def batCutoffRQSamples : Int := 10
def batCutoffEQSamples : Int := 10
def batCutoffTQ : Int := 10
def batTQMaxValue : Int := 255

/-! ## math.go -/

/-- Python-style modulo built from Go's truncating remainder, over the
integers; the machine form is `pmodRun`, equal to it for `0 < y`,
`2 * y ≤ maxInt`. -/
def pmod (x y : Int) : Int := (x.tmod y + y).tmod y

/-- Integer minimum (`math.go`). -/
def min (x y : Int) : Int := if x < y then x else y

/-- Integer absolute value (`math.go`), over the integers; the machine form is
`absWrap`. -/
def abs (x : Int) : Int := if x ≥ 0 then x else -x

/-! ## sqn.go -/

/-- Sequence number with its address range and comparison window. -/
structure sqn where
  num : Int
  limit : Int
  window : Int
  deriving DecidableEq

/-- Constructor with the two input checks of `newSQN`. -/
def newSQN (num limit window : Int) : Run sqn :=
  if num < 0 ∨ num ≥ limit then
    Run.panicked "batman: newSQN: value outside address range"
  else if window > limit then
    Run.panicked "batman: newSQN: window larger than address range"
  else
    Run.done { num := num, limit := limit, window := window }

def newDefaultSQN (num : Int) : Run sqn :=
  newSQN num batSQNAddrSize batLocalWindowSize

/-- Conversion `uint32(s.num)`. -/
def sqn.raw (s : sqn) : Nat := (s.num % (2 ^ 32 : Int)).toNat

def sqn.equalTo (s n : sqn) : Bool := decide (s.num = n.num)

/-- Method `greaterThan`, over the integers; the machine form is
`sqn.greaterThanWrap`. -/
def sqn.greaterThan (s n : sqn) : Bool :=
  let dif := Batman.min (s.num - n.num) (s.num - n.num - s.limit)
  if pmod (Batman.abs dif) s.limit < s.window then
    decide (0 < pmod dif s.limit) && decide (pmod dif s.limit < s.window)
  else
    true

def sqn.lessThan (s n : sqn) : Bool :=
  !(s.greaterThan n) && !(s.equalTo n)

/-- A sequence number that `newSQN` accepts. -/
def sqn.valid (s : sqn) : Prop :=
  0 ≤ s.num ∧ s.num < s.limit ∧ s.window ≤ s.limit

instance (s : sqn) : Decidable s.valid := by
  unfold sqn.valid; exact inferInstance

/-! ## Bytes, fixed arrays, slices -/

abbrev Byte := Fin 256

abbrev Uint32 := Fin 4294967296

/-- Conversion `byte(n)` of a non-negative integer: the low eight bits. -/
def byteOf (n : Nat) : Byte := ⟨n % 256, Nat.mod_lt _ (by decide)⟩

/-- Go array `[4]byte`. -/
structure Bytes4 where
  b0 : Byte
  b1 : Byte
  b2 : Byte
  b3 : Byte
  deriving DecidableEq

/-- Zero value of `[4]byte`. -/
def Bytes4.zero : Bytes4 := ⟨0, 0, 0, 0⟩

/-- Slice `b[:]` of the array. -/
def Bytes4.toList (a : Bytes4) : List Byte := [a.b0, a.b1, a.b2, a.b3]

/-- Assignment `a[i] = v`.  Every call in `ogm.go` has `i < 4`. -/
def Bytes4.set (a : Bytes4) (i : Nat) (v : Byte) : Bytes4 :=
  match i with
  | 0 => { a with b0 := v }
  | 1 => { a with b1 := v }
  | 2 => { a with b2 := v }
  | 3 => { a with b3 := v }
  | _ => a

/-- Loop `for i := range b { dst[off+i] = b[i] }`. -/
def copyAt (dst : Bytes4) (off : Nat) : List Byte → Bytes4
  | [] => dst
  | v :: vs => copyAt (dst.set off v) (off + 1) vs

/-- A Go byte slice as far as `packOGMs` looks at it: elements and capacity. -/
structure ByteSlice where
  elems : List Byte
  cap : Nat
  deriving DecidableEq

/-! ## Go standard library: `bytes.Trim`, `net.IP.String`, `net.ParseIP` -/

/-- Call `bytes.Trim(b, "\x00")`: with a one-byte cutset the right end is
trimmed first, then the left end. -/
def trimZero (b : List Byte) : List Byte :=
  (b.rdropWhile (fun c => c == 0)).dropWhile (fun c => c == 0)

/-- ASCII digit for `n % 10`. -/
def digitByte (n : Nat) : Byte := ⟨48 + n % 10, by omega⟩

/-- Decimal text of a byte (`ubtoa` of package `net`). -/
def ubtoa (v : Byte) : List Byte :=
  if v.val < 10 then [digitByte v.val]
  else if v.val < 100 then [digitByte (v.val / 10), digitByte v.val]
  else [digitByte (v.val / 100), digitByte (v.val / 10), digitByte v.val]

/-- Text of `net.IPv4(b0, b1, b2, b3).String()`. -/
def ipString (b : Bytes4) : List Byte :=
  ubtoa b.b0 ++ [46] ++ ubtoa b.b1 ++ [46] ++ ubtoa b.b2 ++ [46] ++ ubtoa b.b3

/-- The parts of package `net` that this repository does not fix: the result
`parseIPv6(s).To4()` for a text whose first separator is a colon, and whether
the IPv4 parser rejects a decimal field with a leading zero (it does since
Go 1.17). -/
structure NetLib where
  parseIPv6To4 : List Byte → Option Bytes4
  rejectLeadingZero : Bool

/-- Decimal-to-integer loop of package `net` (`dtoi`): value, number of bytes
consumed, success. -/
def dtoiAux : List Byte → Nat → Nat → Nat × Nat × Bool
  | [], n, i => if i = 0 then (0, 0, false) else (n, i, true)
  | c :: cs, n, i =>
    if 48 ≤ c.val ∧ c.val ≤ 57 then
      if n * 10 + (c.val - 48) ≥ 0xFFFFFF then (0xFFFFFF, i, false)
      else dtoiAux cs (n * 10 + (c.val - 48)) (i + 1)
    else if i = 0 then (0, 0, false) else (n, i, true)

def dtoi (s : List Byte) : Nat × Nat × Bool := dtoiAux s 0 0

/-- Field loop of `parseIPv4`: `todo` fields remain, `i` is the loop index. -/
def parseIPv4Fields (net : NetLib) : Nat → Nat → List Byte → Bytes4 → Option (Bytes4 × List Byte)
  | 0, _, s, p => some (p, s)
  | todo + 1, i, s, p =>
    if s.length = 0 then none
    else
      let afterDot : Option (List Byte) :=
        if i > 0 then (if s.head? = some 46 then some s.tail else none) else some s
      match afterDot with
      | none => none
      | some s1 =>
        match dtoi s1 with
        | (n, c, ok) =>
          if !ok || decide (n > 0xFF) then none
          else if net.rejectLeadingZero && decide (c > 1) && decide (s1.head? = some 48) then none
          else parseIPv4Fields net todo (i + 1) (s1.drop c) (p.set i (byteOf n))

/-- Dotted-decimal parser `parseIPv4`. -/
def parseIPv4 (net : NetLib) (s : List Byte) : Option Bytes4 :=
  match parseIPv4Fields net 4 0 s Bytes4.zero with
  | some (p, []) => some p
  | _ => none

/-- Call `net.ParseIP(s).To4()`: the first `.` or `:` picks the parser. -/
def parseIPTo4 (net : NetLib) (s : List Byte) : Option Bytes4 :=
  match s.find? (fun c => c == 46 || c == 58) with
  | some c => if c == 46 then parseIPv4 net s else net.parseIPv6To4 s
  | none => none

/-! ## ogm.go -/

/-- A nodeID uniquely identifies a node in the network. -/
abbrev nodeID := List Byte

/-- An ipAddr identifies a particular link. -/
abbrev ipAddr := List Byte

/-- BATMAN's routing overhead packet. -/
structure RawOGM where
  Origin : Bytes4
  Sender : Bytes4
  TxAddr : Bytes4
  PrevSender : Bytes4
  PrevAddr : Bytes4
  SQN : Uint32
  TTL : Byte
  Quality : Byte
  deriving DecidableEq

/-- Equivalent representation of a RawOGM using internal package types. -/
structure OGM where
  Origin : nodeID
  Sender : nodeID
  TxAddr : ipAddr
  PrevSender : nodeID
  PrevAddr : ipAddr
  SQN : sqn
  TTL : Byte
  Quality : Byte
  RxAddr : ipAddr
  deriving DecidableEq

def nodeIDFromBytes (b : Bytes4) : nodeID := trimZero b.toList

def nodeID.raw (id : nodeID) : Run Bytes4 :=
  if id.length > 4 then Run.panicked "nodeID.raw(): invalid nodeID"
  else Run.done (copyAt Bytes4.zero (4 - id.length) id)

def ipAddrFromBytes (b : Bytes4) : ipAddr := ipString b

def ipAddr.raw (net : NetLib) (ip : ipAddr) : Bytes4 :=
  let b : List Byte :=
    match parseIPTo4 net ip with
    | none => [0, 0, 0, 0]
    | some netIP => netIP.toList
  copyAt Bytes4.zero 0 b

/-- Conversion of a RawOGM to an OGM; `RxAddr` keeps its zero value. -/
def RawOGM.Unpack (ogm : RawOGM) : Run OGM :=
  (newDefaultSQN (ogm.SQN.val : Int)).bind fun s =>
    Run.done
      { Origin := nodeIDFromBytes ogm.Origin
        Sender := nodeIDFromBytes ogm.Sender
        TxAddr := ipAddrFromBytes ogm.TxAddr
        PrevSender := nodeIDFromBytes ogm.PrevSender
        PrevAddr := ipAddrFromBytes ogm.PrevAddr
        SQN := s
        TTL := ogm.TTL
        Quality := ogm.Quality
        RxAddr := [] }

/-- Creation of a RawOGM suitable for sending over the wire. -/
def OGM.Pack (net : NetLib) (s : OGM) : Run RawOGM :=
  (nodeID.raw s.Origin).bind fun origin =>
  (nodeID.raw s.Sender).bind fun sender =>
  (nodeID.raw s.PrevSender).bind fun prevSender =>
    Run.done
      { Origin := origin
        Sender := sender
        TxAddr := ipAddr.raw net s.TxAddr
        PrevSender := prevSender
        PrevAddr := ipAddr.raw net s.PrevAddr
        SQN := ⟨s.SQN.raw, by unfold sqn.raw; omega⟩
        TTL := s.TTL
        Quality := s.Quality }

/-- Bytes of `binary.LittleEndian.PutUint32`. -/
def putUint32 (v : Uint32) : List Byte :=
  [byteOf v.val, byteOf (v.val / 256), byteOf (v.val / 65536), byteOf (v.val / 16777216)]

/-- Value of `binary.LittleEndian.Uint32` on four bytes. -/
def getUint32 (c0 c1 c2 c3 : Byte) : Uint32 :=
  ⟨c0.val + 256 * c1.val + 65536 * c2.val + 16777216 * c3.val, by omega⟩

/-- Bytes that `binary.Write(buffer, binary.LittleEndian, ogm)` appends: the
fields in declaration order, without padding. -/
def binaryWrite (ogm : RawOGM) : List Byte :=
  ogm.Origin.toList ++ ogm.Sender.toList ++ ogm.TxAddr.toList ++
    ogm.PrevSender.toList ++ ogm.PrevAddr.toList ++ putUint32 ogm.SQN ++
    [ogm.TTL, ogm.Quality]

/-- Four bytes of `b` starting at `off`. -/
def bytes4At (b : List Byte) (off : Nat) : Bytes4 :=
  ⟨b.getD off 0, b.getD (off + 1) 0, b.getD (off + 2) 0, b.getD (off + 3) 0⟩

/-- Zero value of RawOGM. -/
def RawOGM.zero : RawOGM :=
  ⟨Bytes4.zero, Bytes4.zero, Bytes4.zero, Bytes4.zero, Bytes4.zero, 0, 0, 0⟩

/-- Call `binary.Read(b, binary.LittleEndian, &ogmRaw)` on a zero RawOGM: the
decoded value and the rest of the buffer.  A short buffer is drained and the
RawOGM keeps its zero value (the returned error is ignored by the caller). -/
def binaryRead (b : List Byte) : RawOGM × List Byte :=
  if b.length < batOGMSize then (RawOGM.zero, [])
  else
    ({ Origin := bytes4At b 0
       Sender := bytes4At b 4
       TxAddr := bytes4At b 8
       PrevSender := bytes4At b 12
       PrevAddr := bytes4At b 16
       SQN := getUint32 (b.getD 20 0) (b.getD 21 0) (b.getD 22 0) (b.getD 23 0)
       TTL := b.getD 24 0
       Quality := b.getD 25 0 },
     b.drop batOGMSize)

/-- Loop of `parseOGMs`: `todo` iterations remain, `b` is the read buffer. -/
def parseLoop (addr : ipAddr) : Nat → List Byte → List OGM → Run (List OGM)
  | 0, _, output => Run.done output
  | todo + 1, b, output =>
    (RawOGM.Unpack (binaryRead b).1).bind fun ogm =>
      parseLoop addr todo (binaryRead b).2 (output ++ [{ ogm with RxAddr := addr }])

def parseOGMs (ogmBundle : List Byte) (addr : ipAddr) : Run (Except String (List OGM)) :=
  if ogmBundle.length < 27 ∨ ((ogmBundle.length : Int) - 1).tmod (batOGMSize : Int) ≠ 0 then
    Run.done (Except.error "parseOGMs: malformed ogmBundle")
  else
    let b := ogmBundle.drop 1
    let count : Nat := (ogmBundle.getD 0 0).val
    if count * batOGMSize ≠ ogmBundle.length - 1 then
      Run.done (Except.error "parseOGMs: invalid count value")
    else
      (parseLoop addr count b []).bind fun output => Run.done (Except.ok output)

/-- Result of `packOGMs`: the error, or the new contents of `*buf`.  The
`binary.Write` of a fixed-size struct into a `bytes.Buffer` returns no error. -/
def packOGMs (buf : ByteSlice) (ogms : List RawOGM) : Except String (List Byte) :=
  if buf.cap < ogms.length * batOGMSize + 1 then
    Except.error "packOGMs: byte slice too small for OGM bundle size"
  else
    let lengthByte : Byte := byteOf ogms.length
    if lengthByte.val ≠ ogms.length then
      Except.error "packOGMs: OGM slice length overflowed one byte"
    else
      Except.ok (ogms.foldl (fun buffer ogm => buffer ++ binaryWrite ogm) [lengthByte])

/-! ## window_ring.go -/

/-- Small sliding window buffer indexed by a large looping address space. -/
structure windowRing where
  ring : List Byte
  addressSize : Int
  windowSize : Int
  defaultVal : Byte
  windowHead : Int
  addressHead : Int
  deriving DecidableEq

/-- Constructor: `make([]byte, windowSize)` panics on a negative length; the
fill loop runs when `defaultVal` is not zero. -/
def newWindowRing (addressSize windowSize : Int) (defaultVal : Byte) : Run windowRing :=
  if addressSize < windowSize then
    Run.panicked "batman: newWindowRing: addressSize < windowSize"
  else if windowSize < 0 then
    Run.panicked "makeslice: len out of range"
  else
    let zeros : List Byte := List.replicate windowSize.toNat 0
    Run.done
      { ring := if defaultVal ≠ 0 then zeros.map (fun _ => defaultVal) else zeros
        addressSize := addressSize
        windowSize := windowSize
        defaultVal := defaultVal
        windowHead := 0
        addressHead := 0 }

/-- Assignment `ring[i] = v`, with Go's bounds check. -/
def ringStore (ring : List Byte) (i : Int) (v : Byte) : Run (List Byte) :=
  if 0 ≤ i ∧ i < (ring.length : Int) then Run.done (ring.set i.toNat v)
  else Run.panicked "index out of range"

/-- Load `ring[i]`, with Go's bounds check. -/
def ringLoad (ring : List Byte) (i : Int) : Run Byte :=
  if 0 ≤ i ∧ i < (ring.length : Int) then Run.done (ring.getD i.toNat 0)
  else Run.panicked "index out of range"

/-- Method `inWindow`, over the integers; the machine form is
`windowRing.inWindowWrap`. -/
def windowRing.inWindow (w : windowRing) (loc : Int) : Bool :=
  let distance := pmod (w.addressHead - loc) w.addressSize
  decide (distance < w.windowSize)

/-- Loop `for i := 0; i < moveBy && i < w.windowSize; i++` of `write`, from
loop index `i` on: the ring and the last `windowWriteIndex`.  The loop makes at
most `windowSize` rounds, which is the fuel `write` passes. -/
def windowRing.clearLoop (moveBy : Int) :
    Nat → Int → windowRing → Int → Run (windowRing × Int)
  | 0, _, w, windowWriteIndex => Run.done (w, windowWriteIndex)
  | fuel + 1, i, w, windowWriteIndex =>
    if i < moveBy ∧ i < w.windowSize then
      let head := pmod (1 + w.windowHead) w.windowSize
      (ringStore w.ring head w.defaultVal).bind fun ring =>
        windowRing.clearLoop moveBy fuel (i + 1)
          { w with windowHead := head, ring := ring } head
    else Run.done (w, windowWriteIndex)

/-- Method `write(loc, val...)`, over the integers; `val` is the variadic
argument.  The machine form is `windowRing.writeWrap`. -/
def windowRing.write (w : windowRing) (loc : Int) (val : List Byte) : Run windowRing :=
  if loc < 0 then Run.panicked "windowRing: write: negative loc"
  else if loc > w.addressSize then Run.panicked "windowRing: write: loc exceeds addressSize"
  else if val.length > 1 then Run.panicked "windowRing: write: too many values"
  else
    let located : Run (windowRing × Int) :=
      if w.inWindow loc then
        let distFromHead := pmod (w.addressHead - loc) w.addressSize
        Run.done (w, pmod (w.windowHead - distFromHead) w.windowSize)
      else
        let moveBy := pmod (loc - w.addressHead) w.addressSize
        let w1 := { w with addressHead := pmod (moveBy + w.addressHead) w.addressSize }
        if w1.addressHead ≠ loc then
          Run.panicked "windowRing: write: addressHead/loc mismatch!"
        else windowRing.clearLoop moveBy w1.windowSize.toNat 0 w1 0
    located.bind fun st =>
      match val with
      | [] => Run.done st.1
      | v :: _ =>
        (ringStore st.1.ring st.2 v).bind fun ring => Run.done { st.1 with ring := ring }

/-- Method `read`, over the integers; the machine form is
`windowRing.readWrap`. -/
def windowRing.read (w : windowRing) (loc : Int) : Run (Byte × Bool) :=
  let distance := pmod (w.addressHead - loc) w.addressSize
  if distance < w.windowSize then
    (ringLoad w.ring (pmod (w.windowHead - distance) w.windowSize)).bind fun val =>
      Run.done (val, true)
  else Run.done (0, false)

/-- Number of exact matches of `val` in the ring. -/
def windowRing.countHits (w : windowRing) (val : Byte) : Int :=
  w.ring.foldl (fun count v => if val = v then count + 1 else count) 0

/-- A run of writes, one after the other. -/
def windowRing.writeAll (w : windowRing) : List (Int × List Byte) → Run windowRing
  | [] => Run.done w
  | (loc, val) :: rest => (w.write loc val).bind fun w1 => windowRing.writeAll w1 rest

/-! ## tq_metric.go -/

/-- An instant of `time.Time`. -/
abbrev Time := Int

/-- Conversion `byte(x)` of an `int`: the low eight bits. -/
def byteOfInt (x : Int) : Byte := ⟨(x % 256).toNat, by omega⟩

/-- Tracking data for the bidirectional quality of a single link. -/
structure linkData where
  tq : Byte
  rqWindow : windowRing
  eqWindow : windowRing
  seen : Time
  deriving DecidableEq

def newlinkData : Run linkData :=
  (newWindowRing batSQNAddrSize batLocalWindowSize 0).bind fun rqWindow =>
  (newWindowRing batSQNAddrSize batLocalWindowSize 0).bind fun eqWindow =>
    Run.done { tq := 0, rqWindow := rqWindow, eqWindow := eqWindow, seen := 0 }

/-- Calculation of a new TQ metric value from the EQ and RQ windows. -/
def linkData.updateTQ (link : linkData) : linkData :=
  let countEQ := link.eqWindow.windowSize - link.eqWindow.countHits 0
  let countRQ := link.rqWindow.windowSize - link.rqWindow.countHits 0
  let tq : Byte :=
    if countRQ < batCutoffRQSamples ∨ countEQ < batCutoffEQSamples then 0
    else if countRQ < countEQ then byteOfInt batTQMaxValue
    else
      let rawTQ := (countEQ * batTQMaxValue).tdiv countRQ
      let localWinSize := link.eqWindow.windowSize
      let tqAsymPenalty := batTQMaxValue -
        (batTQMaxValue * (localWinSize - countRQ) * (localWinSize - countRQ) *
            (localWinSize - countRQ)).tdiv
          (localWinSize * localWinSize * localWinSize)
      let tq := byteOfInt ((rawTQ * tqAsymPenalty).tdiv batTQMaxValue)
      if (tq.val : Int) < batCutoffTQ then 0 else tq
  { link with tq := tq }

def linkData.markReceive (link : linkData) (seq : sqn) (value : Byte) (when : Time) :
    Run linkData :=
  (link.rqWindow.write seq.num [value]).bind fun rqWindow =>
    let link1 := { link with rqWindow := rqWindow }
    let link2 := if when > link1.seen then { link1 with seen := when } else link1
    Run.done link2.updateTQ

def linkData.markEcho (link : linkData) (seq : sqn) (value : Byte) (when : Time) :
    Run linkData :=
  (link.eqWindow.write seq.num [value]).bind fun eqWindow =>
    let link1 := { link with eqWindow := eqWindow }
    let link2 := if when > link1.seen then { link1 with seen := when } else link1
    Run.done link2.updateTQ

/-- Go map from link addresses to link data, as a list of entries with
distinct keys.  Each `linkData` owns its two rings, so the entries are values. -/
abbrev nodeLinksMap := List (ipAddr × linkData)

def newNodeLinkMap : nodeLinksMap := []

/-- Loop `for ipKey, linkPtr := range nlm` of `markReceive`; the entries are
updated independently, so the order of the range does not show in the result. -/
def nodeLinksMap.markReceiveEach (ip : ipAddr) (seq : sqn) (when : Time) :
    nodeLinksMap → Run nodeLinksMap
  | [] => Run.done []
  | (ipKey, link) :: rest =>
    (if ipKey = ip then link.markReceive seq (byteOfInt batTQMaxValue) when
      else link.markReceive seq 0 link.seen).bind fun link1 =>
    (nodeLinksMap.markReceiveEach ip seq when rest).bind fun rest1 =>
      Run.done ((ipKey, link1) :: rest1)

/-- Method `addLink`: `nlm[ip] = newlinkData()`. -/
def nodeLinksMap.addLink (nlm : nodeLinksMap) (ip : ipAddr) : Run nodeLinksMap :=
  newlinkData.bind fun link =>
    Run.done (if nlm.any (fun e => e.1 == ip)
      then nlm.map (fun e => if e.1 = ip then (ip, link) else e)
      else nlm ++ [(ip, link)])

def nodeLinksMap.markReceive (nlm : nodeLinksMap) (ip : ipAddr) (seq : sqn) (when : Time) :
    Run nodeLinksMap :=
  (if nlm.any (fun e => e.1 == ip) then Run.done nlm else nodeLinksMap.addLink nlm ip).bind
    fun nlm1 => nodeLinksMap.markReceiveEach ip seq when nlm1

/-! ## Predicates used in the statements -/

/-- Text that ends a decimal field: the end of the input or a dot. -/
def EndsField (rest : List Byte) : Prop := rest = [] ∨ ∃ t, rest = (46 : Byte) :: t

/-- A node id that padding and trimming leave alone: at most four bytes,
with no zero byte at either end. -/
def nodeID.plain (id : nodeID) : Prop :=
  id.length ≤ 4 ∧ id.head? ≠ some 0 ∧ id.getLast? ≠ some 0

instance (id : nodeID) : Decidable (nodeID.plain id) := by
  unfold nodeID.plain; exact inferInstance

/-- A wire field that trimming and padding leave alone: all zero, or ending
in a non-zero byte. -/
def Bytes4.plain (b : Bytes4) : Prop := b.b3 ≠ 0 ∨ b = Bytes4.zero

instance (b : Bytes4) : Decidable b.plain := by
  unfold Bytes4.plain; exact inferInstance

/-- Text that Go prints for an IPv4 address: four decimal fields `0..255`
without leading zeros, separated by dots. -/
def ipAddr.dotted (ip : ipAddr) : Prop := ∃ b : Bytes4, ip = ipString b

/-- A default sequence number: limit 2048, window 64 and `0 ≤ num < 2048`. -/
def sqn.isDefault (s : sqn) : Prop :=
  s.limit = batSQNAddrSize ∧ s.window = batLocalWindowSize ∧ 0 ≤ s.num ∧ s.num < 2048

instance (s : sqn) : Decidable s.isDefault := by
  unfold sqn.isDefault; exact inferInstance

/-- Well-formed OGM in the words of the round-trip law: node ids of at most
four bytes, link addresses in dotted decimal, a default sequence number. -/
def OGM.wellFormed (x : OGM) : Prop :=
  x.Origin.length ≤ 4 ∧ x.Sender.length ≤ 4 ∧ x.PrevSender.length ≤ 4 ∧
    ipAddr.dotted x.TxAddr ∧ ipAddr.dotted x.PrevAddr ∧ x.SQN.isDefault

/-- The round trip `x.Pack().Unpack()` completes and gives back `x` in every
field except `RxAddr`. -/
def OGM.roundTrips (net : NetLib) (x : OGM) : Prop :=
  ∃ r y, OGM.Pack net x = Run.done r ∧ r.Unpack = Run.done y ∧
    { y with RxAddr := x.RxAddr } = x

/-- Bytes of a sequence of RawOGMs written one after the other. -/
def wire : List RawOGM → List Byte
  | [] => []
  | ogm :: rest => binaryWrite ogm ++ wire rest

/-- The OGM that `parseOGMs` builds from a RawOGM whose sequence number is
below 2048, received on `addr`. -/
def RawOGM.decoded (addr : ipAddr) (ogm : RawOGM) : OGM :=
  { Origin := nodeIDFromBytes ogm.Origin
    Sender := nodeIDFromBytes ogm.Sender
    TxAddr := ipAddrFromBytes ogm.TxAddr
    PrevSender := nodeIDFromBytes ogm.PrevSender
    PrevAddr := ipAddrFromBytes ogm.PrevAddr
    SQN := ⟨(ogm.SQN.val : Int), 2048, 64⟩
    TTL := ogm.TTL
    Quality := ogm.Quality
    RxAddr := addr }

/-- The 26 bytes of a RawOGM on the wire, written out field by field. -/
def RawOGM.layout (o : RawOGM) : List Byte :=
  [o.Origin.b0, o.Origin.b1, o.Origin.b2, o.Origin.b3,
   o.Sender.b0, o.Sender.b1, o.Sender.b2, o.Sender.b3,
   o.TxAddr.b0, o.TxAddr.b1, o.TxAddr.b2, o.TxAddr.b3,
   o.PrevSender.b0, o.PrevSender.b1, o.PrevSender.b2, o.PrevSender.b3,
   o.PrevAddr.b0, o.PrevAddr.b1, o.PrevAddr.b2, o.PrevAddr.b3,
   byteOf (o.SQN.val % 256), byteOf (o.SQN.val / 256 % 256),
   byteOf (o.SQN.val / 65536 % 256), byteOf (o.SQN.val / 16777216 % 256),
   o.TTL, o.Quality]

/-! ## Sample data -/

/-- Sample OGM of `TestSimpleOGMRawConversion`. -/
def simpleOGM : OGM :=
  { Origin := [53]
    Sender := [55]
    TxAddr := [49, 48, 46, 52, 46, 54, 46, 50]
    PrevSender := [50]
    PrevAddr := [49, 57, 50, 46, 49, 54, 56, 46, 49, 48, 46, 49, 48]
    SQN := ⟨102, 2048, 64⟩
    TTL := 200
    Quality := 250
    RxAddr := [] }

/-- RawOGM of the tests in `ogm_test.go`. -/
def sampleOGM : RawOGM :=
  ⟨⟨0, 0, 0, 1⟩, ⟨0, 0, 0, 2⟩, ⟨0, 0, 0, 3⟩, ⟨0, 0, 0, 4⟩, ⟨0, 0, 0, 5⟩, 42, 2, 128⟩

/-- A datagram of one OGM, all fields zero except the sequence number 2048
(bytes `00 08 00 00`). -/
def sqn2048Datagram : List Byte :=
  [1, 0, 0, 0, 0, 0, 0, 0, 0, 0, 0, 0, 0, 0, 0, 0, 0, 0, 0, 0, 0, 0, 8, 0, 0, 0, 0]

/-- An OGM whose origin id starts with a zero byte: the two bytes `00 61`. -/
def zeroLedOGM : OGM := { simpleOGM with Origin := [0, 97] }

/-! ## Window-ring and link-metric predicates and sample data -/

/-- Invariant of the rings that `newWindowRing` builds with
`1 ≤ windowSize ≤ addressSize` and that `write` keeps: the ring has
`windowSize` slots and both heads are in range. -/
def windowRing.wellFormed (w : windowRing) : Prop :=
  (w.ring.length : Int) = w.windowSize ∧ 1 ≤ w.windowSize ∧ w.windowSize ≤ w.addressSize ∧
    0 ≤ w.windowHead ∧ w.windowHead < w.windowSize ∧
    0 ≤ w.addressHead ∧ w.addressHead < w.addressSize

instance (w : windowRing) : Decidable w.wellFormed := by
  unfold windowRing.wellFormed; exact inferInstance

/-- Byte stored for the position `d` steps behind the address head. -/
def windowRing.slot (w : windowRing) (d : Int) : Byte :=
  w.ring.getD (pmod (w.windowHead - d) w.windowSize).toNat 0

/-- One round of the clearing loop of `write`, as a pure step. -/
def windowRing.advance (w : windowRing) : windowRing :=
  { w with
    windowHead := pmod (1 + w.windowHead) w.windowSize
    ring := w.ring.set (pmod (1 + w.windowHead) w.windowSize).toNat w.defaultVal }

/-- Rounds of the clearing loop, `k` of them. -/
def windowRing.advanceBy : Nat → windowRing → windowRing
  | 0, w => w
  | k + 1, w => windowRing.advanceBy k w.advance

/-- Final store of `write`: the value, when one is given, goes to slot `i`. -/
def windowRing.store (w : windowRing) (i : Int) : List Byte → windowRing
  | [] => w
  | v :: _ => { w with ring := w.ring.set i.toNat v }

/-- The position `loc` is inside the window after each write of the run. -/
def windowRing.staysInWindow (loc : Int) : windowRing → List (Int × List Byte) → Bool
  | _, [] => true
  | w, (p, val) :: rest =>
    match w.write p val with
    | Run.done w1 => w1.inWindow loc && windowRing.staysInWindow loc w1 rest
    | Run.panicked _ => false

/-- Ring of `newWindowRing(2048, 64, 0)`. -/
def ring2048 : windowRing :=
  { ring := List.replicate 64 0, addressSize := 2048, windowSize := 64, defaultVal := 0,
    windowHead := 0, addressHead := 0 }

/-- Ring of `newWindowRing(32, 4, 0)` after `write(10, 1)`. -/
def ring32At10 : windowRing :=
  { ring := [1, 0, 0, 0], addressSize := 32, windowSize := 4, defaultVal := 0,
    windowHead := 0, addressHead := 10 }

/-- Count `countRQ` of `updateTQ`: the slots of the RQ window that are not 0. -/
def linkData.countRQ (link : linkData) : Int :=
  link.rqWindow.windowSize - link.rqWindow.countHits 0

/-- Count `countEQ` of `updateTQ`: the slots of the EQ window that are not 0. -/
def linkData.countEQ (link : linkData) : Int :=
  link.eqWindow.windowSize - link.eqWindow.countHits 0

/-- The TQ formula in the words of the specification, over the integers with
flooring division: `0` below a sample cut-off, `255` when `rqCount < eqCount`,
otherwise the raw quality times the asymmetry penalty, clamped to `0` below 10. -/
def tqFormula (rqCount eqCount W : Int) : Int :=
  if rqCount < 10 ∨ eqCount < 10 then 0
  else if rqCount < eqCount then 255
  else
    let t := ((eqCount * 255 / rqCount) * (255 - 255 * (W - rqCount) ^ 3 / W ^ 3)) / 255
    if t < 10 then 0 else t

/-- Both windows of the link are rings of `W` slots. -/
def linkData.windowsOfSize (link : linkData) (W : Int) : Prop :=
  (link.rqWindow.ring.length : Int) = W ∧ link.rqWindow.windowSize = W ∧
    (link.eqWindow.ring.length : Int) = W ∧ link.eqWindow.windowSize = W

instance (link : linkData) (W : Int) : Decidable (link.windowsOfSize W) := by
  unfold linkData.windowsOfSize; exact inferInstance

/-- The products `updateTQ` computes in its ordinary case, in evaluation order. -/
def linkData.tqProducts (link : linkData) : List Int :=
  let countEQ := link.countEQ
  let countRQ := link.countRQ
  let localWinSize := link.eqWindow.windowSize
  let rawTQ := (countEQ * batTQMaxValue).tdiv countRQ
  let tqAsymPenalty := batTQMaxValue -
    (batTQMaxValue * (localWinSize - countRQ) * (localWinSize - countRQ) *
        (localWinSize - countRQ)).tdiv
      (localWinSize * localWinSize * localWinSize)
  [countEQ * batTQMaxValue,
   batTQMaxValue * (localWinSize - countRQ),
   batTQMaxValue * (localWinSize - countRQ) * (localWinSize - countRQ),
   batTQMaxValue * (localWinSize - countRQ) * (localWinSize - countRQ) *
     (localWinSize - countRQ),
   localWinSize * localWinSize,
   localWinSize * localWinSize * localWinSize,
   rawTQ * tqAsymPenalty]

/-- The value `rawTQ * tqAsymPenalty / batTQMaxValue` that `updateTQ` converts
to a byte in its ordinary case. -/
def linkData.tqUnconverted (link : linkData) : Int :=
  let countEQ := link.countEQ
  let countRQ := link.countRQ
  let localWinSize := link.eqWindow.windowSize
  let rawTQ := (countEQ * batTQMaxValue).tdiv countRQ
  let tqAsymPenalty := batTQMaxValue -
    (batTQMaxValue * (localWinSize - countRQ) * (localWinSize - countRQ) *
        (localWinSize - countRQ)).tdiv
      (localWinSize * localWinSize * localWinSize)
  (rawTQ * tqAsymPenalty).tdiv batTQMaxValue

/-- A 64-slot window in which the first `n` slots hold 255, as `n` writes of
255 to the positions `0 .. n-1` leave it (`1 ≤ n ≤ 64`). -/
def filledRing (n : Nat) : windowRing :=
  { ring := List.replicate n 255 ++ List.replicate (64 - n) 0
    addressSize := 2048, windowSize := 64, defaultVal := 0
    windowHead := (n : Int) - 1, addressHead := (n : Int) - 1 }

/-- Link with 30 marked slots in the RQ window and 20 in the EQ window. -/
def link30x20 : linkData :=
  { tq := 0, rqWindow := filledRing 30, eqWindow := filledRing 20, seen := 0 }

/-- Link with both windows fully marked. -/
def linkFull : linkData :=
  { tq := 0, rqWindow := filledRing 64, eqWindow := filledRing 64, seen := 0 }

/-! ## Go maps -/

/-- Map load `m[k]` with its `ok` flag, on a map held as a list of entries. -/
def mapGet {κ α : Type} [DecidableEq κ] : List (κ × α) → κ → Option α
  | [], _ => none
  | (k1, a) :: rest, k => if k1 = k then some a else mapGet rest k

/-- Map store `m[k] = a`: the entry of `k` is replaced, or a new one added. -/
def mapSet {κ α : Type} [DecidableEq κ] : List (κ × α) → κ → α → List (κ × α)
  | [], k, a => [(k, a)]
  | (k1, a1) :: rest, k, a =>
    if k1 = k then (k, a) :: rest else (k1, a1) :: mapSet rest k a

/-! ## tq_metric.go: echoes -/

/-- Loop of `nodeLinksMap.markEcho` over the links of a neighbor. -/
def nodeLinksMap.markEcho : nodeLinksMap → ipAddr → sqn → Time → Run nodeLinksMap
  | [], _, _, _ => Run.done []
  | (ipKey, link) :: rest, ip, seq, when =>
    (if ipKey = ip then link.markEcho seq (byteOfInt batTQMaxValue) when
      else link.markEcho seq 0 link.seen).bind fun link1 =>
    (nodeLinksMap.markEcho rest ip seq when).bind fun rest1 =>
      Run.done ((ipKey, link1) :: rest1)

/-! ## route_tracking.go -/

/-- Next hop towards a destination: self-reported quality, sequence number
and time of the last update. -/
structure hop where
  quality : Byte
  sqn : sqn
  lastSeen : Time
  deriving DecidableEq

/-- All possible next hops for a single destination. -/
structure routeTracker where
  nextHops : List (ipAddr × hop)
  latestSQN : sqn
  deriving DecidableEq

def newRouteTracker : routeTracker :=
  { nextHops := [], latestSQN := ⟨0, 0, 0⟩ }

/-- Method `update`, with the comparisons over the integers; the machine form
is `routeTracker.updateWrap`.  The load `r.nextHops[ip]` of the third step
finds the entry that the first step made sure of; a missing one would be a nil
pointer. -/
def routeTracker.update (r : routeTracker) (ip : ipAddr) (s : sqn) (quality : Byte)
    (when : Time) : Run routeTracker :=
  let r1 : routeTracker :=
    if (mapGet r.nextHops ip).isNone then
      { r with nextHops := mapSet r.nextHops ip ⟨quality, s, when⟩ }
    else r
  let r2 : routeTracker :=
    if s.greaterThan r1.latestSQN then { r1 with latestSQN := s } else r1
  match mapGet r2.nextHops ip with
  | none => Run.panicked "invalid memory address or nil pointer dereference"
  | some hopPtr =>
    if s.greaterThan hopPtr.sqn || s.equalTo hopPtr.sqn then
      Run.done { r2 with nextHops := mapSet r2.nextHops ip ⟨quality, s, when⟩ }
    else Run.done r2

/-! ## batman.go and forwarding_rules.go -/

/-- State of a node as far as the forwarding rules use it.  The channel
`outboundOGM` is the list of the OGMs sent on it, oldest first. -/
structure Batman where
  id : nodeID
  sqn : sqn
  outboundOGM : List OGM
  nodes : List (nodeID × routeTracker)
  neighbors : List (nodeID × nodeLinksMap)
  deriving DecidableEq

def Batman.rebroadcast (b : Batman) (ogm : OGM) : Batman :=
  if ogm.TTL.val < 1 then b
  else
    let lossFactor : Byte := 1
    let ogm1 := { ogm with PrevSender := ogm.Sender }
    let ogm2 := { ogm1 with PrevAddr := ogm1.TxAddr }
    let ogm3 := { ogm2 with Sender := b.id }
    let ogm4 := { ogm3 with TTL := ogm3.TTL - 1 }
    let ogm5 := { ogm4 with Quality := ogm4.Quality * lossFactor }
    { b with outboundOGM := b.outboundOGM ++ [ogm5] }

/-- Forwarding rules; `now1` and `now2` are the readings of `time.Now()` in
the order of the calls. -/
def Batman.processAndForward (b : Batman) (ogm : OGM) (now1 now2 : Time) : Run Batman :=
  let sentByNeighbor := (mapGet b.neighbors ogm.Sender).isSome
  let viaKnownLink := (mapGet b.neighbors ogm.Sender).isSome
  let knownNode := (mapGet b.nodes ogm.Origin).isSome
  if ogm.TTL.val ≤ 0 then Run.done b
  else if ogm.Origin = b.id ∧ ogm.PrevSender = b.id ∧ sentByNeighbor = true ∧
      viaKnownLink = true then
    let directLink := decide (ogm.RxAddr = ogm.PrevAddr)
    let directIP : ipAddr := if directLink then ogm.TxAddr else []
    match mapGet b.neighbors ogm.Sender with
    | none => Run.done b
    | some links =>
      (nodeLinksMap.markEcho links directIP ogm.SQN now1).bind fun links1 =>
        Run.done { b with neighbors := mapSet b.neighbors ogm.Sender links1 }
  else if ogm.Sender = ogm.Origin ∧ ogm.Origin ≠ b.id then
    let knownNeighbor := (mapGet b.neighbors ogm.Origin).isSome
    let nodes1 := if knownNode then b.nodes else mapSet b.nodes ogm.Origin newRouteTracker
    let neighbors1 :=
      if knownNeighbor then b.neighbors else mapSet b.neighbors ogm.Origin newNodeLinkMap
    match mapGet neighbors1 ogm.Origin, mapGet nodes1 ogm.Origin with
    | some links, some tracker =>
      (nodeLinksMap.markReceive links ogm.TxAddr ogm.SQN now1).bind fun links1 =>
      (tracker.update ogm.TxAddr ogm.SQN ogm.Quality now2).bind fun tracker1 =>
        Run.done (Batman.rebroadcast
          { b with nodes := mapSet nodes1 ogm.Origin tracker1,
                   neighbors := mapSet neighbors1 ogm.Origin links1 } ogm)
    | _, _ => Run.panicked "invalid memory address or nil pointer dereference"
  else if ogm.Sender ≠ ogm.Origin ∧ ogm.Origin ≠ b.id ∧ ogm.Sender ≠ b.id ∧
      sentByNeighbor = true ∧ viaKnownLink = true then
    Run.done b
  else Run.done b

/-! ## Predicates of the forwarding statements -/

/-- RQ window of the link `ip` of the neighbor `n`, when the node knows both. -/
def Batman.rqWindowOf (b : Batman) (n : nodeID) (ip : ipAddr) : Option windowRing :=
  (mapGet b.neighbors n).bind fun links => (mapGet links ip).map fun link => link.rqWindow

/-- Every EQ window of the links is a ring as `newlinkData` builds it and
`write` keeps it: the ring invariant, over the address space of the sequence
numbers. -/
def nodeLinksMap.eqWindowsDefault (links : nodeLinksMap) : Prop :=
  ∀ e ∈ links, e.2.eqWindow.wellFormed ∧ e.2.eqWindow.addressSize = batSQNAddrSize

instance (links : nodeLinksMap) : Decidable links.eqWindowsDefault := by
  unfold nodeLinksMap.eqWindowsDefault; exact inferInstance

/-! ## Sample data for the routing and forwarding statements -/

/-- Default sequence number 5. -/
def sqn5 : sqn := ⟨5, 2048, 64⟩

/-- Link data as `newlinkData` builds it. -/
def freshLink : linkData :=
  { tq := 0, rqWindow := ring2048, eqWindow := ring2048, seen := 0 }

/-- Ring of a default window with head 5 whose only hit is at the oldest
position of the window, 1990 (ring slot `(5 - 63) mod 64 = 6`). -/
def ringOldHit : windowRing :=
  { ring := [0, 0, 0, 0, 0, 0, 255] ++ List.replicate 57 0
    addressSize := 2048, windowSize := 64, defaultVal := 0
    windowHead := 5, addressHead := 5 }

/-- Node `L1` that knows the neighbor `N1` through the link `1`, whose EQ
window holds one hit, at the oldest position of the window. -/
def nodeWithNeighbor : Batman :=
  { id := [76, 49], sqn := ⟨0, 2048, 64⟩, outboundOGM := [], nodes := []
    neighbors := [([78, 49], [([49], { freshLink with eqWindow := ringOldHit })])] }

/-- OGM of origin `O` forwarded by the neighbor `N1` over its link `1`. -/
def distantOGM : OGM :=
  { Origin := [79], Sender := [78, 49], TxAddr := [49], PrevSender := [79], PrevAddr := [50]
    SQN := ⟨100, 2048, 64⟩, TTL := 5, Quality := 200, RxAddr := [51] }

/-- Own OGM of `L1` echoed by the neighbor `N1` from the address `9`, which is
not one of the links known for `N1`. -/
def echoFromUnknownLink : OGM :=
  { Origin := [76, 49], Sender := [78, 49], TxAddr := [57], PrevSender := [76, 49]
    PrevAddr := [51], SQN := ⟨6, 2048, 64⟩, TTL := 5, Quality := 200, RxAddr := [51] }

/-- The ring `ringOldHit` after `write(6, 0)`: heads moved by 1, all slots 0. -/
def ringMovedTo6 : windowRing :=
  { ring := List.replicate 64 0, addressSize := 2048, windowSize := 64, defaultVal := 0
    windowHead := 6, addressHead := 6 }

/-- First OGM of the node `N2`, sent by itself from its address `2`. -/
def neighborOGM : OGM :=
  { Origin := [78, 50], Sender := [78, 50], TxAddr := [50], PrevSender := [78, 50]
    PrevAddr := [50], SQN := sqn5, TTL := 5, Quality := 255, RxAddr := [51] }

/-- Own OGM of `L1`, sequence number 5, echoed by the neighbor `N1` over its
link `1` and received on the interface it was sent from. -/
def echoOGM : OGM :=
  { Origin := [76, 49], Sender := [78, 49], TxAddr := [49], PrevSender := [76, 49]
    PrevAddr := [51], SQN := sqn5, TTL := 5, Quality := 200, RxAddr := [51] }

/-! ## Machine integers

The operands of `sqn.add` and `sqn.subtract` need not be valid sequence
numbers, so their sums are not bounded by a limit: for these methods the
wrap-around of Go's `int` is explicit. -/

/-- Largest value of Go's `int` on a 64-bit platform. -/
def maxInt : Int := 2 ^ 63 - 1

/-- The `int` that an exact result is stored as: two's complement, 64 bits. -/
def wrapInt (x : Int) : Int := (x + 2 ^ 63) % 2 ^ 64 - 2 ^ 63

/-- Function `pmod` of `math.go` on machine integers: the sum `x % y + y`
wraps around. -/
def pmodWrap (x y : Int) : Int := (wrapInt (x.tmod y + y)).tmod y

/-! ## sqn.go: arithmetic -/

def sqn.increment (s : sqn) : sqn :=
  { s with num := pmodWrap (wrapInt (s.num + 1)) s.limit }

def sqn.add (s n : sqn) : sqn :=
  { num := pmodWrap (wrapInt (s.num + n.num)) s.limit
    limit := s.limit
    window := s.window }

def sqn.subtract (s n : sqn) : sqn :=
  { num := pmodWrap (wrapInt (s.num - n.num)) s.limit
    limit := s.limit
    window := s.window }

/-! ## batman.go: own advertisement -/

def batTTL : Int := 16

def Batman.advanceSQN (b : Batman) : Batman :=
  { b with sqn := b.sqn.increment }

/-- Method `advertiseOGM`; `updateLinkEstimates` and `rebuildRoutingTable` have
empty bodies. -/
def Batman.advertiseOGM (b : Batman) : Batman :=
  let b1 := b.advanceSQN
  let ogm : OGM :=
    { Origin := b1.id
      Sender := b1.id
      TxAddr := []
      PrevSender := []
      PrevAddr := []
      SQN := b1.sqn
      TTL := byteOfInt batTTL
      Quality := byteOfInt batTQMaxValue
      RxAddr := [] }
  { b1 with outboundOGM := b1.outboundOGM ++ [ogm] }

/-! ## tq_metric.go: linkMetric -/

/-- Tracking data of `linkMetric`, the second implementation of the link
metric in `tq_metric.go`. -/
structure linkMetric where
  tq : Byte
  rqWindow : windowRing
  eqWindow : windowRing
  latestSQN : sqn
  deriving DecidableEq

/-- Method `linkMetric.updateTQ`: the samples are the slots that hold
`batTQMaxValue`, the window size is the constant `batLocalWindowSize`. -/
def linkMetric.updateTQ (m : linkMetric) : linkMetric :=
  let sumEQ := m.eqWindow.countHits (byteOfInt batTQMaxValue)
  let sumRQ := m.rqWindow.countHits (byteOfInt batTQMaxValue)
  let tq : Byte :=
    if sumRQ < batCutoffRQSamples ∨ sumEQ < batCutoffEQSamples then 0
    else if sumRQ < sumEQ then byteOfInt batTQMaxValue
    else
      let rawTQ := (sumEQ * batTQMaxValue).tdiv sumRQ
      let tqAsymPenalty := batTQMaxValue -
        (batTQMaxValue * (batLocalWindowSize - sumRQ) * (batLocalWindowSize - sumRQ) *
            (batLocalWindowSize - sumRQ)).tdiv
          (batLocalWindowSize * batLocalWindowSize * batLocalWindowSize)
      let tq := byteOfInt ((rawTQ * tqAsymPenalty).tdiv batTQMaxValue)
      if (tq.val : Int) < batCutoffTQ then 0 else tq
  { m with tq := tq }

/-! ## Runs of link-map calls -/

/-- A call of `markReceive` or `markEcho` on a nodeLinksMap. -/
inductive linkCall where
  | receive (ip : ipAddr) (seq : sqn) (when : Time) : linkCall
  | echo (ip : ipAddr) (seq : sqn) (when : Time) : linkCall
  deriving DecidableEq

/-- Sequence number passed to the call. -/
def linkCall.seq : linkCall → sqn
  | linkCall.receive _ seq _ => seq
  | linkCall.echo _ seq _ => seq

/-- The calls made one after the other on the same map. -/
def nodeLinksMap.callAll (nlm : nodeLinksMap) : List linkCall → Run nodeLinksMap
  | [] => Run.done nlm
  | linkCall.receive ip seq when :: rest =>
    (nodeLinksMap.markReceive nlm ip seq when).bind fun nlm1 =>
      nodeLinksMap.callAll nlm1 rest
  | linkCall.echo ip seq when :: rest =>
    (nodeLinksMap.markEcho nlm ip seq when).bind fun nlm1 =>
      nodeLinksMap.callAll nlm1 rest

/-- A window as the link code keeps it: the ring invariant, the sizes of
`newlinkData`, default value 0 and no slot other than 0 or 255. -/
def windowRing.marksOnly (w : windowRing) : Prop :=
  w.wellFormed ∧ w.addressSize = batSQNAddrSize ∧ w.windowSize = batLocalWindowSize ∧
    w.defaultVal = 0 ∧ ∀ x ∈ w.ring, x = 0 ∨ x = 255

instance (w : windowRing) : Decidable w.marksOnly := by
  unfold windowRing.marksOnly; exact inferInstance

/-- A link as the link code keeps it: both windows hold marks only and the
stored `tq` is the one `updateTQ` computes from them. -/
def linkData.marksOnly (link : linkData) : Prop :=
  link.rqWindow.marksOnly ∧ link.eqWindow.marksOnly ∧ link.tq = link.updateTQ.tq

instance (link : linkData) : Decidable link.marksOnly := by
  unfold linkData.marksOnly; exact inferInstance

/-! ## Sample data for the last statements -/

/-- RawOGM whose origin field has a non-zero byte followed by zero bytes. -/
def trailingZeroOGM : RawOGM := { sampleOGM with Origin := ⟨97, 0, 0, 0⟩ }

/-- The OGM of `N2` with a time to live of 200. -/
def longLivedOGM : OGM := { neighborOGM with TTL := 200 }

/-- Calls on the links `1` and `2` of a neighbor: two OGMs received, one echo. -/
def sampleCalls : List linkCall :=
  [linkCall.receive [49] sqn5 7, linkCall.echo [49] sqn5 8,
   linkCall.receive [50] ⟨6, 2048, 64⟩ 9]

/-! ## Machine arithmetic of the comparisons and of the window ring

The definitions above compute over the integers; they are what the machine
computes as long as no intermediate value leaves the range of an `int`, and
this is so whenever twice the limit (or the address size) is at most `maxInt`.
The definitions below embed the same source functions with the 64-bit
wrap-around of every sum and difference and with the run-time panic of a
remainder by zero. -/

/-- Function `abs` of `math.go` on machine integers: `-x` wraps around at the
least `int`. -/
def absWrap (x : Int) : Int := if x ≥ 0 then x else wrapInt (-x)

/-- Call `pmod(x, y)` on machine integers: a zero `y` is the run-time panic of
`x % y`. -/
def pmodRun (x y : Int) : Run Int :=
  if y = 0 then Run.panicked "runtime error: integer divide by zero"
  else Run.done (pmodWrap x y)

/-- Method `greaterThan` of `sqn.go` on machine integers. -/
def sqn.greaterThanWrap (s n : sqn) : Run Bool :=
  let dif := Batman.min (wrapInt (s.num - n.num)) (wrapInt (wrapInt (s.num - n.num) - s.limit))
  (pmodRun (absWrap dif) s.limit).bind fun distance =>
    if distance < s.window then
      (pmodRun dif s.limit).bind fun step =>
        Run.done (decide (0 < step) && decide (step < s.window))
    else Run.done true

/-- Method `lessThan` of `sqn.go` on machine integers. -/
def sqn.lessThanWrap (s n : sqn) : Run Bool :=
  (s.greaterThanWrap n).bind fun greater => Run.done (!greater && !(s.equalTo n))

/-- Method `update` of `route_tracking.go` with the comparisons of the machine. -/
def routeTracker.updateWrap (r : routeTracker) (ip : ipAddr) (s : sqn) (quality : Byte)
    (when : Time) : Run routeTracker :=
  let r1 : routeTracker :=
    if (mapGet r.nextHops ip).isNone then
      { r with nextHops := mapSet r.nextHops ip ⟨quality, s, when⟩ }
    else r
  (s.greaterThanWrap r1.latestSQN).bind fun newer =>
    let r2 : routeTracker := if newer then { r1 with latestSQN := s } else r1
    match mapGet r2.nextHops ip with
    | none => Run.panicked "invalid memory address or nil pointer dereference"
    | some hopPtr =>
      (s.greaterThanWrap hopPtr.sqn).bind fun greater =>
        if greater || s.equalTo hopPtr.sqn then
          Run.done { r2 with nextHops := mapSet r2.nextHops ip ⟨quality, s, when⟩ }
        else Run.done r2

/-- Method `inWindow` of `window_ring.go` on machine integers. -/
def windowRing.inWindowWrap (w : windowRing) (loc : Int) : Run Bool :=
  (pmodRun (wrapInt (w.addressHead - loc)) w.addressSize).bind fun distance =>
    Run.done (decide (distance < w.windowSize))

/-- Clearing loop of `write` on machine integers.  The loop index stays below
`windowSize`, so `i++` does not wrap. -/
def windowRing.clearLoopWrap (moveBy : Int) :
    Nat → Int → windowRing → Int → Run (windowRing × Int)
  | 0, _, w, windowWriteIndex => Run.done (w, windowWriteIndex)
  | fuel + 1, i, w, windowWriteIndex =>
    if i < moveBy ∧ i < w.windowSize then
      (pmodRun (wrapInt (1 + w.windowHead)) w.windowSize).bind fun head =>
      (ringStore w.ring head w.defaultVal).bind fun ring =>
        windowRing.clearLoopWrap moveBy fuel (i + 1)
          { w with windowHead := head, ring := ring } head
    else Run.done (w, windowWriteIndex)

/-- Method `write` of `window_ring.go` on machine integers. -/
def windowRing.writeWrap (w : windowRing) (loc : Int) (val : List Byte) : Run windowRing :=
  if loc < 0 then Run.panicked "windowRing: write: negative loc"
  else if loc > w.addressSize then Run.panicked "windowRing: write: loc exceeds addressSize"
  else if val.length > 1 then Run.panicked "windowRing: write: too many values"
  else
    (w.inWindowWrap loc).bind fun inside =>
    let located : Run (windowRing × Int) :=
      if inside then
        (pmodRun (wrapInt (w.addressHead - loc)) w.addressSize).bind fun distFromHead =>
        (pmodRun (wrapInt (w.windowHead - distFromHead)) w.windowSize).bind fun index =>
          Run.done (w, index)
      else
        (pmodRun (wrapInt (loc - w.addressHead)) w.addressSize).bind fun moveBy =>
        (pmodRun (wrapInt (moveBy + w.addressHead)) w.addressSize).bind fun head =>
          let w1 := { w with addressHead := head }
          if w1.addressHead ≠ loc then
            Run.panicked "windowRing: write: addressHead/loc mismatch!"
          else windowRing.clearLoopWrap moveBy w1.windowSize.toNat 0 w1 0
    located.bind fun st =>
      match val with
      | [] => Run.done st.1
      | v :: _ =>
        (ringStore st.1.ring st.2 v).bind fun ring => Run.done { st.1 with ring := ring }

/-- Method `read` of `window_ring.go` on machine integers. -/
def windowRing.readWrap (w : windowRing) (loc : Int) : Run (Byte × Bool) :=
  (pmodRun (wrapInt (w.addressHead - loc)) w.addressSize).bind fun distance =>
    if distance < w.windowSize then
      (pmodRun (wrapInt (w.windowHead - distance)) w.windowSize).bind fun index =>
      (ringLoad w.ring index).bind fun val => Run.done (val, true)
    else Run.done (0, false)

/-- A run of machine writes, one after the other. -/
def windowRing.writeAllWrap (w : windowRing) : List (Int × List Byte) → Run windowRing
  | [] => Run.done w
  | (loc, val) :: rest =>
    (w.writeWrap loc val).bind fun w1 => windowRing.writeAllWrap w1 rest

/-- The position `loc` is inside the window after each machine write of the run. -/
def windowRing.staysInWindowWrap (loc : Int) : windowRing → List (Int × List Byte) → Bool
  | _, [] => true
  | w, (p, val) :: rest =>
    match w.writeWrap p val with
    | Run.done w1 =>
      (match w1.inWindowWrap loc with
        | Run.done inside => inside
        | Run.panicked _ => false) && windowRing.staysInWindowWrap loc w1 rest
    | Run.panicked _ => false

/-- Ring of `newWindowRing(maxInt, 1, 0)`: one slot over the largest address
space. -/
def ringMaxInt1 : windowRing :=
  { ring := [0], addressSize := maxInt, windowSize := 1, defaultVal := 0
    windowHead := 0, addressHead := 0 }

/-- Ring of `newWindowRing(maxInt, 4, 0)`. -/
def ringMaxInt4 : windowRing :=
  { ring := [0, 0, 0, 0], addressSize := maxInt, windowSize := 4, defaultVal := 0
    windowHead := 0, addressHead := 0 }

/-! ## Sequence-number lemmas -/

theorem tmod_negSucc_natCast (m n : Nat) :
    (Int.negSucc m).tmod (n : Int) = -(((m + 1) % n : Nat) : Int) := rfl

theorem pmod_eq_emod (x y : Int) (hy : 0 < y) : pmod x y = x % y := by
  unfold pmod
  obtain ⟨n, rfl⟩ : ∃ n : Nat, y = (n : Int) := ⟨y.toNat, by omega⟩
  have hn : 0 < n := by omega
  cases x with
  | ofNat m =>
    have hx : (0 : Int) ≤ Int.ofNat m := Int.ofNat_nonneg m
    rw [Int.tmod_eq_emod hx hy.le]
    have h1 : 0 ≤ Int.ofNat m % (n : Int) := Int.emod_nonneg _ hy.ne.symm
    rw [Int.tmod_eq_emod (by omega) hy.le]
    simp
  | negSucc m =>
    rw [tmod_negSucc_natCast]
    have h2 : (m + 1) % n < n := Nat.mod_lt _ hn
    rw [Int.tmod_eq_emod (by omega) hy.le]
    apply (Int.emod_eq_emod_iff_emod_sub_eq_zero).2
    apply Int.emod_eq_zero_of_dvd
    refine ⟨((m + 1) / n : Nat) + 1, ?_⟩
    have h3 := Nat.div_add_mod (m + 1) n
    have h4 : ((n : Int) * (((m + 1) / n : Nat) : Int)) + (((m + 1) % n : Nat) : Int)
        = (m : Int) + 1 := by exact_mod_cast h3
    rw [Int.negSucc_eq]
    linarith

/-- Congruence classes: a value of the form `r + L * k` with `0 ≤ r < L` has
remainder `r`. -/
theorem emod_of_decomp (v L k r : Int) (h : v = r + L * k) (h0 : 0 ≤ r) (h1 : r < L) :
    v % L = r := by
  subst h
  rw [Int.add_mul_emod_self_left]
  exact Int.emod_eq_of_lt h0 h1

/-- The comparison of `greaterThan`, with the helper calls of `math.go`
evaluated: the "within one window" test looks at the distance from `s` up
to `n`. -/
theorem greaterThan_eq (s n : sqn) (hL : 0 < s.limit)
    (hlo : -s.limit < s.num - n.num) (hhi : s.num - n.num < s.limit) :
    s.greaterThan n =
      if (n.num - s.num) % s.limit < s.window then
        decide (0 < (s.num - n.num) % s.limit) &&
          decide ((s.num - n.num) % s.limit < s.window)
      else true := by
  unfold sqn.greaterThan
  have hmin : Batman.min (s.num - n.num) (s.num - n.num - s.limit)
      = s.num - n.num - s.limit := by
    unfold Batman.min
    rw [if_neg (by omega)]
  have habs : Batman.abs (s.num - n.num - s.limit) = s.limit - (s.num - n.num) := by
    unfold Batman.abs
    rw [if_neg (by omega)]
    omega
  simp only [hmin, habs, pmod_eq_emod _ _ hL]
  have e1 : (s.limit - (s.num - n.num)) % s.limit = (n.num - s.num) % s.limit := by
    have : s.limit - (s.num - n.num) = (n.num - s.num) + s.limit * 1 := by ring
    rw [this, Int.add_mul_emod_self_left]
  have e2 : (s.num - n.num - s.limit) % s.limit = (s.num - n.num) % s.limit := by
    have : s.num - n.num - s.limit = (s.num - n.num) + s.limit * (-1) := by ring
    rw [this, Int.add_mul_emod_self_left]
  rw [e1, e2]

/-! ## Codec lemmas -/

theorem byteOf_val (v : Byte) : byteOf v.val = v := by
  apply Fin.ext
  simp [byteOf]

theorem dtoiAux_digit (d n i : Nat) (cs : List Byte) (hn : n * 10 + d % 10 < 0xFFFFFF) :
    dtoiAux (digitByte d :: cs) n i = dtoiAux cs (n * 10 + d % 10) (i + 1) := by
  have h1 : 48 ≤ (digitByte d).val ∧ (digitByte d).val ≤ 57 := by
    simp only [digitByte]; omega
  have h2 : (digitByte d).val - 48 = d % 10 := by
    simp only [digitByte]; omega
  rw [dtoiAux, if_pos h1, h2, if_neg (by omega)]

theorem dtoiAux_end (rest : List Byte) (n i : Nat) (h : EndsField rest) (hi : i ≠ 0) :
    dtoiAux rest n i = (n, i, true) := by
  rcases h with rfl | ⟨t, rfl⟩
  · rw [dtoiAux, if_neg hi]
  · rw [dtoiAux, if_neg (by decide), if_neg hi]

theorem dtoi_ubtoa (v : Byte) (rest : List Byte) (h : EndsField rest) :
    dtoi (ubtoa v ++ rest) = (v.val, (ubtoa v).length, true) := by
  have hv := v.isLt
  unfold ubtoa dtoi
  split_ifs with h1 h2
  · rw [List.singleton_append, dtoiAux_digit _ _ _ _ (by omega),
      dtoiAux_end _ _ _ h (by omega)]
    simp only [List.length_singleton, Prod.mk.injEq, and_true]
    omega
  · rw [List.cons_append, List.singleton_append, dtoiAux_digit _ _ _ _ (by omega),
      dtoiAux_digit _ _ _ _ (by omega), dtoiAux_end _ _ _ h (by omega)]
    simp only [List.length_cons, List.length_singleton, List.length_nil, Prod.mk.injEq, and_true]
    omega
  · rw [List.cons_append, List.cons_append, List.singleton_append,
      dtoiAux_digit _ _ _ _ (by omega), dtoiAux_digit _ _ _ _ (by omega),
      dtoiAux_digit _ _ _ _ (by omega), dtoiAux_end _ _ _ h (by omega)]
    simp only [List.length_cons, List.length_singleton, List.length_nil, Prod.mk.injEq, and_true]
    omega

theorem ubtoa_ne_nil (v : Byte) : ubtoa v ≠ [] := by
  unfold ubtoa
  split_ifs <;> simp

theorem ubtoa_length_pos (v : Byte) : 0 < (ubtoa v).length :=
  List.length_pos.2 (ubtoa_ne_nil v)

theorem ubtoa_head_ne_zero (v : Byte) (rest : List Byte) (h : (ubtoa v).length > 1) :
    (ubtoa v ++ rest).head? ≠ some (48 : Byte) := by
  have hv := v.isLt
  unfold ubtoa at h ⊢
  split_ifs at h ⊢ with h1 h2
  · simp at h
  · simp only [List.cons_append, List.head?_cons, ne_eq, Option.some.injEq, digitByte]
    intro hh
    have := congrArg Fin.val hh
    simp at this
    omega
  · simp only [List.cons_append, List.head?_cons, ne_eq, Option.some.injEq, digitByte]
    intro hh
    have := congrArg Fin.val hh
    simp at this
    omega

/-- One iteration of the field loop on the decimal text of a byte. -/
theorem parseIPv4Fields_step (net : NetLib) (todo i : Nat) (v : Byte) (rest : List Byte)
    (p : Bytes4) (h : EndsField rest) :
    parseIPv4Fields net (todo + 1) i
        ((if i > 0 then [(46 : Byte)] else []) ++ (ubtoa v ++ rest)) p
      = parseIPv4Fields net todo (i + 1) rest (p.set i v) := by
  have hv := v.isLt
  have hpos := ubtoa_length_pos v
  rw [parseIPv4Fields]
  have hlen : ¬ ((if i > 0 then [(46 : Byte)] else []) ++ (ubtoa v ++ rest)).length = 0 := by
    simp only [List.length_append]; omega
  rw [if_neg hlen]
  have hdot : (if i > 0 then
      (if ((if i > 0 then [(46 : Byte)] else []) ++ (ubtoa v ++ rest)).head? = some 46
        then some ((if i > 0 then [(46 : Byte)] else []) ++ (ubtoa v ++ rest)).tail else none)
      else some ((if i > 0 then [(46 : Byte)] else []) ++ (ubtoa v ++ rest)))
      = some (ubtoa v ++ rest) := by
    by_cases hi : i > 0
    · simp [hi]
    · simp [hi]
  simp only [hdot, dtoi_ubtoa v rest h]
  have hok : (!true || decide (v.val > 0xFF)) = false := by
    simp; omega
  rw [if_neg (by rw [hok]; simp)]
  have hlz : (net.rejectLeadingZero && decide ((ubtoa v).length > 1)
      && decide ((ubtoa v ++ rest).head? = some 48)) = false := by
    by_cases hl : (ubtoa v).length > 1
    · rw [decide_eq_false (ubtoa_head_ne_zero v rest hl)]
      simp
    · rw [decide_eq_false hl]
      simp
  rw [if_neg (by rw [hlz]; simp), List.drop_left, byteOf_val]

theorem parseIPv4_ipString (net : NetLib) (b : Bytes4) :
    parseIPv4 net (ipString b) = some b := by
  have e0 := parseIPv4Fields_step net 3 0 b.b0
    ([(46 : Byte)] ++ (ubtoa b.b1 ++ ([(46 : Byte)] ++ (ubtoa b.b2 ++
      ([(46 : Byte)] ++ (ubtoa b.b3 ++ [])))))) Bytes4.zero (Or.inr ⟨_, rfl⟩)
  have e1 := parseIPv4Fields_step net 2 1 b.b1
    ([(46 : Byte)] ++ (ubtoa b.b2 ++ ([(46 : Byte)] ++ (ubtoa b.b3 ++ []))))
    (Bytes4.zero.set 0 b.b0) (Or.inr ⟨_, rfl⟩)
  have e2 := parseIPv4Fields_step net 1 2 b.b2
    ([(46 : Byte)] ++ (ubtoa b.b3 ++ []))
    ((Bytes4.zero.set 0 b.b0).set 1 b.b1) (Or.inr ⟨_, rfl⟩)
  have e3 := parseIPv4Fields_step net 0 3 b.b3 []
    (((Bytes4.zero.set 0 b.b0).set 1 b.b1).set 2 b.b2) (Or.inl rfl)
  simp only [gt_iff_lt, lt_self_iff_false, if_false, Nat.lt_one_iff, Nat.zero_lt_succ,
    Nat.ofNat_pos, if_true, List.nil_append, zero_add, Nat.reduceAdd, Nat.lt_add_one] at e0 e1 e2 e3
  have hs : ipString b = ubtoa b.b0 ++ ([(46 : Byte)] ++ (ubtoa b.b1 ++ ([(46 : Byte)] ++
      (ubtoa b.b2 ++ ([(46 : Byte)] ++ (ubtoa b.b3 ++ [])))))) := by
    simp [ipString]
  unfold parseIPv4
  rw [hs, e0, e1, e2, e3]
  rfl

theorem digitByte_not_sep (n : Nat) :
    (digitByte n == (46 : Byte) || digitByte n == (58 : Byte)) = false := by
  have h1 : digitByte n ≠ (46 : Byte) := by
    intro h
    have := congrArg Fin.val h
    simp [digitByte] at this
    omega
  have h2 : digitByte n ≠ (58 : Byte) := by
    intro h
    have := congrArg Fin.val h
    simp [digitByte] at this
    omega
  simp [h1, h2]

theorem find_sep_ubtoa (v : Byte) (t : List Byte) :
    (ubtoa v ++ (46 : Byte) :: t).find? (fun c => c == 46 || c == 58) = some 46 := by
  unfold ubtoa
  split_ifs <;> simp [List.find?, digitByte_not_sep]

theorem parseIPTo4_ipString (net : NetLib) (b : Bytes4) :
    parseIPTo4 net (ipString b) = some b := by
  unfold parseIPTo4
  have hs : ipString b = ubtoa b.b0 ++ (46 : Byte) ::
      (ubtoa b.b1 ++ [46] ++ ubtoa b.b2 ++ [46] ++ ubtoa b.b3) := by
    simp [ipString]
  have hf := find_sep_ubtoa b.b0 (ubtoa b.b1 ++ [46] ++ ubtoa b.b2 ++ [46] ++ ubtoa b.b3)
  rw [← hs] at hf
  rw [hf]
  simp [parseIPv4_ipString]

theorem copyAt_toList (p : Bytes4) : copyAt Bytes4.zero 0 p.toList = p := by
  cases p
  rfl

/-- Address fields survive the wire: the link address text of four bytes
converts back to those bytes. -/
theorem ipAddr_raw_fromBytes (net : NetLib) (b : Bytes4) :
    ipAddr.raw net (ipAddrFromBytes b) = b := by
  unfold ipAddr.raw ipAddrFromBytes
  rw [parseIPTo4_ipString]
  exact copyAt_toList b

theorem beq_zero_false (a : Byte) (ha : a ≠ 0) : (a == 0) = false := by
  simpa using ha

theorem nodeIDFromBytes_raw (id : nodeID) (h : nodeID.plain id) :
    ∃ r, nodeID.raw id = Run.done r ∧ nodeIDFromBytes r = id := by
  obtain ⟨hlen, hfirst, hlast⟩ := h
  match id, hlen, hfirst, hlast with
  | [], _, _, _ => exact ⟨Bytes4.zero, rfl, by decide⟩
  | [a], _, h1, _ =>
    have ha := beq_zero_false a (by simpa using h1)
    exact ⟨⟨0, 0, 0, a⟩, rfl, by
      simp [nodeIDFromBytes, Bytes4.toList, trimZero, List.rdropWhile, List.dropWhile, ha]⟩
  | [a, b], _, h1, h2 =>
    have ha := beq_zero_false a (by simpa using h1)
    have hb := beq_zero_false b (by simpa using h2)
    exact ⟨⟨0, 0, a, b⟩, rfl, by
      simp [nodeIDFromBytes, Bytes4.toList, trimZero, List.rdropWhile, List.dropWhile, ha, hb]⟩
  | [a, b, c], _, h1, h2 =>
    have ha := beq_zero_false a (by simpa using h1)
    have hc := beq_zero_false c (by simpa using h2)
    exact ⟨⟨0, a, b, c⟩, rfl, by
      simp [nodeIDFromBytes, Bytes4.toList, trimZero, List.rdropWhile, List.dropWhile, ha, hc]⟩
  | [a, b, c, d], _, h1, h2 =>
    have ha := beq_zero_false a (by simpa using h1)
    have hd := beq_zero_false d (by simpa using h2)
    exact ⟨⟨a, b, c, d⟩, rfl, by
      simp [nodeIDFromBytes, Bytes4.toList, trimZero, List.rdropWhile, List.dropWhile, ha, hd]⟩
  | _ :: _ :: _ :: _ :: _ :: _, hl, _, _ => exact absurd hl (by simp)

theorem raw_nodeIDFromBytes (b : Bytes4) (h : b.plain) :
    nodeID.raw (nodeIDFromBytes b) = Run.done b := by
  rcases h with h | rfl
  · obtain ⟨b0, b1, b2, b3⟩ := b
    have h3 := beq_zero_false b3 h
    by_cases h0 : b0 = 0
    · subst h0
      by_cases h1 : b1 = 0
      · subst h1
        by_cases h2 : b2 = 0
        · subst h2
          simp [nodeIDFromBytes, Bytes4.toList, trimZero, List.rdropWhile, List.dropWhile, h3,
            nodeID.raw, copyAt, Bytes4.set, Bytes4.zero]
        · have h2' := beq_zero_false b2 h2
          simp [nodeIDFromBytes, Bytes4.toList, trimZero, List.rdropWhile, List.dropWhile, h3,
            h2', nodeID.raw, copyAt, Bytes4.set, Bytes4.zero]
      · have h1' := beq_zero_false b1 h1
        simp [nodeIDFromBytes, Bytes4.toList, trimZero, List.rdropWhile, List.dropWhile, h3,
          h1', nodeID.raw, copyAt, Bytes4.set, Bytes4.zero]
    · have h0' := beq_zero_false b0 h0
      simp [nodeIDFromBytes, Bytes4.toList, trimZero, List.rdropWhile, List.dropWhile, h3,
        h0', nodeID.raw, copyAt, Bytes4.set, Bytes4.zero]
  · decide

theorem getUint32_putUint32 (v : Uint32) :
    getUint32 (byteOf v.val) (byteOf (v.val / 256)) (byteOf (v.val / 65536))
      (byteOf (v.val / 16777216)) = v := by
  have hv := v.isLt
  apply Fin.ext
  simp only [getUint32, byteOf]
  omega

/-- Reading back what `binary.Write` appended returns the RawOGM and leaves
the rest of the buffer. -/
theorem binaryRead_binaryWrite (ogm : RawOGM) (rest : List Byte) :
    binaryRead (binaryWrite ogm ++ rest) = (ogm, rest) := by
  obtain ⟨⟨o0, o1, o2, o3⟩, ⟨s0, s1, s2, s3⟩, ⟨t0, t1, t2, t3⟩, ⟨p0, p1, p2, p3⟩,
    ⟨q0, q1, q2, q3⟩, sq, ttl, tq⟩ := ogm
  have hlen : ¬ (binaryWrite ⟨⟨o0, o1, o2, o3⟩, ⟨s0, s1, s2, s3⟩, ⟨t0, t1, t2, t3⟩,
      ⟨p0, p1, p2, p3⟩, ⟨q0, q1, q2, q3⟩, sq, ttl, tq⟩ ++ rest).length < batOGMSize := by
    simp [binaryWrite, Bytes4.toList, putUint32, batOGMSize]
  unfold binaryRead
  rw [if_neg hlen]
  simp [binaryWrite, Bytes4.toList, putUint32, batOGMSize, bytes4At, getUint32_putUint32]

theorem newDefaultSQN_of_range (n : Int) (h0 : 0 ≤ n) (h1 : n < 2048) :
    newDefaultSQN n = Run.done (sqn.mk n 2048 64) := by
  unfold newDefaultSQN newSQN batSQNAddrSize batLocalWindowSize
  rw [if_neg (by omega), if_neg (by omega)]

theorem ipAddrFromBytes_raw (net : NetLib) (ip : ipAddr) (h : ipAddr.dotted ip) :
    ipAddrFromBytes (ipAddr.raw net ip) = ip := by
  obtain ⟨b, rfl⟩ := h
  have := ipAddr_raw_fromBytes net b
  unfold ipAddrFromBytes at this ⊢
  rw [this]

theorem foldl_binaryWrite (ogms : List RawOGM) (acc : List Byte) :
    ogms.foldl (fun buffer ogm => buffer ++ binaryWrite ogm) acc = acc ++ wire ogms := by
  induction ogms generalizing acc with
  | nil => simp [wire]
  | cons o os ih => simp [wire, ih, List.append_assoc]

theorem binaryWrite_length (o : RawOGM) : (binaryWrite o).length = 26 := by
  simp [binaryWrite, Bytes4.toList, putUint32]

theorem wire_length (ogms : List RawOGM) : (wire ogms).length = 26 * ogms.length := by
  induction ogms with
  | nil => rfl
  | cons o os ih =>
    simp only [wire, List.length_append, binaryWrite_length, ih, List.length_cons]
    omega

theorem byteOf_val_of_le (n : Nat) (h : n ≤ 255) : (byteOf n).val = n := by
  simp only [byteOf]
  omega

theorem packOGMs_ok (buf : ByteSlice) (ogms : List RawOGM)
    (hc : ogms.length * 26 + 1 ≤ buf.cap) (hn : ogms.length ≤ 255) :
    packOGMs buf ogms = Except.ok (byteOf ogms.length :: wire ogms) := by
  unfold packOGMs batOGMSize
  rw [if_neg (by omega)]
  simp only [byteOf_val_of_le _ hn, ne_eq, not_true_eq_false, if_false, foldl_binaryWrite]
  rfl

theorem wire_slice (ogms : List RawOGM) (i : Nat) (h : i < ogms.length) :
    ((wire ogms).drop (26 * i)).take 26 = binaryWrite (ogms.get ⟨i, h⟩) := by
  induction ogms generalizing i with
  | nil => simp at h
  | cons o os ih =>
    cases i with
    | zero =>
      simp only [wire, Nat.mul_zero, List.drop_zero, List.get]
      rw [List.take_left' (binaryWrite_length o)]
    | succ j =>
      have hj : j < os.length := by simpa using h
      have e : 26 * (j + 1) = (binaryWrite o).length + 26 * j := by
        rw [binaryWrite_length]; ring
      simp only [wire, List.get, e, List.drop_append]
      exact ih j hj

theorem binaryWrite_eq_layout (o : RawOGM) : binaryWrite o = o.layout := by
  have e1 : byteOf (o.SQN.val % 256) = byteOf o.SQN.val := by
    apply Fin.ext; simp [byteOf]
  have e2 : byteOf (o.SQN.val / 256 % 256) = byteOf (o.SQN.val / 256) := by
    apply Fin.ext; simp [byteOf]
  have e3 : byteOf (o.SQN.val / 65536 % 256) = byteOf (o.SQN.val / 65536) := by
    apply Fin.ext; simp [byteOf]
  have e4 : byteOf (o.SQN.val / 16777216 % 256) = byteOf (o.SQN.val / 16777216) := by
    apply Fin.ext; simp [byteOf]
  simp [binaryWrite, RawOGM.layout, Bytes4.toList, putUint32, e1, e2, e3, e4]

theorem Unpack_of_lt (o : RawOGM) (h : o.SQN.val < 2048) :
    o.Unpack = Run.done (o.decoded []) := by
  unfold RawOGM.Unpack
  rw [newDefaultSQN_of_range _ (by omega) (by omega)]
  rfl

theorem parseLoop_wire (addr : ipAddr) (ogms : List RawOGM) (rest : List Byte)
    (output : List OGM) (h : ∀ o ∈ ogms, o.SQN.val < 2048) :
    parseLoop addr ogms.length (wire ogms ++ rest) output
      = Run.done (output ++ ogms.map (RawOGM.decoded addr)) := by
  induction ogms generalizing output with
  | nil => simp [parseLoop]
  | cons o os ih =>
    have ho := h o (List.mem_cons_self _ _)
    have hos : ∀ o' ∈ os, o'.SQN.val < 2048 := fun o' ho' => h o' (List.mem_cons_of_mem _ ho')
    simp only [List.length_cons, parseLoop, wire, List.append_assoc, binaryRead_binaryWrite,
      Unpack_of_lt o ho, Run.bind]
    rw [ih _ hos]
    simp [RawOGM.decoded]

theorem parseOGMs_packed (addr : ipAddr) (ogms : List RawOGM)
    (h1 : 1 ≤ ogms.length) (h255 : ogms.length ≤ 255) (h : ∀ o ∈ ogms, o.SQN.val < 2048) :
    parseOGMs (byteOf ogms.length :: wire ogms) addr
      = Run.done (Except.ok (ogms.map (RawOGM.decoded addr))) := by
  have hlen : (byteOf ogms.length :: wire ogms).length = 26 * ogms.length + 1 := by
    simp [wire_length]
  unfold parseOGMs
  have hmod : ((26 * ogms.length + 1 : Nat) : Int) - 1 = ((26 * ogms.length : Nat) : Int) := by
    push_cast; ring
  have htmod : (((26 * ogms.length + 1 : Nat) : Int) - 1).tmod ((batOGMSize : Nat) : Int) = 0 := by
    rw [hmod, ← Int.ofNat_tmod]
    simp [batOGMSize]
  rw [hlen, if_neg (by rw [htmod]; omega)]
  simp only [List.getD_cons_zero, byteOf_val_of_le _ h255, batOGMSize]
  rw [if_neg (by omega)]
  have := parseLoop_wire addr ogms [] [] h
  simp only [List.append_nil, List.nil_append] at this
  simp only [List.drop_one, List.tail_cons, this, Run.bind]

theorem Pack_decoded (net : NetLib) (addr : ipAddr) (o : RawOGM)
    (h : o.SQN.val < 2048) (ho : o.Origin.plain) (hs : o.Sender.plain)
    (hp : o.PrevSender.plain) : OGM.Pack net (o.decoded addr) = Run.done o := by
  obtain ⟨og, sn, tx, ps, pa, sq, ttl, q⟩ := o
  have hsq : (⟨sqn.raw ⟨(sq.val : Int), 2048, 64⟩, by unfold sqn.raw; omega⟩ : Uint32) = sq := by
    apply Fin.ext
    simp only [sqn.raw]
    have := sq.isLt
    omega
  simp only [OGM.Pack, RawOGM.decoded, raw_nodeIDFromBytes _ ho, raw_nodeIDFromBytes _ hs,
    raw_nodeIDFromBytes _ hp, Run.bind, ipAddr_raw_fromBytes, hsq]

theorem parseLoop_spec (addr : ipAddr) (todo : Nat) (b : List Byte) (output res : List OGM)
    (h : parseLoop addr todo b output = Run.done res) :
    res.length = output.length + todo ∧ ∀ o ∈ res, o ∈ output ∨ o.RxAddr = addr := by
  induction todo generalizing b output with
  | zero =>
    simp only [parseLoop, Run.done.injEq] at h
    subst h
    exact ⟨rfl, fun o ho => Or.inl ho⟩
  | succ k ih =>
    rw [parseLoop] at h
    cases hu : (binaryRead b).1.Unpack with
    | panicked m => rw [hu] at h; simp [Run.bind] at h
    | done ogm =>
      rw [hu] at h
      simp only [Run.bind] at h
      obtain ⟨hl, hm⟩ := ih _ _ h
      refine ⟨by rw [hl]; simp; omega, fun o ho => ?_⟩
      rcases hm o ho with h' | h'
      · rcases List.mem_append.1 h' with h'' | h''
        · exact Or.inl h''
        · right
          simp only [List.mem_singleton] at h''
          rw [h'']
      · exact Or.inr h'

/-! ## Codec claims -/

/-- C1 (amended): for every OGM whose node ids have at most four bytes and no
zero byte at either end, whose link addresses are dotted-decimal texts and
whose sequence number is a default one, `x.Pack().Unpack()` completes and
equals `x` in every field except `RxAddr`. -/
theorem pack_unpack_roundtrip (net : NetLib) (x : OGM) (hw : x.wellFormed)
    (ho : nodeID.plain x.Origin) (hs : nodeID.plain x.Sender)
    (hp : nodeID.plain x.PrevSender) : x.roundTrips net := by
  obtain ⟨_, _, _, htx, hpa, hl, hwin, hn0, hn1⟩ := hw
  obtain ⟨ro, hro, hro2⟩ := nodeIDFromBytes_raw _ ho
  obtain ⟨rs, hrs, hrs2⟩ := nodeIDFromBytes_raw _ hs
  obtain ⟨rp, hrp, hrp2⟩ := nodeIDFromBytes_raw _ hp
  obtain ⟨o, s, tx, p, pa, ⟨num, limit, window⟩, ttl, q, rx⟩ := x
  simp only [batSQNAddrSize, batLocalWindowSize] at hl hwin hn0 hn1 hro hrs hrp hro2 hrs2 hrp2 htx hpa
  subst hl hwin
  have hraw : (sqn.raw ⟨num, 2048, 64⟩ : Nat) = num.toNat := by
    unfold sqn.raw
    simp only
    omega
  have hcast : ((num.toNat : Nat) : Int) = num := by omega
  refine ⟨⟨ro, rs, ipAddr.raw net tx, rp, ipAddr.raw net pa,
      ⟨sqn.raw ⟨num, 2048, 64⟩, by unfold sqn.raw; omega⟩, ttl, q⟩,
    ⟨nodeIDFromBytes ro, nodeIDFromBytes rs, ipAddrFromBytes (ipAddr.raw net tx),
      nodeIDFromBytes rp, ipAddrFromBytes (ipAddr.raw net pa), ⟨num, 2048, 64⟩, ttl, q, []⟩,
    ?_, ?_, ?_⟩
  · simp only [OGM.Pack, hro, hrs, hrp, Run.bind]
  · simp only [RawOGM.Unpack, hraw, hcast, newDefaultSQN_of_range _ hn0 hn1, Run.bind]
  · simp only [hro2, hrs2, hrp2, ipAddrFromBytes_raw net _ htx, ipAddrFromBytes_raw net _ hpa]

theorem simpleOGM_wellFormed : simpleOGM.wellFormed :=
  ⟨by decide, by decide, by decide, ⟨⟨10, 4, 6, 2⟩, by decide⟩,
    ⟨⟨192, 168, 10, 10⟩, by decide⟩, by decide⟩

theorem pack_unpack_roundtrip_witness :
    simpleOGM.roundTrips ⟨fun _ => none, true⟩ :=
  pack_unpack_roundtrip ⟨fun _ => none, true⟩ simpleOGM simpleOGM_wellFormed
    (by decide) (by decide) (by decide)

/-- C1 as stated fails: an origin id of two bytes, the first of them zero, is
well-formed in the words of the claim, yet the round trip returns the id
without its leading zero byte, whatever the address parser does. -/
theorem pack_unpack_drops_leading_zero :
    zeroLedOGM.wellFormed ∧
      ∀ net : NetLib, ∃ r y, OGM.Pack net zeroLedOGM = Run.done r ∧
        r.Unpack = Run.done y ∧ y.Origin = [97] ∧ zeroLedOGM.Origin = [0, 97] ∧
        ¬ zeroLedOGM.roundTrips net := by
  refine ⟨⟨by decide, by decide, by decide, ⟨⟨10, 4, 6, 2⟩, by decide⟩,
    ⟨⟨192, 168, 10, 10⟩, by decide⟩, by decide⟩, fun net => ?_⟩
  have hp : OGM.Pack net zeroLedOGM = Run.done
      ⟨⟨0, 0, 0, 97⟩, ⟨0, 0, 0, 55⟩, ipAddr.raw net zeroLedOGM.TxAddr, ⟨0, 0, 0, 50⟩,
        ipAddr.raw net zeroLedOGM.PrevAddr, 102, 200, 250⟩ := rfl
  have hu : (RawOGM.mk ⟨0, 0, 0, 97⟩ ⟨0, 0, 0, 55⟩ (ipAddr.raw net zeroLedOGM.TxAddr)
      ⟨0, 0, 0, 50⟩ (ipAddr.raw net zeroLedOGM.PrevAddr) 102 200 250).Unpack = Run.done
      ⟨[97], [55], ipAddrFromBytes (ipAddr.raw net zeroLedOGM.TxAddr), [50],
        ipAddrFromBytes (ipAddr.raw net zeroLedOGM.PrevAddr), ⟨102, 2048, 64⟩, 200, 250, []⟩ :=
    rfl
  refine ⟨_, _, hp, hu, rfl, rfl, ?_⟩
  rintro ⟨r, y, h1, h2, h3⟩
  rw [hp] at h1
  cases h1
  rw [hu] at h2
  cases h2
  have h4 : ([97] : List Byte) = [0, 97] := congrArg OGM.Origin h3
  exact absurd h4 (by decide)

/-- C2 (amended): for every list of `1 ≤ N ≤ 19` RawOGMs, each with SQN below
2048 and with node-id fields that are all zero or end in a non-zero byte,
packing into a buffer of capacity 512 and parsing the bytes succeeds and
yields `N` OGMs, in order, the `i`-th of which packs to the `i`-th input. -/
theorem pack_parse_roundtrip (net : NetLib) (buf : ByteSlice) (ogms : List RawOGM)
    (addr : ipAddr) (hcap : buf.cap = batSafePacketSize)
    (h1 : 1 ≤ ogms.length) (h19 : ogms.length ≤ batMaxBundleSize)
    (hs : ∀ o ∈ ogms, o.SQN.val < 2048)
    (hid : ∀ o ∈ ogms, o.Origin.plain ∧ o.Sender.plain ∧ o.PrevSender.plain) :
    ∃ bytes parsed, packOGMs buf ogms = Except.ok bytes ∧
      parseOGMs bytes addr = Run.done (Except.ok parsed) ∧
      parsed.length = ogms.length ∧
      List.Forall₂ (fun p r => OGM.Pack net p = Run.done r) parsed ogms := by
  simp only [batSafePacketSize] at hcap
  simp only [batMaxBundleSize] at h19
  refine ⟨_, _, packOGMs_ok buf ogms (by omega) (by omega),
    parseOGMs_packed addr ogms h1 (by omega) hs, by simp, ?_⟩
  rw [List.forall₂_map_left_iff]
  apply List.forall₂_same.2
  intro o ho
  obtain ⟨h1, h2, h3⟩ := hid o ho
  exact Pack_decoded net addr o (hs o ho) h1 h2 h3

theorem pack_parse_roundtrip_witness :
    ∃ bytes parsed, packOGMs ⟨[], 512⟩ [sampleOGM, sampleOGM] = Except.ok bytes ∧
      parseOGMs bytes [] = Run.done (Except.ok parsed) ∧
      parsed.length = [sampleOGM, sampleOGM].length ∧
      List.Forall₂ (fun p r => OGM.Pack ⟨fun _ => none, true⟩ p = Run.done r) parsed
        [sampleOGM, sampleOGM] :=
  pack_parse_roundtrip ⟨fun _ => none, true⟩ ⟨[], 512⟩ [sampleOGM, sampleOGM] [] rfl
    (by decide) (by decide) (by decide) (by decide)

/-- C2 as stated fails for `N = 0`: the empty list packs into the single count
byte `0`, and `parseOGMs` rejects every bundle shorter than 27 bytes. -/
theorem pack_parse_empty_bundle_rejected :
    packOGMs ⟨[], 512⟩ [] = Except.ok [0] ∧
      ∀ addr : ipAddr,
        parseOGMs [0] addr = Run.done (Except.error "parseOGMs: malformed ogmBundle") :=
  ⟨rfl, fun _ => rfl⟩

/-- C3 (code): a 27-byte datagram whose only OGM carries sequence number 2048
makes `parseOGMs` panic inside `newSQN`, on every receive address. -/
theorem parseOGMs_panics_on_sqn_2048 (addr : ipAddr) :
    parseOGMs sqn2048Datagram addr
      = Run.panicked "batman: newSQN: value outside address range" := rfl

/-- C4: `parseOGMs` returns an error exactly when the bundle is shorter than
27 bytes, or its length minus one is no multiple of 26, or the count byte
times 26 differs from the length minus one; whenever it returns a list, the
list has exactly `bytes[0]` OGMs, each with `RxAddr = addr`. -/
theorem parseOGMs_error_iff (b : List Byte) (addr : ipAddr) :
    ((∃ e, parseOGMs b addr = Run.done (Except.error e)) ↔
      (b.length < 27 ∨ ((b.length : Int) - 1) % 26 ≠ 0 ∨
        ((b.getD 0 0).val : Int) * 26 ≠ (b.length : Int) - 1)) ∧
    (∀ ogms, parseOGMs b addr = Run.done (Except.ok ogms) →
      ogms.length = (b.getD 0 0).val ∧ ∀ o ∈ ogms, o.RxAddr = addr) := by
  unfold parseOGMs batOGMSize
  by_cases hshort : b.length < 27
  · rw [if_pos (Or.inl hshort)]
    refine ⟨⟨fun _ => Or.inl hshort, fun _ => ⟨_, rfl⟩⟩, fun ogms h => ?_⟩
    simp at h
  · have hnn : (0 : Int) ≤ (b.length : Int) - 1 := by omega
    have htm : ((b.length : Int) - 1).tmod ((26 : Nat) : Int) = ((b.length : Int) - 1) % 26 :=
      Int.tmod_eq_emod hnn (by decide)
    rw [htm]
    by_cases hmod : ((b.length : Int) - 1) % 26 ≠ 0
    · rw [if_pos (Or.inr hmod)]
      refine ⟨⟨fun _ => Or.inr (Or.inl hmod), fun _ => ⟨_, rfl⟩⟩, fun ogms h => ?_⟩
      simp at h
    · rw [if_neg (by tauto)]
      by_cases hcount : (b.getD 0 0).val * 26 ≠ b.length - 1
      · simp only [hcount, ne_eq, not_false_eq_true, if_true]
        refine ⟨⟨fun _ => Or.inr (Or.inr (by omega)), fun _ => ⟨_, rfl⟩⟩, fun ogms h => ?_⟩
        simp at h
      · simp only [hcount, if_false]
        cases hl : parseLoop addr (b.getD 0 0).val (b.drop 1) [] with
        | panicked m =>
          refine ⟨⟨fun h => ?_, fun h => ?_⟩, fun ogms h => ?_⟩
          · obtain ⟨e, he⟩ := h
            simp [Run.bind] at he
          · exfalso
            rcases h with h | h | h
            · exact hshort h
            · exact hmod h
            · apply hcount; omega
          · simp [Run.bind] at h
        | done res =>
          refine ⟨⟨fun h => ?_, fun h => ?_⟩, fun ogms h => ?_⟩
          · obtain ⟨e, he⟩ := h
            simp [Run.bind] at he
          · exfalso
            rcases h with h | h | h
            · exact hshort h
            · exact hmod h
            · apply hcount; omega
          · simp only [Run.bind, Run.done.injEq, Except.ok.injEq] at h
            subst h
            obtain ⟨h1, h2⟩ := parseLoop_spec _ _ _ _ _ hl
            refine ⟨by simpa using h1, fun o ho => ?_⟩
            rcases h2 o ho with h' | h'
            · simp at h'
            · exact h'

theorem parseOGMs_error_iff_witness :
    [sampleOGM.decoded [9]].length = ((1 :: binaryWrite sampleOGM).getD 0 0).val ∧
      ∀ o ∈ [sampleOGM.decoded [9]], o.RxAddr = [9] :=
  (parseOGMs_error_iff (1 :: binaryWrite sampleOGM) [9]).2 [sampleOGM.decoded [9]] rfl

/-- C5: for `N ≤ 255` RawOGMs and a buffer of capacity at least `26 * N + 1`,
`packOGMs` produces exactly `1 + 26 * N` bytes: byte 0 is `N` and OGM `i`
occupies bytes `1 + 26 * i .. 26 + 26 * i` as Origin, Sender, TxAddr,
PrevSender, PrevAddr, SQN in four little-endian bytes, TTL, Quality. -/
theorem packOGMs_layout (buf : ByteSlice) (ogms : List RawOGM)
    (hn : ogms.length ≤ 255) (hc : buf.cap ≥ 26 * ogms.length + 1) :
    ∃ bytes, packOGMs buf ogms = Except.ok bytes ∧
      bytes.length = 1 + 26 * ogms.length ∧
      (∃ c : Byte, bytes.head? = some c ∧ c.val = ogms.length) ∧
      ∀ (i : Nat) (h : i < ogms.length),
        (bytes.drop (1 + 26 * i)).take 26 = (ogms.get ⟨i, h⟩).layout := by
  refine ⟨_, packOGMs_ok buf ogms (by omega) hn, ?_, ⟨_, rfl, byteOf_val_of_le _ hn⟩, ?_⟩
  · simp only [List.length_cons, wire_length]
    omega
  · intro i h
    rw [Nat.add_comm 1 (26 * i), List.drop_succ_cons, wire_slice ogms i h,
      binaryWrite_eq_layout]

theorem packOGMs_layout_witness :
    ∃ bytes, packOGMs ⟨[], 512⟩ [sampleOGM] = Except.ok bytes ∧
      bytes.length = 1 + 26 * [sampleOGM].length ∧
      (∃ c : Byte, bytes.head? = some c ∧ c.val = [sampleOGM].length) ∧
      ∀ (i : Nat) (h : i < [sampleOGM].length),
        (bytes.drop (1 + 26 * i)).take 26 = ([sampleOGM].get ⟨i, h⟩).layout :=
  packOGMs_layout ⟨[], 512⟩ [sampleOGM] (by decide) (by decide)

/-- C6: `packOGMs` returns an error exactly when the capacity of the buffer is
below `26 * N + 1` or `N > 255`; in every other case it succeeds. -/
theorem packOGMs_error_iff (buf : ByteSlice) (ogms : List RawOGM) :
    ((∃ e, packOGMs buf ogms = Except.error e) ↔
      (buf.cap < 26 * ogms.length + 1 ∨ ogms.length > 255)) ∧
    (¬ (buf.cap < 26 * ogms.length + 1 ∨ ogms.length > 255) →
      ∃ bytes, packOGMs buf ogms = Except.ok bytes) := by
  by_cases hc : buf.cap < 26 * ogms.length + 1
  · have he : packOGMs buf ogms
        = Except.error "packOGMs: byte slice too small for OGM bundle size" := by
      unfold packOGMs batOGMSize
      rw [if_pos (by omega)]
    exact ⟨⟨fun _ => Or.inl hc, fun _ => ⟨_, he⟩⟩, fun h => absurd (Or.inl hc) h⟩
  · by_cases hn : ogms.length > 255
    · have he : packOGMs buf ogms
          = Except.error "packOGMs: OGM slice length overflowed one byte" := by
        unfold packOGMs batOGMSize
        rw [if_neg (by omega)]
        have : (byteOf ogms.length).val ≠ ogms.length := by
          have := (byteOf ogms.length).isLt
          omega
        simp only [this, ne_eq, not_false_eq_true, if_true]
      exact ⟨⟨fun _ => Or.inr hn, fun _ => ⟨_, he⟩⟩, fun h => absurd (Or.inr hn) h⟩
    · have hok := packOGMs_ok buf ogms (by omega) (by omega)
      refine ⟨⟨fun h => ?_, fun h => ?_⟩, fun _ => ⟨_, hok⟩⟩
      · obtain ⟨e, he⟩ := h
        rw [hok] at he
        cases he
      · rcases h with h | h
        · exact absurd h hc
        · exact absurd h hn

theorem packOGMs_error_iff_witness :
    ∃ bytes, packOGMs ⟨[], 512⟩ [sampleOGM] = Except.ok bytes :=
  (packOGMs_error_iff ⟨[], 512⟩ [sampleOGM]).2 (by decide)

/-! ## Sequence-number claims -/

/-- Over the integers: for valid sequence numbers `a`, `b` with the same limit and window,
`window ≥ 1` and `2 * window ≤ limit`, if `a.num = (b.num + x) mod limit` for
some `0 < x < window` then `a.greaterThan b` is true, `b.greaterThan a` is
false and `b.lessThan a` is true, wrap-around included. -/
theorem greaterThan_of_step_within_window (a b : sqn) (x : Int)
    (ha : a.valid) (hb : b.valid)
    (hl : a.limit = b.limit) (hw : a.window = b.window)
    (hw1 : 1 ≤ a.window) (h2w : 2 * a.window ≤ a.limit)
    (hx0 : 0 < x) (hxw : x < a.window)
    (hax : a.num = (b.num + x) % a.limit) :
    a.greaterThan b = true ∧ b.greaterThan a = false ∧ b.lessThan a = true := by
  obtain ⟨ha0, ha1, _⟩ := ha
  obtain ⟨hb0, hb1, _⟩ := hb
  have hL : 0 < a.limit := by omega
  have hdef := Int.emod_def (b.num + x) a.limit
  have e1 : (a.num - b.num) % a.limit = x :=
    emod_of_decomp _ a.limit (-((b.num + x) / a.limit)) x
      (by rw [hax, hdef]; ring) hx0.le (by omega)
  have e2 : (b.num - a.num) % a.limit = a.limit - x :=
    emod_of_decomp _ a.limit ((b.num + x) / a.limit - 1) (a.limit - x)
      (by rw [hax, hdef]; ring) (by omega) (by omega)
  have hab : a.greaterThan b = true := by
    rw [greaterThan_eq a b hL (by omega) (by omega), e2, if_neg (by omega)]
  have hba : b.greaterThan a = false := by
    rw [greaterThan_eq b a (by omega) (by omega) (by omega), ← hl, ← hw, e1,
      if_pos hxw, e2]
    simp
    omega
  refine ⟨hab, hba, ?_⟩
  have hne : b.num ≠ a.num := by
    intro h
    rw [h] at e1
    simp at e1
    omega
  simp [sqn.lessThan, hba, sqn.equalTo, hne]

theorem greaterThan_of_step_within_window_witness :
    (sqn.mk 1 2048 64).greaterThan (sqn.mk 2046 2048 64) = true ∧
    (sqn.mk 2046 2048 64).greaterThan (sqn.mk 1 2048 64) = false ∧
    (sqn.mk 2046 2048 64).lessThan (sqn.mk 1 2048 64) = true :=
  greaterThan_of_step_within_window (sqn.mk 1 2048 64) (sqn.mk 2046 2048 64) 3
    (by decide) (by decide) rfl rfl (by decide) (by decide) (by decide) (by decide)
    (by decide)

/-- Over the integers: for valid sequence numbers `a`, `b` with the same limit and window that
are at least one window apart in both directions, `a.greaterThan b` and
`b.greaterThan a` are both true and neither `a.lessThan b` nor `b.lessThan a`
holds. -/
theorem greaterThan_both_beyond_window (a b : sqn)
    (ha : a.valid) (hb : b.valid)
    (hl : a.limit = b.limit) (hw : a.window = b.window)
    (hab : (a.num - b.num) % a.limit ≥ a.window)
    (hba : (b.num - a.num) % a.limit ≥ a.window) :
    a.greaterThan b = true ∧ b.greaterThan a = true ∧
      a.lessThan b = false ∧ b.lessThan a = false := by
  obtain ⟨ha0, ha1, _⟩ := ha
  obtain ⟨hb0, hb1, _⟩ := hb
  have hL : 0 < a.limit := by omega
  have h1 : a.greaterThan b = true := by
    rw [greaterThan_eq a b hL (by omega) (by omega), if_neg (by omega)]
  have h2 : b.greaterThan a = true := by
    rw [greaterThan_eq b a (by omega) (by omega) (by omega), ← hl, ← hw,
      if_neg (by omega)]
  simp [sqn.lessThan, h1, h2]

theorem greaterThan_both_beyond_window_witness :
    (sqn.mk 1000 2048 64).greaterThan (sqn.mk 1100 2048 64) = true ∧
    (sqn.mk 1100 2048 64).greaterThan (sqn.mk 1000 2048 64) = true ∧
    (sqn.mk 1000 2048 64).lessThan (sqn.mk 1100 2048 64) = false ∧
    (sqn.mk 1100 2048 64).lessThan (sqn.mk 1000 2048 64) = false :=
  greaterThan_both_beyond_window (sqn.mk 1000 2048 64) (sqn.mk 1100 2048 64)
    (by decide) (by decide) rfl rfl (by decide) (by decide)

/-- C9: for sequence numbers `a`, `b` with the default parameters (limit 2048,
window 64) and `|a.num - b.num| < 64`, exactly one of `a.lessThan b`,
`a.equalTo b`, `a.greaterThan b` holds. -/
theorem default_trichotomy_within_window (a b : sqn)
    (hal : a.limit = batSQNAddrSize) (haw : a.window = batLocalWindowSize)
    (_hbl : b.limit = batSQNAddrSize) (_hbw : b.window = batLocalWindowSize)
    (hd : |a.num - b.num| < 64) :
    (a.lessThan b = true ∧ a.equalTo b = false ∧ a.greaterThan b = false) ∨
    (a.lessThan b = false ∧ a.equalTo b = true ∧ a.greaterThan b = false) ∨
    (a.lessThan b = false ∧ a.equalTo b = false ∧ a.greaterThan b = true) := by
  rw [abs_lt] at hd
  obtain ⟨hd1, hd2⟩ := hd
  simp only [batSQNAddrSize] at hal
  simp only [batLocalWindowSize] at haw
  have hg := greaterThan_eq a b (by omega) (by omega) (by omega)
  rw [hal, haw] at hg
  rcases lt_trichotomy a.num b.num with h | h | h
  · left
    have hgt : a.greaterThan b = false := by
      rw [hg, if_pos (by omega)]
      simp
      omega
    have hne : a.num ≠ b.num := by omega
    simp [sqn.lessThan, hgt, sqn.equalTo, hne]
  · right; left
    have hgt : a.greaterThan b = false := by
      rw [hg, if_pos (by omega)]
      simp
      omega
    simp [sqn.lessThan, hgt, sqn.equalTo, h]
  · right; right
    have hgt : a.greaterThan b = true := by
      rw [hg, if_neg (by omega)]
    have hne : a.num ≠ b.num := by omega
    simp [sqn.lessThan, hgt, sqn.equalTo, hne]

theorem default_trichotomy_within_window_witness :
    ((sqn.mk 2040 2048 64).lessThan (sqn.mk 2047 2048 64) = true ∧
      (sqn.mk 2040 2048 64).equalTo (sqn.mk 2047 2048 64) = false ∧
      (sqn.mk 2040 2048 64).greaterThan (sqn.mk 2047 2048 64) = false) ∨
    ((sqn.mk 2040 2048 64).lessThan (sqn.mk 2047 2048 64) = false ∧
      (sqn.mk 2040 2048 64).equalTo (sqn.mk 2047 2048 64) = true ∧
      (sqn.mk 2040 2048 64).greaterThan (sqn.mk 2047 2048 64) = false) ∨
    ((sqn.mk 2040 2048 64).lessThan (sqn.mk 2047 2048 64) = false ∧
      (sqn.mk 2040 2048 64).equalTo (sqn.mk 2047 2048 64) = false ∧
      (sqn.mk 2040 2048 64).greaterThan (sqn.mk 2047 2048 64) = true) :=
  default_trichotomy_within_window (sqn.mk 2040 2048 64) (sqn.mk 2047 2048 64)
    rfl rfl rfl rfl (by decide)

/-- C10: `newSQN num limit window` panics exactly when `num < 0`, `num ≥ limit`
or `window > limit`; in every other case it returns the sequence number with
exactly those three fields. -/
theorem newSQN_panics_iff (num limit window : Int) :
    ((newSQN num limit window).isPanic = true ↔
        (num < 0 ∨ num ≥ limit ∨ window > limit)) ∧
    (¬ (num < 0 ∨ num ≥ limit ∨ window > limit) →
        newSQN num limit window = Run.done (sqn.mk num limit window)) := by
  unfold newSQN
  by_cases h1 : num < 0 ∨ num ≥ limit
  · rw [if_pos h1]
    refine ⟨⟨fun _ => ?_, fun _ => rfl⟩, fun h => ?_⟩
    · rcases h1 with h | h
      · exact Or.inl h
      · exact Or.inr (Or.inl h)
    · exact absurd (by tauto) h
  · rw [if_neg h1]
    by_cases h2 : window > limit
    · rw [if_pos h2]
      exact ⟨⟨fun _ => Or.inr (Or.inr h2), fun _ => rfl⟩, fun h => absurd (by tauto) h⟩
    · rw [if_neg h2]
      refine ⟨⟨fun h => ?_, fun h => ?_⟩, fun _ => rfl⟩
      · simp [Run.isPanic] at h
      · exact absurd h (by tauto)

theorem newSQN_panics_iff_witness :
    newSQN 42 2048 64 = Run.done (sqn.mk 42 2048 64) :=
  (newSQN_panics_iff 42 2048 64).2 (by decide)

/-! ## Window-ring lemmas -/

theorem pmod_cases (x y : Int) (hy : 0 < y) (h1 : -y ≤ x) (h2 : x < 2 * y) :
    pmod x y = if x < 0 then x + y else if x < y then x else x - y := by
  rw [pmod_eq_emod _ _ hy]
  split_ifs with a b
  · exact emod_of_decomp x y (-1) (x + y) (by ring) (by omega) (by omega)
  · exact emod_of_decomp x y 0 x (by ring) (by omega) (by omega)
  · exact emod_of_decomp x y 1 (x - y) (by ring) (by omega) (by omega)

theorem pmod_range (x y : Int) (hy : 0 < y) : 0 ≤ pmod x y ∧ pmod x y < y := by
  rw [pmod_eq_emod _ _ hy]
  exact ⟨Int.emod_nonneg _ hy.ne.symm, Int.emod_lt_of_pos _ hy⟩

theorem newWindowRing_wellFormed (addressSize windowSize : Int) (defaultVal : Byte)
    (h1 : 1 ≤ windowSize) (h2 : windowSize ≤ addressSize) :
    ∃ w, newWindowRing addressSize windowSize defaultVal = Run.done w ∧ w.wellFormed ∧
      w.ring = List.replicate windowSize.toNat defaultVal ∧
      w.addressSize = addressSize ∧ w.windowSize = windowSize ∧
      w.defaultVal = defaultVal ∧ w.windowHead = 0 ∧ w.addressHead = 0 := by
  unfold newWindowRing
  rw [if_neg (by omega), if_neg (by omega)]
  refine ⟨_, rfl, ?_, ?_, rfl, rfl, rfl, rfl, rfl⟩
  · unfold windowRing.wellFormed
    dsimp only
    refine ⟨?_, h1, h2, le_refl _, by omega, le_refl _, by omega⟩
    by_cases hd : defaultVal ≠ 0
    · rw [if_pos hd, List.length_map, List.length_replicate]
      omega
    · rw [if_neg hd, List.length_replicate]
      omega
  · by_cases hd : defaultVal ≠ 0
    · simp only [hd, if_true, ne_eq, not_false_eq_true, List.map_replicate]
    · have : defaultVal = 0 := by simpa using hd
      simp [this]

theorem ringLoad_eq (ring : List Byte) (i : Int) (h0 : 0 ≤ i) (h1 : i < (ring.length : Int)) :
    ringLoad ring i = Run.done (ring.getD i.toNat 0) := by
  unfold ringLoad
  rw [if_pos ⟨h0, h1⟩]

theorem ringStore_eq (ring : List Byte) (i : Int) (v : Byte) (h0 : 0 ≤ i)
    (h1 : i < (ring.length : Int)) : ringStore ring i v = Run.done (ring.set i.toNat v) := by
  unfold ringStore
  rw [if_pos ⟨h0, h1⟩]

/-- Reading a well-formed ring: the slot at the distance of `loc` behind the
head when that distance is inside the window, `(0, false)` otherwise. -/
theorem read_eq (w : windowRing) (hw : w.wellFormed) (loc : Int) :
    w.read loc =
      if pmod (w.addressHead - loc) w.addressSize < w.windowSize then
        Run.done (w.slot (pmod (w.addressHead - loc) w.addressSize), true)
      else Run.done (0, false) := by
  obtain ⟨hlen, hW1, hWA, hh0, hh1, ha0, ha1⟩ := hw
  unfold windowRing.read
  by_cases hd : pmod (w.addressHead - loc) w.addressSize < w.windowSize
  · simp only [hd, if_true]
    have hr := pmod_range (w.windowHead - pmod (w.addressHead - loc) w.addressSize)
      w.windowSize (by omega)
    rw [ringLoad_eq _ _ hr.1 (by omega)]
    rfl
  · simp only [hd, if_false]

theorem getD_set_self (l : List Byte) (i : Nat) (v : Byte) (h : i < l.length) :
    (l.set i v).getD i 0 = v := by
  rw [List.getD_eq_getElem?_getD, List.getElem?_set_self h]
  rfl

theorem getD_set_ne (l : List Byte) (i j : Nat) (v : Byte) (h : i ≠ j) :
    (l.set i v).getD j 0 = l.getD j 0 := by
  rw [List.getD_eq_getElem?_getD, List.getElem?_set_ne h, List.getD_eq_getElem?_getD]

/-- Storing at the ring index of distance `d0` changes the slot of that
distance and no other. -/
theorem slot_store (w : windowRing) (hw : w.wellFormed) (d0 d i : Int) (v : Byte)
    (hi : i = pmod (w.windowHead - d0) w.windowSize)
    (h0 : 0 ≤ d0) (h1 : d0 < w.windowSize) (hd0 : 0 ≤ d) (hd1 : d < w.windowSize) :
    windowRing.slot { w with ring := w.ring.set i.toNat v } d
      = if d = d0 then v else w.slot d := by
  obtain ⟨hlen, hW1, hWA, hh0, hh1, ha0, ha1⟩ := hw
  have e0 := pmod_cases (w.windowHead - d0) w.windowSize (by omega) (by omega) (by omega)
  have e1 := pmod_cases (w.windowHead - d) w.windowSize (by omega) (by omega) (by omega)
  unfold windowRing.slot
  dsimp only
  by_cases hdd : d = d0
  · subst hdd
    rw [if_pos rfl, ← hi]
    apply getD_set_self
    have := pmod_range (w.windowHead - d) w.windowSize (by omega)
    omega
  · rw [if_neg hdd]
    apply getD_set_ne
    rw [hi, e0, e1]
    split_ifs <;> omega

theorem advance_wellFormed (w : windowRing) (hw : w.wellFormed) :
    w.advance.wellFormed ∧ w.advance.addressSize = w.addressSize ∧
      w.advance.windowSize = w.windowSize ∧ w.advance.defaultVal = w.defaultVal ∧
      w.advance.addressHead = w.addressHead := by
  obtain ⟨hlen, hW1, hWA, hh0, hh1, ha0, ha1⟩ := hw
  have hr := pmod_range (1 + w.windowHead) w.windowSize (by omega)
  refine ⟨⟨?_, hW1, hWA, hr.1, hr.2, ha0, ha1⟩, rfl, rfl, rfl, rfl⟩
  unfold windowRing.advance
  dsimp only
  rw [List.length_set]
  exact hlen

theorem slot_advance (w : windowRing) (hw : w.wellFormed) (d : Int)
    (hd0 : 0 ≤ d) (hd1 : d < w.windowSize) :
    w.advance.slot d = if d = 0 then w.defaultVal else w.slot (d - 1) := by
  have hw' := hw
  obtain ⟨hlen, hW1, hWA, hh0, hh1, ha0, ha1⟩ := hw
  have e0 := pmod_cases (1 + w.windowHead) w.windowSize (by omega) (by omega) (by omega)
  have e1 := pmod_cases (pmod (1 + w.windowHead) w.windowSize - d) w.windowSize (by omega)
    (by have := pmod_range (1 + w.windowHead) w.windowSize (by omega); omega)
    (by have := pmod_range (1 + w.windowHead) w.windowSize (by omega); omega)
  have e2 := pmod_cases (w.windowHead - (d - 1)) w.windowSize (by omega) (by omega) (by omega)
  unfold windowRing.slot windowRing.advance
  dsimp only
  by_cases hz : d = 0
  · subst hz
    rw [if_pos rfl]
    have : (pmod (pmod (1 + w.windowHead) w.windowSize - 0) w.windowSize)
        = pmod (1 + w.windowHead) w.windowSize := by
      rw [e1, e0]; split_ifs <;> omega
    rw [this]
    apply getD_set_self
    have := pmod_range (1 + w.windowHead) w.windowSize (by omega)
    omega
  · rw [if_neg hz]
    have hidx : pmod (pmod (1 + w.windowHead) w.windowSize - d) w.windowSize
        = pmod (w.windowHead - (d - 1)) w.windowSize := by
      rw [e1, e2, e0]; split_ifs <;> omega
    rw [getD_set_ne, hidx]
    rw [e1, e0]
    split_ifs <;> omega

theorem advanceBy_spec (k : Nat) (w : windowRing) (hw : w.wellFormed)
    (hk : (k : Int) ≤ w.windowSize) :
    (w.advanceBy k).wellFormed ∧ (w.advanceBy k).addressSize = w.addressSize ∧
      (w.advanceBy k).windowSize = w.windowSize ∧
      (w.advanceBy k).defaultVal = w.defaultVal ∧
      (w.advanceBy k).addressHead = w.addressHead ∧
      ∀ d : Int, 0 ≤ d → d < w.windowSize →
        (w.advanceBy k).slot d = if d < k then w.defaultVal else w.slot (d - k) := by
  induction k generalizing w with
  | zero =>
    refine ⟨hw, rfl, rfl, rfl, rfl, fun d hd0 _ => ?_⟩
    simp only [windowRing.advanceBy, Nat.cast_zero, sub_zero]
    rw [if_neg (by omega)]
  | succ k ih =>
    obtain ⟨hw1, hA, hW, hD, hH⟩ := advance_wellFormed w hw
    obtain ⟨h1, h2, h3, h4, h5, h6⟩ := ih w.advance hw1 (by rw [hW]; push_cast at hk; omega)
    refine ⟨h1, h2.trans hA, h3.trans hW, h4.trans hD, h5.trans hH, fun d hd0 hd1 => ?_⟩
    have hs := h6 d hd0 (by rw [hW]; exact hd1)
    simp only [windowRing.advanceBy]
    rw [hs, hD]
    push_cast
    by_cases hdk : d < (k : Int)
    · rw [if_pos hdk, if_pos (by omega)]
    · rw [if_neg hdk, slot_advance w hw (d - k) (by omega) (by omega)]
      by_cases hz : d - (k : Int) = 0
      · rw [if_pos hz, if_pos (by omega)]
      · rw [if_neg hz, if_neg (by omega)]
        congr 1
        ring

/-- The clearing loop from round `i` on is `k` pure steps, `k` being the
number of rounds left below both `moveBy` and `windowSize`. -/
theorem clearLoop_eq (moveBy : Int) (fuel : Nat) (i : Int) (w : windowRing) (idx : Int)
    (hw : w.wellFormed) (hi : 0 ≤ i) (hf : (fuel : Int) = w.windowSize - i) :
    windowRing.clearLoop moveBy fuel i w idx =
      Run.done (w.advanceBy ((if moveBy < w.windowSize then moveBy else w.windowSize) - i).toNat,
        if ((if moveBy < w.windowSize then moveBy else w.windowSize) - i).toNat = 0 then idx
        else (w.advanceBy
          ((if moveBy < w.windowSize then moveBy else w.windowSize) - i).toNat).windowHead) := by
  induction fuel generalizing i w idx with
  | zero =>
    have hk : ((if moveBy < w.windowSize then moveBy else w.windowSize) - i).toNat = 0 := by
      split_ifs <;> omega
    rw [hk]
    rfl
  | succ fuel ih =>
    have hw' := hw
    obtain ⟨hlen, hW1, hWA, hh0, hh1, ha0, ha1⟩ := hw
    rw [windowRing.clearLoop]
    by_cases hc : i < moveBy ∧ i < w.windowSize
    · rw [if_pos hc]
      have hr := pmod_range (1 + w.windowHead) w.windowSize (by omega)
      dsimp only
      rw [ringStore_eq _ _ _ hr.1 (by omega)]
      simp only [Run.bind]
      obtain ⟨hw1, hA, hW, hD, hH⟩ := advance_wellFormed w hw'
      have key := ih (i + 1) w.advance (pmod (1 + w.windowHead) w.windowSize) hw1 (by omega)
        (by rw [hW]; push_cast at hf; omega)
      change windowRing.clearLoop moveBy fuel (i + 1) w.advance
        (pmod (1 + w.windowHead) w.windowSize) = _
      rw [key, hW]
      have hk : ((if moveBy < w.windowSize then moveBy else w.windowSize) - i).toNat
          = ((if moveBy < w.windowSize then moveBy else w.windowSize) - (i + 1)).toNat + 1 := by
        split_ifs <;> omega
      rw [hk]
      simp only [windowRing.advanceBy, Nat.succ_ne_zero, if_false]
      by_cases hz : ((if moveBy < w.windowSize then moveBy else w.windowSize) - (i + 1)).toNat = 0
      · rw [hz]
        rfl
      · rw [if_neg hz]
    · rw [if_neg hc]
      have hk : ((if moveBy < w.windowSize then moveBy else w.windowSize) - i).toNat = 0 := by
        split_ifs <;> omega
      rw [hk]
      rfl

theorem store_wellFormed (w : windowRing) (hw : w.wellFormed) (i : Int) (val : List Byte) :
    (w.store i val).wellFormed ∧ (w.store i val).addressSize = w.addressSize ∧
      (w.store i val).windowSize = w.windowSize ∧ (w.store i val).defaultVal = w.defaultVal ∧
      (w.store i val).addressHead = w.addressHead ∧
      (w.store i val).windowHead = w.windowHead := by
  cases val with
  | nil => exact ⟨hw, rfl, rfl, rfl, rfl, rfl⟩
  | cons v vs =>
    obtain ⟨hlen, hrest⟩ := hw
    refine ⟨⟨?_, hrest⟩, rfl, rfl, rfl, rfl, rfl⟩
    simp only [windowRing.store, List.length_set]
    exact hlen

/-- A write to a position inside the window stores the value, if any, in the
slot of that position and moves nothing. -/
theorem write_inWindow (w : windowRing) (hw : w.wellFormed) (loc : Int) (val : List Byte)
    (h0 : 0 ≤ loc) (h1 : loc ≤ w.addressSize) (hv : val.length ≤ 1)
    (hin : w.inWindow loc = true) :
    w.write loc val = Run.done
      (w.store (pmod (w.windowHead - pmod (w.addressHead - loc) w.addressSize) w.windowSize)
        val) := by
  obtain ⟨hlen, hW1, hWA, hh0, hh1, ha0, ha1⟩ := hw
  unfold windowRing.write
  rw [if_neg (by omega), if_neg (by omega), if_neg (by omega)]
  simp only [hin, if_true, Run.bind]
  cases val with
  | nil => rfl
  | cons v vs =>
    have hr := pmod_range (w.windowHead - pmod (w.addressHead - loc) w.addressSize)
      w.windowSize (by omega)
    dsimp only
    rw [ringStore_eq _ _ _ hr.1 (by omega)]
    rfl

/-- A write to a position outside the window moves the address head to it,
clears one slot for each position stepped past, at most `windowSize` of them,
and stores the value, if any, at the new window head. -/
theorem write_advance (w : windowRing) (hw : w.wellFormed) (loc : Int) (val : List Byte)
    (h0 : 0 ≤ loc) (h1 : loc < w.addressSize) (hv : val.length ≤ 1)
    (hout : w.inWindow loc = false) :
    w.write loc val = Run.done
      ((windowRing.advanceBy
          (if pmod (loc - w.addressHead) w.addressSize < w.windowSize
            then pmod (loc - w.addressHead) w.addressSize else w.windowSize).toNat
          { w with addressHead := loc }).store
        (windowRing.advanceBy
          (if pmod (loc - w.addressHead) w.addressSize < w.windowSize
            then pmod (loc - w.addressHead) w.addressSize else w.windowSize).toNat
          { w with addressHead := loc }).windowHead val) := by
  have hw' := hw
  obtain ⟨hlen, hW1, hWA, hh0, hh1, ha0, ha1⟩ := hw
  have hm := pmod_cases (loc - w.addressHead) w.addressSize (by omega) (by omega) (by omega)
  have hmr := pmod_range (loc - w.addressHead) w.addressSize (by omega)
  have hd := pmod_cases (w.addressHead - loc) w.addressSize (by omega) (by omega) (by omega)
  have hout' : ¬ pmod (w.addressHead - loc) w.addressSize < w.windowSize := by
    simpa [windowRing.inWindow] using hout
  have hback : pmod (pmod (loc - w.addressHead) w.addressSize + w.addressHead) w.addressSize
      = loc := by
    rw [pmod_cases _ _ (by omega) (by omega) (by omega), hm]
    split_ifs <;> omega
  have hm1 : 1 ≤ pmod (loc - w.addressHead) w.addressSize := by
    rw [hm]
    rw [hd] at hout'
    split_ifs at hout' ⊢ <;> omega
  have hw1 : windowRing.wellFormed { w with addressHead := loc } :=
    ⟨hlen, hW1, hWA, hh0, hh1, h0, h1⟩
  unfold windowRing.write
  rw [if_neg (by omega), if_neg (by omega), if_neg (by omega)]
  simp only [hout, Bool.false_eq_true, if_false, hback, ne_eq, not_true_eq_false]
  have hloop := clearLoop_eq (pmod (loc - w.addressHead) w.addressSize) w.windowSize.toNat 0
    { w with addressHead := loc } 0 hw1 (le_refl _) (by dsimp only; omega)
  simp only [sub_zero] at hloop
  rw [hloop]
  have hk : ¬ (if pmod (loc - w.addressHead) w.addressSize < w.windowSize
      then pmod (loc - w.addressHead) w.addressSize else w.windowSize).toNat = 0 := by
    split_ifs <;> omega
  simp only [Run.bind, hk, if_false]
  obtain ⟨hwk, -, hWk, -, -, -⟩ := advanceBy_spec
    (if pmod (loc - w.addressHead) w.addressSize < w.windowSize
      then pmod (loc - w.addressHead) w.addressSize else w.windowSize).toNat
    { w with addressHead := loc } hw1 (by dsimp only; split_ifs <;> omega)
  cases val with
  | nil => rfl
  | cons v vs =>
    obtain ⟨hlenk, -, -, hk0, hk1, -, -⟩ := hwk
    dsimp only
    rw [ringStore_eq _ _ _ hk0 (by omega)]
    rfl

theorem inWindow_iff (w : windowRing) (loc : Int) :
    w.inWindow loc = true ↔ pmod (w.addressHead - loc) w.addressSize < w.windowSize := by
  simp [windowRing.inWindow]

theorem pmod_lin (x y : Int) (hy : 0 < y) (h1 : -y ≤ x) (h2 : x < 2 * y) :
    (x < 0 ∧ pmod x y = x + y) ∨ (0 ≤ x ∧ x < y ∧ pmod x y = x) ∨
      (y ≤ x ∧ pmod x y = x - y) := by
  rw [pmod_cases x y hy h1 h2]
  split_ifs <;> omega

theorem toNat_min_lin (m W : Int) (hm : 0 ≤ m) (hW : 0 ≤ W) :
    (m < W ∧ (((if m < W then m else W).toNat : Nat) : Int) = m) ∨
      (W ≤ m ∧ (((if m < W then m else W).toNat : Nat) : Int) = W) := by
  split_ifs <;> omega

/-- What a write does to a well-formed ring, position by position. -/
theorem write_spec (w : windowRing) (hw : w.wellFormed) (loc : Int) (val : List Byte)
    (h0 : 0 ≤ loc) (h1 : loc < w.addressSize) (hv : val.length ≤ 1) :
    ∃ w1, w.write loc val = Run.done w1 ∧ w1.wellFormed ∧
      w1.addressSize = w.addressSize ∧ w1.windowSize = w.windowSize ∧
      w1.defaultVal = w.defaultVal ∧
      w1.addressHead = (if w.inWindow loc = true then w.addressHead else loc) ∧
      w1.inWindow loc = true ∧
      ∀ p : Int, 0 ≤ p → p < w.addressSize → w1.inWindow p = true →
        w1.read p = Run.done
          (if p = loc ∧ val ≠ [] then val.headD 0
            else if w.inWindow p = true then w.slot (pmod (w.addressHead - p) w.addressSize)
            else w.defaultVal, true) := by
  have hw' := hw
  obtain ⟨hlen, hW1, hWA, hh0, hh1, ha0, ha1⟩ := hw
  have hdl := pmod_lin (w.addressHead - loc) w.addressSize (by omega) (by omega) (by omega)
  by_cases hin : w.inWindow loc = true
  · -- the head stays
    have hin' := (inWindow_iff w loc).1 hin
    obtain ⟨hs, hA, hW, hD, hH, hWH⟩ := store_wellFormed w hw'
      (pmod (w.windowHead - pmod (w.addressHead - loc) w.addressSize) w.windowSize) val
    refine ⟨_, write_inWindow w hw' loc val h0 h1.le hv hin, hs, hA, hW, hD, ?_, ?_, ?_⟩
    · rw [if_pos hin, hH]
    · rw [inWindow_iff, hH, hA, hW]
      exact hin'
    · intro p hp0 hp1 hpin
      rw [inWindow_iff, hH, hA, hW] at hpin
      have hpin0 : w.inWindow p = true := (inWindow_iff w p).2 hpin
      rw [read_eq _ hs, hH, hA, hW, if_pos hpin, if_pos hpin0]
      have hdp := pmod_lin (w.addressHead - p) w.addressSize (by omega) (by omega) (by omega)
      cases val with
      | nil => simp [windowRing.store]
      | cons v vs =>
        simp only [windowRing.store, ne_eq, reduceCtorEq, not_false_eq_true, and_true,
          List.headD_cons]
        rw [slot_store w hw' (pmod (w.addressHead - loc) w.addressSize) _ _ v rfl
          (by omega) hin' (by omega) hpin]
        by_cases hpl : p = loc
        · rw [if_pos (by rw [hpl]), if_pos hpl]
        · rw [if_neg (by omega), if_neg hpl]
  · -- the head advances to `loc`
    have hout : w.inWindow loc = false := by simpa using hin
    have hout' : ¬ pmod (w.addressHead - loc) w.addressSize < w.windowSize :=
      fun h => hin ((inWindow_iff w loc).2 h)
    have hm := pmod_lin (loc - w.addressHead) w.addressSize (by omega) (by omega) (by omega)
    have hK := toNat_min_lin (pmod (loc - w.addressHead) w.addressSize) w.windowSize
      (by omega) (by omega)
    have hw1 : windowRing.wellFormed { w with addressHead := loc } :=
      ⟨hlen, hW1, hWA, hh0, hh1, h0, h1⟩
    obtain ⟨hwk, hAk, hWk, hDk, hHk, hSk⟩ := advanceBy_spec
      (if pmod (loc - w.addressHead) w.addressSize < w.windowSize
        then pmod (loc - w.addressHead) w.addressSize else w.windowSize).toNat
      { w with addressHead := loc } hw1 (by dsimp only; omega)
    have hwr := write_advance w hw' loc val h0 h1 hv hout
    generalize (if pmod (loc - w.addressHead) w.addressSize < w.windowSize
        then pmod (loc - w.addressHead) w.addressSize else w.windowSize).toNat = k
      at hK hwk hAk hWk hDk hHk hSk hwr
    generalize windowRing.advanceBy k { w with addressHead := loc } = wk
      at hwk hAk hWk hDk hHk hSk hwr
    dsimp only at hAk hWk hDk hHk hSk
    obtain ⟨hs, hA, hW, hD, hH, hWH⟩ := store_wellFormed wk hwk wk.windowHead val
    have hself := pmod_lin (loc - loc) w.addressSize (by omega) (by omega) (by omega)
    refine ⟨_, hwr, hs, hA.trans hAk, hW.trans hWk, hD.trans hDk, ?_, ?_, ?_⟩
    · rw [if_neg hin, hH, hHk]
    · rw [inWindow_iff, hH, hHk, hA, hAk, hW, hWk]
      omega
    · intro p hp0 hp1 hpin
      rw [inWindow_iff, hH, hHk, hA, hAk, hW, hWk] at hpin
      rw [read_eq _ hs, hH, hHk, hA, hAk, hW, hWk, if_pos hpin]
      have hdp := pmod_lin (w.addressHead - p) w.addressSize (by omega) (by omega) (by omega)
      have hdq := pmod_lin (loc - p) w.addressSize (by omega) (by omega) (by omega)
      have hwk' := hwk
      obtain ⟨-, hk1W, -, hk0, hk1, -, -⟩ := hwk
      have hidx : wk.windowHead = pmod (wk.windowHead - 0) wk.windowSize := by
        have := pmod_lin (wk.windowHead - 0) wk.windowSize (by omega) (by omega) (by omega)
        omega
      have hslot : ∀ d, windowRing.slot { w with addressHead := loc } d = w.slot d :=
        fun _ => rfl
      have hold : wk.slot (pmod (loc - p) w.addressSize)
          = if w.inWindow p = true then w.slot (pmod (w.addressHead - p) w.addressSize)
            else w.defaultVal := by
        rw [hSk _ (by omega) hpin, hslot]
        by_cases hpw : w.inWindow p = true
        · have hpw' := (inWindow_iff w p).1 hpw
          rw [if_pos hpw, if_neg (by omega)]
          congr 1
          omega
        · have hpw' : ¬ pmod (w.addressHead - p) w.addressSize < w.windowSize :=
            fun h => hpw ((inWindow_iff w p).2 h)
          rw [if_neg hpw, if_pos (by omega)]
      cases val with
      | nil =>
        simp only [windowRing.store, ne_eq, not_true_eq_false, and_false, if_false]
        rw [hold]
      | cons v vs =>
        simp only [windowRing.store, ne_eq, reduceCtorEq, not_false_eq_true, and_true,
          List.headD_cons]
        rw [slot_store wk hwk' 0 (pmod (loc - p) w.addressSize) _ v hidx (le_refl _)
          (by omega) (by omega) (by omega)]
        by_cases hpl : p = loc
        · rw [if_pos (by omega), if_pos hpl]
        · rw [if_neg (by omega), if_neg hpl, hold]

theorem read_done_true (w : windowRing) (hw : w.wellFormed) (loc : Int) (v : Byte)
    (h : w.read loc = Run.done (v, true)) :
    w.inWindow loc = true ∧ w.slot (pmod (w.addressHead - loc) w.addressSize) = v := by
  rw [read_eq w hw] at h
  by_cases hd : pmod (w.addressHead - loc) w.addressSize < w.windowSize
  · rw [if_pos hd] at h
    simp only [Run.done.injEq, Prod.mk.injEq, and_true] at h
    exact ⟨(inWindow_iff w loc).2 hd, h⟩
  · rw [if_neg hd] at h
    simp at h

/-- A value read at `loc` survives a run of writes to other positions that
keep `loc` inside the window. -/
theorem read_preserved (loc : Int) (v : Byte) (ws : List (Int × List Byte)) (w : windowRing)
    (hw : w.wellFormed) (h0 : 0 ≤ loc) (h1 : loc < w.addressSize)
    (hr : w.read loc = Run.done (v, true))
    (hws : ∀ e ∈ ws, e.1 ≠ loc ∧ 0 ≤ e.1 ∧ e.1 < w.addressSize ∧ e.2.length ≤ 1)
    (hstay : w.staysInWindow loc ws = true) :
    ∃ w2, w.writeAll ws = Run.done w2 ∧ w2.read loc = Run.done (v, true) := by
  induction ws generalizing w with
  | nil => exact ⟨w, rfl, hr⟩
  | cons e rest ih =>
    obtain ⟨p, val⟩ := e
    obtain ⟨hne, hp0, hp1, hv⟩ := hws (p, val) (List.mem_cons_self _ _)
    obtain ⟨w1, hwr, hw1, hA, hW, hD, -, -, hread⟩ := write_spec w hw p val hp0 hp1 hv
    simp only [windowRing.staysInWindow, hwr, Bool.and_eq_true] at hstay
    obtain ⟨hin1, hstay1⟩ := hstay
    obtain ⟨hin, hslot⟩ := read_done_true w hw loc v hr
    have hr1 : w1.read loc = Run.done (v, true) := by
      rw [hread loc h0 h1 hin1, if_neg (by intro h; exact hne h.1.symm), if_pos hin, hslot]
    obtain ⟨w2, hall, hr2⟩ := ih w1 hw1 (by rw [hA]; exact h1) hr1
      (fun e he => by
        rw [hA]
        exact hws e (List.mem_cons_of_mem _ he)) hstay1
    exact ⟨w2, by simp only [windowRing.writeAll, hwr, Run.bind, hall], hr2⟩

/-! ## Window-ring claims -/

/-- Over the integers: on a ring as `newWindowRing` builds it with `1 ≤ windowSize ≤ addressSize`
(and as writes keep it), for every position `0 ≤ loc < addressSize` and byte
`v`: right after `write(loc, v)`, `read(loc)` returns `(v, true)`, and it
still does after any run of writes to other positions during which `loc`
stays inside the window. -/
theorem write_then_read (w : windowRing) (hw : w.wellFormed) (loc : Int) (v : Byte)
    (h0 : 0 ≤ loc) (h1 : loc < w.addressSize) :
    ∃ w1, w.write loc [v] = Run.done w1 ∧ w1.read loc = Run.done (v, true) ∧
      ∀ ws : List (Int × List Byte),
        (∀ e ∈ ws, e.1 ≠ loc ∧ 0 ≤ e.1 ∧ e.1 < w.addressSize ∧ e.2.length ≤ 1) →
        w1.staysInWindow loc ws = true →
        ∃ w2, w1.writeAll ws = Run.done w2 ∧ w2.read loc = Run.done (v, true) := by
  obtain ⟨w1, hwr, hw1, hA, hW, hD, -, hin1, hread⟩ :=
    write_spec w hw loc [v] h0 h1 (by simp)
  have hr1 : w1.read loc = Run.done (v, true) := by
    rw [hread loc h0 h1 hin1, if_pos ⟨rfl, by simp⟩]
    rfl
  refine ⟨w1, hwr, hr1, fun ws hws hstay => ?_⟩
  exact read_preserved loc v ws w1 hw1 h0 (by rw [hA]; exact h1) hr1
    (fun e he => by rw [hA]; exact hws e he) hstay

theorem write_then_read_witness :
    ∃ w1, ring2048.write 0 [255] = Run.done w1 ∧ w1.read 0 = Run.done (255, true) ∧
      ∀ ws : List (Int × List Byte),
        (∀ e ∈ ws, e.1 ≠ 0 ∧ 0 ≤ e.1 ∧ e.1 < ring2048.addressSize ∧ e.2.length ≤ 1) →
        w1.staysInWindow 0 ws = true →
        ∃ w2, w1.writeAll ws = Run.done w2 ∧ w2.read 0 = Run.done (255, true) :=
  write_then_read ring2048 (by decide) 0 255 (by decide) (by decide)

/-- Over the integers: on a well-formed ring, for `0 ≤ loc < addressSize` and an optional
value, `write(loc, val?)` leaves `addressHead` alone when `loc` was inside the
window and sets it to `loc` otherwise; every position of the new window that
received no value reads its old value when it was inside the window before
and `defaultVal` otherwise; a write without value to a position inside the
window changes nothing. -/
theorem write_frame (w : windowRing) (hw : w.wellFormed) (loc : Int) (val : List Byte)
    (h0 : 0 ≤ loc) (h1 : loc < w.addressSize) (hv : val.length ≤ 1) :
    ∃ w1, w.write loc val = Run.done w1 ∧
      w1.addressHead = (if w.inWindow loc = true then w.addressHead else loc) ∧
      (∀ p : Int, 0 ≤ p → p < w.addressSize → w1.inWindow p = true → (p ≠ loc ∨ val = []) →
        w1.read p = if w.inWindow p = true then w.read p else Run.done (w.defaultVal, true)) ∧
      (val = [] → w.inWindow loc = true → w1 = w) := by
  obtain ⟨w1, hwr, hw1, hA, hW, hD, hH, hin1, hread⟩ := write_spec w hw loc val h0 h1 hv
  refine ⟨w1, hwr, hH, fun p hp0 hp1 hpin hno => ?_, fun hnil hin => ?_⟩
  · rw [hread p hp0 hp1 hpin, if_neg (by
      rintro ⟨h, h'⟩
      rcases hno with hno | hno
      · exact hno h
      · exact h' hno)]
    by_cases hpw : w.inWindow p = true
    · rw [if_pos hpw, if_pos hpw, read_eq w hw, if_pos ((inWindow_iff w p).1 hpw)]
    · rw [if_neg hpw, if_neg hpw]
  · subst hnil
    have := write_inWindow w hw loc [] h0 h1.le (by simp) hin
    rw [this] at hwr
    simp only [windowRing.store, Run.done.injEq] at hwr
    exact hwr.symm

theorem write_frame_witness :
    ∃ w1, ring32At10.write 12 [] = Run.done w1 ∧
      w1.addressHead = (if ring32At10.inWindow 12 = true then ring32At10.addressHead else 12) ∧
      (∀ p : Int, 0 ≤ p → p < ring32At10.addressSize → w1.inWindow p = true →
        (p ≠ 12 ∨ ([] : List Byte) = []) →
        w1.read p = if ring32At10.inWindow p = true then ring32At10.read p
          else Run.done (ring32At10.defaultVal, true)) ∧
      (([] : List Byte) = [] → ring32At10.inWindow 12 = true → w1 = ring32At10) :=
  write_frame ring32At10 (by decide) 12 [] (by decide) (by decide) (by decide)

/-- Over the integers: on a well-formed ring `read(loc)` returns `ok = true` exactly when
`inWindow(loc)`, that is when `(addressHead - loc) mod addressSize < windowSize`,
and `(0, false)` for every position outside the window; after a write that
advances the head to `loc`, every position `windowSize` or more steps behind
`loc` reads `(0, false)`. -/
theorem read_ok_iff_inWindow (w : windowRing) (hw : w.wellFormed) (loc : Int) :
    (w.inWindow loc = true ↔ (w.addressHead - loc) % w.addressSize < w.windowSize) ∧
    ((∃ v, w.read loc = Run.done (v, true)) ↔ w.inWindow loc = true) ∧
    (w.inWindow loc = false → w.read loc = Run.done (0, false)) ∧
    (∀ val : List Byte, 0 ≤ loc → loc < w.addressSize → val.length ≤ 1 →
      w.inWindow loc = false →
      ∃ w1, w.write loc val = Run.done w1 ∧ w1.addressHead = loc ∧
        ∀ p : Int, (loc - p) % w.addressSize ≥ w.windowSize →
          w1.read p = Run.done (0, false)) := by
  have hA : 0 < w.addressSize := by
    obtain ⟨-, hW1, hWA, -⟩ := hw
    omega
  refine ⟨?_, ⟨?_, ?_⟩, ?_, ?_⟩
  · rw [inWindow_iff, pmod_eq_emod _ _ hA]
  · rintro ⟨v, hv⟩
    exact (read_done_true w hw loc v hv).1
  · intro hin
    rw [read_eq w hw, if_pos ((inWindow_iff w loc).1 hin)]
    exact ⟨_, rfl⟩
  · intro hout
    have : ¬ pmod (w.addressHead - loc) w.addressSize < w.windowSize :=
      fun h => by rw [(inWindow_iff w loc).2 h] at hout; cases hout
    rw [read_eq w hw, if_neg this]
  · intro val h0 h1 hv hout
    obtain ⟨w1, hwr, hw1, hA1, hW1, -, hH, -, -⟩ := write_spec w hw loc val h0 h1 hv
    rw [hout] at hH
    simp only [Bool.false_eq_true, if_false] at hH
    refine ⟨w1, hwr, hH, fun p hp => ?_⟩
    rw [read_eq w1 hw1, hH, hA1, hW1, if_neg]
    rw [pmod_eq_emod _ _ hA]
    omega

theorem read_ok_iff_inWindow_witness :
    ∃ w1, ring32At10.write 20 [7] = Run.done w1 ∧ w1.addressHead = 20 ∧
      ∀ p : Int, (20 - p) % ring32At10.addressSize ≥ ring32At10.windowSize →
        w1.read p = Run.done (0, false) :=
  (read_ok_iff_inWindow ring32At10 (by decide) 20).2.2.2 [7] (by decide) (by decide)
    (by decide) (by decide)

/-- C15 (code): on the ring of `newWindowRing(32, 4, 0)` after `write(10, 1)`,
`write(32, 1)` passes the three input checks (`32 > addressSize` is false) and
then panics on the `addressHead/loc mismatch` assertion. -/
theorem write_at_addressSize_panics :
    (newWindowRing 32 4 0).bind (fun w => w.write 10 [1]) = Run.done ring32At10 ∧
      ring32At10.wellFormed ∧ (0 : Int) ≤ 32 ∧ (32 : Int) ≤ ring32At10.addressSize ∧
      ring32At10.write 32 [1]
        = Run.panicked "windowRing: write: addressHead/loc mismatch!" := by
  refine ⟨by decide, by decide, by decide, by decide, by decide⟩

theorem foldl_count (v : Byte) (l : List Byte) (acc : Int) :
    l.foldl (fun count x => if v = x then count + 1 else count) acc = acc + (l.count v : Int) := by
  induction l generalizing acc with
  | nil => simp
  | cons a l ih =>
    rw [List.foldl_cons, ih, List.count_cons]
    by_cases h : v = a
    · subst h
      simp
      ring
    · have h' : ¬ a = v := fun e => h e.symm
      simp [h, h']

theorem countHits_eq_count (w : windowRing) (v : Byte) :
    w.countHits v = (w.ring.count v : Int) := by
  unfold windowRing.countHits
  rw [foldl_count]
  simp

theorem filter_range_length (n : Nat) (q : Nat → Bool) :
    ((List.range n).filter q).length = ((Finset.range n).filter (fun d => q d = true)).card := by
  induction n with
  | zero => simp
  | succ n ih =>
    rw [List.range_succ, List.filter_append, List.length_append, ih, Finset.range_succ,
      Finset.filter_insert]
    by_cases h : q n = true
    · rw [if_pos h, Finset.card_insert_of_not_mem (by simp)]
      simp [h]
    · rw [if_neg h]
      simp [h]

theorem count_eq_card_indices (v : Byte) (l : List Byte) :
    l.count v = ((Finset.range l.length).filter (fun i => l.getD i 0 = v)).card := by
  induction l using List.reverseRecOn with
  | nil => simp
  | append_singleton l a ih =>
    rw [List.count_append, ih, List.length_append, List.length_singleton, Finset.range_succ,
      Finset.filter_insert]
    have hlast : (l ++ [a]).getD l.length 0 = a := by
      rw [List.getD_append_right _ _ _ _ (le_refl _)]
      simp
    have hfilter : (Finset.range l.length).filter (fun i => (l ++ [a]).getD i 0 = v)
        = (Finset.range l.length).filter (fun i => l.getD i 0 = v) := by
      apply Finset.filter_congr
      intro i hi
      rw [List.getD_append _ _ _ _ (Finset.mem_range.1 hi)]
    rw [hlast, hfilter]
    by_cases h : a = v
    · rw [if_pos h, Finset.card_insert_of_not_mem (by simp)]
      simp [h]
    · rw [if_neg h]
      simp [List.count_cons, h]

/-- Ring index of the position `d` steps behind the head. -/
theorem slotIndex_range (w : windowRing) (hw : w.wellFormed) (d : Nat)
    (_hd : d < w.ring.length) :
    (pmod (w.windowHead - (d : Int)) w.windowSize).toNat < w.ring.length := by
  obtain ⟨hlen, hW1, -, hh0, hh1, -, -⟩ := hw
  have := pmod_range (w.windowHead - (d : Int)) w.windowSize (by omega)
  omega

/-- The number of slots that hold `v`, counted by distance from the head. -/
theorem count_slots (w : windowRing) (hw : w.wellFormed) (v : Byte) :
    ((Finset.range w.ring.length).filter (fun d : Nat => w.slot (d : Int) = v)).card
      = w.ring.count v := by
  have hw' := hw
  obtain ⟨hlen, hW1, -, hh0, hh1, -, -⟩ := hw
  rw [count_eq_card_indices]
  apply Finset.card_nbij'
    (fun d : Nat => (pmod (w.windowHead - (d : Int)) w.windowSize).toNat)
    (fun i : Nat => (pmod (w.windowHead - (i : Int)) w.windowSize).toNat)
  · intro d hd
    simp only [Finset.mem_filter, Finset.mem_range] at hd ⊢
    exact ⟨slotIndex_range w hw' d hd.1, hd.2⟩
  · intro i hi
    simp only [Finset.mem_filter, Finset.mem_range] at hi ⊢
    refine ⟨slotIndex_range w hw' i hi.1, ?_⟩
    unfold windowRing.slot
    have e1 := pmod_lin (w.windowHead - (i : Int)) w.windowSize (by omega) (by omega) (by omega)
    have e2 := pmod_lin (w.windowHead -
      (((pmod (w.windowHead - (i : Int)) w.windowSize).toNat : Nat) : Int)) w.windowSize
      (by omega) (by omega) (by omega)
    have : (pmod (w.windowHead -
        (((pmod (w.windowHead - (i : Int)) w.windowSize).toNat : Nat) : Int)) w.windowSize).toNat
        = i := by omega
    rw [this]
    exact hi.2
  · intro d hd
    simp only [Finset.mem_filter, Finset.mem_range] at hd
    have e1 := pmod_lin (w.windowHead - (d : Int)) w.windowSize (by omega) (by omega) (by omega)
    have e2 := pmod_lin (w.windowHead -
      (((pmod (w.windowHead - (d : Int)) w.windowSize).toNat : Nat) : Int)) w.windowSize
      (by omega) (by omega) (by omega)
    omega
  · intro d hd
    simp only [Finset.mem_filter, Finset.mem_range] at hd
    have e1 := pmod_lin (w.windowHead - (d : Int)) w.windowSize (by omega) (by omega) (by omega)
    have e2 := pmod_lin (w.windowHead -
      (((pmod (w.windowHead - (d : Int)) w.windowSize).toNat : Nat) : Int)) w.windowSize
      (by omega) (by omega) (by omega)
    omega

/-- C13: on a well-formed ring `countHits(v)` is the number of positions `p`,
among the `windowSize` positions ending at `addressHead`, for which `read(p)`
returns `(v, true)`. -/
theorem countHits_eq_positions (w : windowRing) (hw : w.wellFormed) (v : Byte) :
    w.countHits v =
      (((List.range w.windowSize.toNat).filter (fun d : Nat =>
        decide (w.read (pmod (w.addressHead - (d : Int)) w.addressSize)
          = Run.done (v, true)))).length : Int) := by
  have hw' := hw
  obtain ⟨hlen, hW1, hWA, hh0, hh1, ha0, ha1⟩ := hw
  have hn : w.windowSize.toNat = w.ring.length := by omega
  rw [countHits_eq_count, ← count_slots w hw' v, hn, filter_range_length]
  congr 2
  apply Finset.filter_congr
  intro d hd
  have hd' := Finset.mem_range.1 hd
  have e1 := pmod_lin (w.addressHead - (d : Int)) w.addressSize (by omega) (by omega) (by omega)
  have e2 := pmod_lin (w.addressHead - pmod (w.addressHead - (d : Int)) w.addressSize)
    w.addressSize (by omega) (by omega) (by omega)
  have hdist : pmod (w.addressHead - pmod (w.addressHead - (d : Int)) w.addressSize)
      w.addressSize = (d : Int) := by omega
  rw [read_eq w hw', hdist, if_pos (by omega)]
  simp

theorem countHits_eq_positions_witness :
    ring32At10.countHits 1 =
      (((List.range ring32At10.windowSize.toNat).filter (fun d : Nat =>
        decide (ring32At10.read (pmod (ring32At10.addressHead - (d : Int))
          ring32At10.addressSize) = Run.done (1, true)))).length : Int) :=
  countHits_eq_positions ring32At10 (by decide) 1

/-! ## Link-metric lemmas -/

theorem countHits_range (w : windowRing) (v : Byte) :
    0 ≤ w.countHits v ∧ w.countHits v ≤ (w.ring.length : Int) := by
  rw [countHits_eq_count]
  have := List.count_le_length v w.ring
  omega

theorem counts_range (link : linkData) (W : Int) (h : link.windowsOfSize W) :
    0 ≤ link.countRQ ∧ link.countRQ ≤ W ∧ 0 ≤ link.countEQ ∧ link.countEQ ≤ W := by
  obtain ⟨h1, h2, h3, h4⟩ := h
  have hr := countHits_range link.rqWindow 0
  have he := countHits_range link.eqWindow 0
  unfold linkData.countRQ linkData.countEQ
  omega

theorem byteOfInt_val (x : Int) (h0 : 0 ≤ x) (h1 : x ≤ 255) : ((byteOfInt x).val : Int) = x := by
  simp only [byteOfInt]
  omega

/-- Bounds of the ordinary case: the raw quality and the penalty are in
`0..255`, and so is their product divided by 255. -/
theorem tq_bounds (cR cE W : Int) (hR : 10 ≤ cR) (hE : 10 ≤ cE) (hER : cE ≤ cR)
    (hRW : cR ≤ W) :
    0 ≤ cE * 255 / cR ∧ cE * 255 / cR ≤ 255 ∧
    0 ≤ 255 * (W - cR) ^ 3 / W ^ 3 ∧ 255 * (W - cR) ^ 3 / W ^ 3 ≤ 255 ∧
    0 ≤ (cE * 255 / cR) * (255 - 255 * (W - cR) ^ 3 / W ^ 3) / 255 ∧
    (cE * 255 / cR) * (255 - 255 * (W - cR) ^ 3 / W ^ 3) / 255 ≤ 255 := by
  have hW : 0 < W := by omega
  have hW3 : 0 < W ^ 3 := by positivity
  have hx0 : 0 ≤ W - cR := by omega
  have hx3 : 0 ≤ (W - cR) ^ 3 := by positivity
  have hxW : (W - cR) ^ 3 ≤ W ^ 3 := pow_le_pow_left₀ hx0 (by omega) 3
  have r0 : 0 ≤ cE * 255 / cR := Int.ediv_nonneg (by omega) (by omega)
  have r1 : cE * 255 / cR ≤ 255 := Int.ediv_le_of_le_mul (by omega) (by omega)
  have p0 : 0 ≤ 255 * (W - cR) ^ 3 / W ^ 3 := Int.ediv_nonneg (by positivity) hW3.le
  have p1 : 255 * (W - cR) ^ 3 / W ^ 3 ≤ 255 :=
    Int.ediv_le_of_le_mul hW3 (by nlinarith)
  have q0 : 0 ≤ 255 - 255 * (W - cR) ^ 3 / W ^ 3 := by omega
  have q1 : 255 - 255 * (W - cR) ^ 3 / W ^ 3 ≤ 255 := by omega
  refine ⟨r0, r1, p0, p1, Int.ediv_nonneg (mul_nonneg r0 q0) (by decide), ?_⟩
  apply Int.ediv_le_of_le_mul (by decide)
  calc (cE * 255 / cR) * (255 - 255 * (W - cR) ^ 3 / W ^ 3)
      ≤ 255 * 255 := mul_le_mul r1 q1 q0 (by decide)
    _ = 255 * 255 := rfl

/-- The value before the byte conversion, with Go's truncating division
written as flooring division (all operands are non-negative). -/
theorem tqUnconverted_eq (link : linkData) (W : Int) (h : link.windowsOfSize W)
    (hR : 10 ≤ link.countRQ) (hE : 10 ≤ link.countEQ) :
    link.tqUnconverted = (link.countEQ * 255 / link.countRQ) *
      (255 - 255 * (W - link.countRQ) ^ 3 / W ^ 3) / 255 := by
  obtain ⟨c0, c1, c2, c3⟩ := counts_range link W h
  obtain ⟨-, -, -, h4⟩ := h
  have hW : 0 < W := by omega
  have hx0 : 0 ≤ W - link.countRQ := by omega
  unfold linkData.tqUnconverted batTQMaxValue
  simp only [h4]
  have e1 : (link.countEQ * 255).tdiv link.countRQ = link.countEQ * 255 / link.countRQ :=
    Int.tdiv_eq_ediv (by omega) (by omega)
  have e2 : (255 * (W - link.countRQ) * (W - link.countRQ) * (W - link.countRQ)).tdiv
      (W * W * W) = 255 * (W - link.countRQ) ^ 3 / W ^ 3 := by
    rw [Int.tdiv_eq_ediv (by positivity) (by positivity)]
    congr 1 <;> ring
  rw [e1, e2]
  have r0 : 0 ≤ link.countEQ * 255 / link.countRQ := Int.ediv_nonneg (by omega) (by omega)
  have hW3 : 0 < W ^ 3 := by positivity
  have hxW : (W - link.countRQ) ^ 3 ≤ W ^ 3 := pow_le_pow_left₀ hx0 (by omega) 3
  have p1 : 255 * (W - link.countRQ) ^ 3 / W ^ 3 ≤ 255 :=
    Int.ediv_le_of_le_mul hW3 (by nlinarith)
  rw [Int.tdiv_eq_ediv (mul_nonneg r0 (by omega)) (by decide)]

theorem updateTQ_tq (link : linkData) :
    link.updateTQ.tq =
      if link.countRQ < 10 ∨ link.countEQ < 10 then 0
      else if link.countRQ < link.countEQ then 255
      else if ((byteOfInt link.tqUnconverted).val : Int) < 10 then 0
      else byteOfInt link.tqUnconverted := rfl

theorem updateTQ_frame (link : linkData) :
    link.updateTQ.rqWindow = link.rqWindow ∧ link.updateTQ.eqWindow = link.eqWindow ∧
      link.updateTQ.seen = link.seen := ⟨rfl, rfl, rfl⟩

/-! ## Link-metric claims -/

/-- C16 (amended): `updateTQ` sets `tq` to the TQ formula evaluated with
`rq_count` the non-zero count of the RQ window and `eq_count` the non-zero
count of the EQ window (no swap), `W` the window size, and changes nothing
else. -/
theorem updateTQ_formula (link : linkData) (W : Int) (h : link.windowsOfSize W) :
    ((link.updateTQ.tq.val : Nat) : Int) = tqFormula link.countRQ link.countEQ W ∧
      link.updateTQ.rqWindow = link.rqWindow ∧ link.updateTQ.eqWindow = link.eqWindow ∧
      link.updateTQ.seen = link.seen := by
  refine ⟨?_, updateTQ_frame link⟩
  obtain ⟨c0, c1, c2, c3⟩ := counts_range link W h
  rw [updateTQ_tq]
  unfold tqFormula
  by_cases hcut : link.countRQ < 10 ∨ link.countEQ < 10
  · rw [if_pos hcut, if_pos hcut]
    rfl
  · rw [if_neg hcut, if_neg hcut]
    by_cases hlt : link.countRQ < link.countEQ
    · rw [if_pos hlt, if_pos hlt]
      rfl
    · rw [if_neg hlt, if_neg hlt]
      obtain ⟨-, -, -, -, t0, t1⟩ := tq_bounds link.countRQ link.countEQ W
        (by omega) (by omega) (by omega) c1
      have hu := tqUnconverted_eq link W h (by omega) (by omega)
      rw [← hu] at t0 t1
      have hb := byteOfInt_val link.tqUnconverted t0 t1
      dsimp only
      rw [← hu, hb]
      by_cases h10 : link.tqUnconverted < 10
      · rw [if_pos h10, if_pos h10]
        rfl
      · rw [if_neg h10, if_neg h10, hb]

theorem updateTQ_formula_witness :
    ((link30x20.updateTQ.tq.val : Nat) : Int)
        = tqFormula link30x20.countRQ link30x20.countEQ 64 ∧
      link30x20.updateTQ.rqWindow = link30x20.rqWindow ∧
      link30x20.updateTQ.eqWindow = link30x20.eqWindow ∧
      link30x20.updateTQ.seen = link30x20.seen :=
  updateTQ_formula link30x20 64 (by decide)

/-- C16 as stated fails: with 30 marked slots in the RQ window and 20 in the
EQ window `updateTQ` stores 144, while the formula fed with the counts
swapped (the EQ window's count as `rq_count`) gives 255. -/
theorem updateTQ_counts_not_swapped :
    link30x20.updateTQ.tq = 144 ∧
      tqFormula (link30x20.eqWindow.windowSize - link30x20.eqWindow.countHits 0)
        (link30x20.rqWindow.windowSize - link30x20.rqWindow.countHits 0) 64 = 255 := by
  decide

/-- C17: whatever the two windows hold, if the `countRQ` or the `countEQ` that
`updateTQ` computes is below 10, the resulting `tq` is 0. -/
theorem tq_zero_below_cutoff (link : linkData)
    (h : link.countRQ < 10 ∨ link.countEQ < 10) : link.updateTQ.tq = 0 := by
  rw [updateTQ_tq, if_pos h]

theorem tq_zero_below_cutoff_witness :
    (linkData.mk 7 (filledRing 5) (filledRing 20) 0).updateTQ.tq = 0 :=
  tq_zero_below_cutoff (linkData.mk 7 (filledRing 5) (filledRing 20) 0) (by decide)

/-- C18 (amended): for two windows of `W` slots each, the resulting `tq` is
255 only if `countRQ ≥ 10`, `countEQ ≥ 10` and `countRQ ≤ countEQ`. -/
theorem tq_max_only_if (link : linkData) (W : Int) (h : link.windowsOfSize W)
    (hmax : link.updateTQ.tq = 255) :
    10 ≤ link.countRQ ∧ 10 ≤ link.countEQ ∧ link.countRQ ≤ link.countEQ := by
  obtain ⟨c0, c1, c2, c3⟩ := counts_range link W h
  rw [updateTQ_tq] at hmax
  by_cases hcut : link.countRQ < 10 ∨ link.countEQ < 10
  · rw [if_pos hcut] at hmax
    exact absurd hmax (by decide)
  · rw [if_neg hcut] at hmax
    refine ⟨by omega, by omega, ?_⟩
    by_contra hlt
    rw [if_neg (by omega)] at hmax
    obtain ⟨r0, -, p0, p1, t0, t1⟩ := tq_bounds link.countRQ link.countEQ W
      (by omega) (by omega) (by omega) c1
    have hu := tqUnconverted_eq link W h (by omega) (by omega)
    have r254 : link.countEQ * 255 / link.countRQ ≤ 254 := by
      have : link.countEQ * 255 / link.countRQ < 255 :=
        Int.ediv_lt_of_lt_mul (by omega) (by omega)
      omega
    have t254 : link.tqUnconverted ≤ 254 := by
      rw [hu]
      apply Int.ediv_le_of_le_mul (by decide)
      calc (link.countEQ * 255 / link.countRQ) * (255 - 255 * (W - link.countRQ) ^ 3 / W ^ 3)
          ≤ 254 * 255 := mul_le_mul r254 (by omega) (by omega) (by decide)
        _ = 254 * 255 := rfl
    rw [← hu] at t0
    have hb := byteOfInt_val link.tqUnconverted t0 (by omega)
    by_cases h10 : ((byteOfInt link.tqUnconverted).val : Int) < 10
    · rw [if_pos h10] at hmax
      exact absurd hmax (by decide)
    · rw [if_neg h10] at hmax
      rw [hmax] at hb
      have : (((255 : Byte).val : Nat) : Int) = 255 := by decide
      omega

theorem tq_max_only_if_witness :
    10 ≤ linkFull.countRQ ∧ 10 ≤ linkFull.countEQ ∧ linkFull.countRQ ≤ linkFull.countEQ :=
  tq_max_only_if linkFull 64 (by decide) (by decide)

/-- C18 as stated fails: with both windows fully marked, `countRQ = countEQ = 64`
and the ordinary case computes `255 * 255 / 255 = 255`, although `countRQ <
countEQ` is false. -/
theorem tq_max_with_equal_counts :
    linkFull.updateTQ.tq = 255 ∧ linkFull.countRQ = 64 ∧ linkFull.countEQ = 64 ∧
      ¬ linkFull.countRQ < linkFull.countEQ := by
  decide

/-- C19: for two 64-slot windows, in the ordinary case of `updateTQ` (the one
that multiplies) every intermediate product fits in a signed 32-bit integer
and the value converted to a byte lies in `0..255`, so the stored `tq` is the
unconverted value (or 0 below the cut-off) and never exceeds 255. -/
theorem tq_no_overflow (link : linkData) (h : link.windowsOfSize 64)
    (hR : 10 ≤ link.countRQ) (hE : 10 ≤ link.countEQ)
    (hER : ¬ link.countRQ < link.countEQ) :
    (∀ x ∈ link.tqProducts, -2147483648 ≤ x ∧ x ≤ 2147483647) ∧
      0 ≤ link.tqUnconverted ∧ link.tqUnconverted ≤ 255 ∧
      ((link.updateTQ.tq.val : Nat) : Int)
        = (if link.tqUnconverted < 10 then 0 else link.tqUnconverted) ∧
      ((link.updateTQ.tq.val : Nat) : Int) ≤ batTQMaxValue := by
  obtain ⟨c0, c1, c2, c3⟩ := counts_range link 64 h
  obtain ⟨r0, r1, p0, p1, t0, t1⟩ := tq_bounds link.countRQ link.countEQ 64 hR hE
    (by omega) c1
  have hu := tqUnconverted_eq link 64 h hR hE
  rw [← hu] at t0 t1
  have hb := byteOfInt_val link.tqUnconverted t0 t1
  have htq : ((link.updateTQ.tq.val : Nat) : Int)
      = (if link.tqUnconverted < 10 then 0 else link.tqUnconverted) := by
    rw [updateTQ_tq, if_neg (by omega), if_neg hER, hb]
    by_cases h10 : link.tqUnconverted < 10
    · rw [if_pos h10, if_pos h10]
      rfl
    · rw [if_neg h10, if_neg h10, hb]
  refine ⟨?_, t0, t1, htq, ?_⟩
  · obtain ⟨-, -, -, h4⟩ := h
    have hx0 : 0 ≤ 64 - link.countRQ := by omega
    have hx1 : 64 - link.countRQ ≤ 54 := by omega
    have hxx0 : 0 ≤ (64 - link.countRQ) * (64 - link.countRQ) := mul_nonneg hx0 hx0
    have hxx1 : (64 - link.countRQ) * (64 - link.countRQ) ≤ 54 * 54 :=
      mul_le_mul hx1 hx1 hx0 (by decide)
    have hxxx0 : 0 ≤ (64 - link.countRQ) * (64 - link.countRQ) * (64 - link.countRQ) :=
      mul_nonneg hxx0 hx0
    have hxxx1 : (64 - link.countRQ) * (64 - link.countRQ) * (64 - link.countRQ)
        ≤ 54 * 54 * 54 := mul_le_mul hxx1 hx1 hx0 (by decide)
    have e2 : (255 : Int) * (64 - link.countRQ) * (64 - link.countRQ)
        = 255 * ((64 - link.countRQ) * (64 - link.countRQ)) := by ring
    have e3 : (255 : Int) * (64 - link.countRQ) * (64 - link.countRQ) * (64 - link.countRQ)
        = 255 * ((64 - link.countRQ) * (64 - link.countRQ) * (64 - link.countRQ)) := by ring
    have hraw : (link.countEQ * 255).tdiv link.countRQ = link.countEQ * 255 / link.countRQ :=
      Int.tdiv_eq_ediv (by omega) (by omega)
    have hpen : (255 * (64 - link.countRQ) * (64 - link.countRQ) * (64 - link.countRQ)).tdiv
        (64 * 64 * 64) = 255 * (64 - link.countRQ) ^ 3 / 64 ^ 3 := by
      rw [Int.tdiv_eq_ediv (by rw [e3]; omega) (by decide)]
      congr 1
      ring
    have hprod0 : 0 ≤ (link.countEQ * 255 / link.countRQ)
        * (255 - 255 * (64 - link.countRQ) ^ 3 / 64 ^ 3) := mul_nonneg r0 (by omega)
    have hprod1 : (link.countEQ * 255 / link.countRQ)
        * (255 - 255 * (64 - link.countRQ) ^ 3 / 64 ^ 3) ≤ 255 * 255 :=
      mul_le_mul r1 (by omega) (by omega) (by decide)
    intro x hx
    simp only [linkData.tqProducts, batTQMaxValue, h4, List.mem_cons, List.mem_singleton,
      List.not_mem_nil, or_false] at hx
    rw [hraw, hpen] at hx
    rcases hx with rfl | rfl | rfl | rfl | rfl | rfl | rfl
    · omega
    · omega
    · rw [e2]; omega
    · rw [e3]; omega
    · omega
    · omega
    · omega
  · rw [htq]
    unfold batTQMaxValue
    split_ifs <;> omega

theorem tq_no_overflow_witness :
    (∀ x ∈ link30x20.tqProducts, -2147483648 ≤ x ∧ x ≤ 2147483647) ∧
      0 ≤ link30x20.tqUnconverted ∧ link30x20.tqUnconverted ≤ 255 ∧
      ((link30x20.updateTQ.tq.val : Nat) : Int)
        = (if link30x20.tqUnconverted < 10 then 0 else link30x20.tqUnconverted) ∧
      ((link30x20.updateTQ.tq.val : Nat) : Int) ≤ batTQMaxValue :=
  tq_no_overflow link30x20 (by decide) (by decide) (by decide) (by decide)

/-! ## Link-map lemmas -/

theorem replicate_set_self (n i : Nat) (a : Byte) :
    (List.replicate n a).set i a = List.replicate n a := by
  induction n generalizing i with
  | zero => rfl
  | succ n ih =>
    cases i with
    | zero => rfl
    | succ i =>
      rw [List.replicate_succ, List.set_cons_succ, ih]

/-- Clearing rounds leave a ring alone whose slots all hold the default. -/
theorem advanceBy_uniform (k n : Nat) (w : windowRing)
    (h : w.ring = List.replicate n w.defaultVal) :
    (w.advanceBy k).ring = List.replicate n w.defaultVal ∧
      (w.advanceBy k).defaultVal = w.defaultVal := by
  induction k generalizing w with
  | zero => exact ⟨h, rfl⟩
  | succ k ih =>
    have h1 : w.advance.ring = List.replicate n w.advance.defaultVal := by
      simp only [windowRing.advance, h, replicate_set_self]
    exact ih w.advance h1

theorem count_set_replicate (n i : Nat) (hi : i < n) :
    ((List.replicate n (0 : Byte)).set i 255).count 255 = 1 := by
  rw [List.count_set _ _ _ _ (by simpa using hi)]
  simp [List.count_replicate]

/-- A first write of 255 to a fresh 64-slot ring marks exactly one slot. -/
theorem write_fresh (loc : Int) (h0 : 0 ≤ loc) (h1 : loc < 2048) :
    ∃ w1, ring2048.write loc [255] = Run.done w1 ∧ w1.countHits 255 = 1 := by
  have hw : ring2048.wellFormed := by decide
  have hcount : ∀ i : Int, 0 ≤ i → i < 64 →
      (windowRing.mk ((List.replicate 64 (0 : Byte)).set i.toNat 255) 0 0 0 0 0).countHits 255
        = 1 := by
    intro i hi0 hi1
    rw [countHits_eq_count]
    dsimp only
    rw [count_set_replicate 64 i.toNat (by omega)]
    rfl
  have hcount' : ∀ (w : windowRing) (i : Int), 0 ≤ i → i < 64 →
      w.ring = (List.replicate 64 (0 : Byte)).set i.toNat 255 → w.countHits 255 = 1 := by
    intro w i hi0 hi1 hr
    have := hcount i hi0 hi1
    rw [countHits_eq_count] at this ⊢
    rw [hr]
    exact this
  by_cases hin : ring2048.inWindow loc = true
  · refine ⟨_, write_inWindow ring2048 hw loc [255] h0 (by
      show loc ≤ (2048 : Int); omega) (by simp) hin, ?_⟩
    have hr := pmod_range (ring2048.windowHead
      - pmod (ring2048.addressHead - loc) ring2048.addressSize) ring2048.windowSize (by decide)
    exact hcount' _ _ hr.1 hr.2 rfl
  · have hout : ring2048.inWindow loc = false := by simpa using hin
    refine ⟨_, write_advance ring2048 hw loc [255] h0 h1 (by simp) hout, ?_⟩
    have hw1 : windowRing.wellFormed { ring2048 with addressHead := loc } := by
      obtain ⟨a1, a2, a3, a4, a5, -, -⟩ := hw
      exact ⟨a1, a2, a3, a4, a5, h0, h1⟩
    have hm := pmod_range (loc - ring2048.addressHead) ring2048.addressSize (by decide)
    have hK := toNat_min_lin (pmod (loc - ring2048.addressHead) ring2048.addressSize)
      ring2048.windowSize hm.1 (by decide)
    have hWc : ring2048.windowSize = 64 := rfl
    obtain ⟨hwk, -, hWk, -, -, -⟩ := advanceBy_spec
      (if pmod (loc - ring2048.addressHead) ring2048.addressSize < ring2048.windowSize
        then pmod (loc - ring2048.addressHead) ring2048.addressSize
        else ring2048.windowSize).toNat
      { ring2048 with addressHead := loc } hw1 (by dsimp only; omega)
    obtain ⟨hu, -⟩ := advanceBy_uniform
      (if pmod (loc - ring2048.addressHead) ring2048.addressSize < ring2048.windowSize
        then pmod (loc - ring2048.addressHead) ring2048.addressSize
        else ring2048.windowSize).toNat 64
      { ring2048 with addressHead := loc } rfl
    obtain ⟨-, -, -, hk0, hk1, -, -⟩ := hwk
    rw [hWk] at hk1
    exact hcount' _ _ hk0 hk1 (by
      simp only [windowRing.store]
      rw [hu]
      rfl)

theorem newlinkData_eq :
    newlinkData = Run.done { tq := 0, rqWindow := ring2048, eqWindow := ring2048, seen := 0 } := by
  decide

/-! ## Link-map claims -/

/-- C20: for every link address `L`, default sequence number `s` and time `t`,
`markReceive(L, s, t)` on an empty nodeLinksMap leaves a map with exactly one
link, `L`, whose RQ window holds 255 in exactly one slot and whose EQ window
holds it in none. -/
theorem markReceive_on_empty (L : ipAddr) (s : sqn) (t : Time) (hs : s.isDefault) :
    ∃ link, nodeLinksMap.markReceive newNodeLinkMap L s t = Run.done [(L, link)] ∧
      link.rqWindow.countHits 255 = 1 ∧ link.eqWindow.countHits 255 = 0 := by
  obtain ⟨-, -, hn0, hn1⟩ := hs
  obtain ⟨w1, hwr, hc⟩ := write_fresh s.num hn0 hn1
  have h255 : byteOfInt batTQMaxValue = 255 := by decide
  refine ⟨(if t > 0 then linkData.mk 0 w1 ring2048 t else linkData.mk 0 w1 ring2048 0).updateTQ,
    ?_, ?_, ?_⟩
  · simp only [nodeLinksMap.markReceive, newNodeLinkMap, List.any_nil, Bool.false_eq_true,
      if_false, nodeLinksMap.addLink, newlinkData_eq, Run.bind, List.nil_append,
      nodeLinksMap.markReceiveEach, if_true, linkData.markReceive, h255, hwr]
  · rw [(updateTQ_frame _).1]
    split_ifs <;> exact hc
  · have hz : ring2048.countHits 255 = 0 := by decide
    rw [(updateTQ_frame _).2.1]
    split_ifs <;> exact hz

theorem markReceive_on_empty_witness :
    ∃ link, nodeLinksMap.markReceive newNodeLinkMap [49] (sqn.mk 100 2048 64) 5
        = Run.done [([49], link)] ∧
      link.rqWindow.countHits 255 = 1 ∧ link.eqWindow.countHits 255 = 0 :=
  markReceive_on_empty [49] (sqn.mk 100 2048 64) 5 (by decide)

/-! ## Map lemmas -/

theorem mapGet_mapSet_self {κ α : Type} [DecidableEq κ] (m : List (κ × α)) (k : κ) (a : α) :
    mapGet (mapSet m k a) k = some a := by
  induction m with
  | nil => simp [mapSet, mapGet]
  | cons e rest ih =>
    obtain ⟨k1, a1⟩ := e
    by_cases h : k1 = k
    · simp [mapSet, mapGet, h]
    · simp [mapSet, mapGet, h, ih]

theorem mapGet_mapSet_ne {κ α : Type} [DecidableEq κ] (m : List (κ × α)) (k k2 : κ) (a : α)
    (hne : k2 ≠ k) : mapGet (mapSet m k a) k2 = mapGet m k2 := by
  induction m with
  | nil =>
    have : ¬ k = k2 := fun e => hne e.symm
    simp [mapSet, mapGet, this]
  | cons e rest ih =>
    obtain ⟨k1, a1⟩ := e
    by_cases h : k1 = k
    · subst h
      have : ¬ k1 = k2 := fun e => hne e.symm
      simp [mapSet, mapGet, this]
    · by_cases h2 : k1 = k2
      · subst h2
        simp [mapSet, mapGet, h]
      · simp [mapSet, mapGet, h, h2, ih]

/-! ## Route-tracker lemmas -/

/-- The tracker that `update` returns, step by step. -/
theorem update_eq (r : routeTracker) (ip : ipAddr) (s : sqn) (q : Byte) (t : Time) :
    r.update ip s q t = Run.done
      { nextHops :=
          (match mapGet r.nextHops ip with
            | none => mapSet (mapSet r.nextHops ip ⟨q, s, t⟩) ip ⟨q, s, t⟩
            | some h =>
              if (s.greaterThan h.sqn || s.equalTo h.sqn) = true
                then mapSet r.nextHops ip ⟨q, s, t⟩ else r.nextHops)
        latestSQN := if s.greaterThan r.latestSQN = true then s else r.latestSQN } := by
  unfold routeTracker.update
  have he : s.equalTo s = true := by simp [sqn.equalTo]
  cases hg : mapGet r.nextHops ip with
  | none =>
    by_cases hl : s.greaterThan r.latestSQN = true
    · simp [hl, mapGet_mapSet_self, he]
    · simp [hl, mapGet_mapSet_self, he]
  | some h =>
    by_cases hl : s.greaterThan r.latestSQN = true
    · by_cases hc : (s.greaterThan h.sqn || s.equalTo h.sqn) = true
      · simp [hl, hg, hc]
      · simp [hl, hg, hc]
    · by_cases hc : (s.greaterThan h.sqn || s.equalTo h.sqn) = true
      · simp [hl, hg, hc]
      · simp [hl, hg, hc]

/-! ## Route-tracker claims -/

/-- Over the integers: `update(link, s, q, t)` returns, and afterwards the hop of `link` is
`{q, s, t}` if none existed, `{q, s, t}` if one existed and `s` is greaterThan
or equalTo its sequence number, the old hop otherwise; the hops of all other
links are unchanged. -/
theorem update_hops (r : routeTracker) (link : ipAddr) (s : sqn) (q : Byte) (t : Time) :
    ∃ r1, r.update link s q t = Run.done r1 ∧
      (mapGet r.nextHops link = none → mapGet r1.nextHops link = some ⟨q, s, t⟩) ∧
      (∀ h, mapGet r.nextHops link = some h →
        mapGet r1.nextHops link =
          some (if (s.greaterThan h.sqn || s.equalTo h.sqn) = true then ⟨q, s, t⟩ else h)) ∧
      (∀ other, other ≠ link → mapGet r1.nextHops other = mapGet r.nextHops other) := by
  refine ⟨_, update_eq r link s q t, fun hnone => ?_, fun h hsome => ?_, fun other hne => ?_⟩
  · simp only [hnone]
    exact mapGet_mapSet_self _ _ _
  · simp only [hsome]
    by_cases hc : (s.greaterThan h.sqn || s.equalTo h.sqn) = true
    · rw [if_pos hc, if_pos hc]
      exact mapGet_mapSet_self _ _ _
    · rw [if_neg hc, if_neg hc]
      exact hsome
  · cases hg : mapGet r.nextHops link with
    | none =>
      simp only []
      rw [mapGet_mapSet_ne _ _ _ _ hne, mapGet_mapSet_ne _ _ _ _ hne]
    | some h =>
      simp only []
      by_cases hc : (s.greaterThan h.sqn || s.equalTo h.sqn) = true
      · rw [if_pos hc, mapGet_mapSet_ne _ _ _ _ hne]
      · rw [if_neg hc]

theorem update_hops_witness :
    mapGet newRouteTracker.nextHops [49] = none ∧
      ∃ r1, newRouteTracker.update [49] sqn5 200 7 = Run.done r1 ∧
        mapGet r1.nextHops [49] = some ⟨200, sqn5, 7⟩ := by
  obtain ⟨r1, h1, h2, -, -⟩ := update_hops newRouteTracker [49] sqn5 200 7
  exact ⟨rfl, r1, h1, h2 rfl⟩

/-- C23: for every tracker and every `update(link, s, q, t)` with a valid `s`,
the new `latestSQN` is `s` if `s.greaterThan(latestSQN)` and the old value
otherwise; whenever it changes, the new value is greaterThan the old one. -/
theorem update_latestSQN (r : routeTracker) (link : ipAddr) (s : sqn) (q : Byte) (t : Time)
    (_hs : s.valid) :
    ∃ r1, r.update link s q t = Run.done r1 ∧
      r1.latestSQN = (if s.greaterThan r.latestSQN = true then s else r.latestSQN) ∧
      (r1.latestSQN ≠ r.latestSQN → r1.latestSQN.greaterThan r.latestSQN = true) := by
  refine ⟨_, update_eq r link s q t, rfl, fun hne => ?_⟩
  by_cases hg : s.greaterThan r.latestSQN = true
  · simp only [hg, if_true]
  · simp only [hg, if_false] at hne
    exact absurd rfl hne

theorem update_latestSQN_witness :
    ∃ r1, (routeTracker.mk [] sqn5).update [49] ⟨6, 2048, 64⟩ 200 7 = Run.done r1 ∧
      r1.latestSQN = (if (sqn.mk 6 2048 64).greaterThan sqn5 = true
        then ⟨6, 2048, 64⟩ else sqn5) ∧
      (r1.latestSQN ≠ sqn5 → r1.latestSQN.greaterThan sqn5 = true) :=
  update_latestSQN (routeTracker.mk [] sqn5) [49] ⟨6, 2048, 64⟩ 200 7 (by decide)

/-- C24 (code): a fresh tracker updated with sequence number 2000 and then
with 2001 keeps the zero value `sqn{}` as `latestSQN`, which is not equalTo
2001: both numbers lie in the window behind 0, so neither is greaterThan the
zero value. -/
theorem fresh_tracker_ignores_sqn_2000 :
    (newRouteTracker.update [49] ⟨2000, 2048, 64⟩ 200 7).bind
        (fun r => r.update [49] ⟨2001, 2048, 64⟩ 200 8)
      = Run.done { nextHops := [([49], ⟨200, ⟨2001, 2048, 64⟩, 8⟩)], latestSQN := ⟨0, 0, 0⟩ } ∧
    (sqn.mk 0 0 0).equalTo ⟨2001, 2048, 64⟩ = false := by
  decide

/-! ## Rebroadcast claims -/

theorem byte_pred_val (x : Byte) (h : 1 ≤ x.val) : (x - 1).val + 1 = x.val := by
  rw [Fin.sub_def]
  simp only [Fin.val_one]
  have := x.isLt
  omega

/-- C29: for every OGM with `ttl ≥ 1`, `rebroadcast` enqueues exactly one OGM:
its ttl is the old ttl minus 1, its `PrevSender` the old sender, its
`PrevAddr` the old `TxAddr`, its sender the node's own id, origin and sequence
number unchanged; the rest of the node state is untouched. -/
theorem rebroadcast_enqueues (b : Batman) (ogm : OGM) (h : 1 ≤ ogm.TTL.val) :
    ∃ out, (b.rebroadcast ogm).outboundOGM = b.outboundOGM ++ [out] ∧
      out.TTL.val + 1 = ogm.TTL.val ∧ out.PrevSender = ogm.Sender ∧
      out.PrevAddr = ogm.TxAddr ∧ out.Sender = b.id ∧
      out.Origin = ogm.Origin ∧ out.SQN = ogm.SQN ∧
      (b.rebroadcast ogm).nodes = b.nodes ∧ (b.rebroadcast ogm).neighbors = b.neighbors := by
  unfold Batman.rebroadcast
  rw [if_neg (by omega)]
  exact ⟨_, rfl, byte_pred_val _ h, rfl, rfl, rfl, rfl, rfl, rfl, rfl⟩

theorem rebroadcast_enqueues_witness :
    ∃ out, (nodeWithNeighbor.rebroadcast distantOGM).outboundOGM
        = nodeWithNeighbor.outboundOGM ++ [out] ∧
      out.TTL.val + 1 = distantOGM.TTL.val ∧ out.PrevSender = distantOGM.Sender ∧
      out.PrevAddr = distantOGM.TxAddr ∧ out.Sender = nodeWithNeighbor.id ∧
      out.Origin = distantOGM.Origin ∧ out.SQN = distantOGM.SQN ∧
      (nodeWithNeighbor.rebroadcast distantOGM).nodes = nodeWithNeighbor.nodes ∧
      (nodeWithNeighbor.rebroadcast distantOGM).neighbors = nodeWithNeighbor.neighbors :=
  rebroadcast_enqueues nodeWithNeighbor distantOGM (by decide)

/-- C30 (amended): `rebroadcast` emits nothing for an OGM whose ttl is below 1
before the decrement; every other OGM is enqueued with its ttl decremented by
exactly 1. -/
theorem rebroadcast_ttl (b : Batman) (ogm : OGM) :
    (ogm.TTL.val < 1 → b.rebroadcast ogm = b) ∧
    (1 ≤ ogm.TTL.val → ∃ out, (b.rebroadcast ogm).outboundOGM = b.outboundOGM ++ [out] ∧
      out.TTL.val + 1 = ogm.TTL.val) := by
  constructor
  · intro h
    unfold Batman.rebroadcast
    rw [if_pos h]
  · intro h
    unfold Batman.rebroadcast
    rw [if_neg (by omega)]
    exact ⟨_, rfl, byte_pred_val _ h⟩

theorem rebroadcast_ttl_witness :
    ∃ out, (nodeWithNeighbor.rebroadcast distantOGM).outboundOGM
        = nodeWithNeighbor.outboundOGM ++ [out] ∧ out.TTL.val + 1 = distantOGM.TTL.val :=
  (rebroadcast_ttl nodeWithNeighbor distantOGM).2 (by decide)

/-- C30 as stated fails: an OGM with ttl 1, whose decremented ttl is 0, is
enqueued, with ttl 0. -/
theorem rebroadcast_emits_ttl_zero :
    ({ distantOGM with TTL := 1 } : OGM).TTL.val - 1 < 1 ∧
      (nodeWithNeighbor.rebroadcast { distantOGM with TTL := 1 }).outboundOGM
        = [{ distantOGM with
              PrevSender := distantOGM.Sender, PrevAddr := distantOGM.TxAddr,
              Sender := nodeWithNeighbor.id, TTL := 0 }] := by
  decide

/-! ## Forwarding lemmas -/

/-- The first OGM heard from a link creates its link data with one RQ hit. -/
theorem markReceive_new_link (L : ipAddr) (s : sqn) (t : Time) (hs : s.isDefault) :
    ∃ link, nodeLinksMap.markReceive newNodeLinkMap L s t = Run.done [(L, link)] ∧
      link.rqWindow.countHits 255 = 1 := by
  obtain ⟨-, -, hn0, hn1⟩ := hs
  obtain ⟨w1, hwr, hc⟩ := write_fresh s.num hn0 hn1
  have h255 : byteOfInt batTQMaxValue = 255 := by decide
  refine ⟨(if t > 0 then linkData.mk 0 w1 ring2048 t else linkData.mk 0 w1 ring2048 0).updateTQ,
    ?_, ?_⟩
  · simp only [nodeLinksMap.markReceive, newNodeLinkMap, List.any_nil, Bool.false_eq_true,
      if_false, nodeLinksMap.addLink, newlinkData_eq, Run.bind, List.nil_append,
      nodeLinksMap.markReceiveEach, if_true, linkData.markReceive, h255, hwr]
  · rw [(updateTQ_frame _).1]
    split_ifs <;> exact hc

/-- Marking a position of the window that does not hold 255 adds one hit. -/
theorem write_hit_count (w : windowRing) (hw : w.wellFormed) (loc : Int) (v : Byte)
    (h0 : 0 ≤ loc) (h1 : loc < w.addressSize) (hr : w.read loc = Run.done (v, true))
    (hv : v ≠ 255) :
    ∃ w1, w.write loc [255] = Run.done w1 ∧ w1.countHits 255 = w.countHits 255 + 1 := by
  obtain ⟨hin, hslot⟩ := read_done_true w hw loc v hr
  refine ⟨_, write_inWindow w hw loc [255] h0 (by omega) (by simp) hin, ?_⟩
  have hd := (inWindow_iff w loc).1 hin
  obtain ⟨hlen, hW1, hWA, hh0, hh1, ha0, ha1⟩ := hw
  have hr := pmod_range (w.windowHead - pmod (w.addressHead - loc) w.addressSize)
    w.windowSize (by omega)
  have hi : (pmod (w.windowHead - pmod (w.addressHead - loc) w.addressSize)
      w.windowSize).toNat < w.ring.length := by omega
  rw [countHits_eq_count, countHits_eq_count]
  simp only [windowRing.store]
  rw [List.count_set _ _ _ _ hi]
  unfold windowRing.slot at hslot
  rw [List.getD_eq_getElem _ _ hi] at hslot
  rw [hslot]
  simp [hv]

theorem linkData_markEcho_eq (link : linkData) (seq : sqn) (value : Byte) (when : Time)
    (w1 : windowRing) (hw : link.eqWindow.write seq.num [value] = Run.done w1) :
    ∃ link1, link.markEcho seq value when = Run.done link1 ∧ link1.eqWindow = w1 ∧
      link1.rqWindow = link.rqWindow := by
  unfold linkData.markEcho
  rw [hw]
  simp only [Run.bind]
  refine ⟨_, rfl, ?_, ?_⟩ <;> split_ifs <;> rfl

/-- What `markEcho` does to the links of a neighbor: it returns, no RQ window
changes, and the EQ window of the link `ip` gains one hit when the position is
in its window and not marked yet. -/
theorem markEcho_links (ip : ipAddr) (seq : sqn) (when : Time) (h0 : 0 ≤ seq.num) :
    ∀ links : nodeLinksMap,
      (∀ e ∈ links, e.2.eqWindow.wellFormed ∧ seq.num < e.2.eqWindow.addressSize) →
      ∃ links1, nodeLinksMap.markEcho links ip seq when = Run.done links1 ∧
        (∀ k, (mapGet links1 k).map linkData.rqWindow
          = (mapGet links k).map linkData.rqWindow) ∧
        (∀ link v, mapGet links ip = some link →
          link.eqWindow.read seq.num = Run.done (v, true) → v ≠ 255 →
          ∃ link1, mapGet links1 ip = some link1 ∧
            link1.eqWindow.countHits 255 = link.eqWindow.countHits 255 + 1) := by
  intro links
  induction links with
  | nil =>
    intro _
    refine ⟨[], rfl, fun _ => rfl, fun link v h => ?_⟩
    simp [mapGet] at h
  | cons e rest ih =>
    intro hwf
    obtain ⟨ipKey, link0⟩ := e
    obtain ⟨rest1, hrest, hrq, hcnt⟩ := ih (fun e he => hwf e (List.mem_cons_of_mem _ he))
    obtain ⟨hw0, hlt0⟩ := hwf (ipKey, link0) (List.mem_cons_self _ _)
    by_cases hk : ipKey = ip
    · obtain ⟨w1, hwr, -⟩ := write_spec link0.eqWindow hw0 seq.num
        [byteOfInt batTQMaxValue] h0 hlt0 (by simp)
      obtain ⟨link1, hm, he1, hr1⟩ := linkData_markEcho_eq link0 seq _ when w1 hwr
      refine ⟨(ipKey, link1) :: rest1, ?_, fun k => ?_, fun link v hl hr hv => ?_⟩
      · simp only [nodeLinksMap.markEcho, hk, if_true, hm, hrest, Run.bind]
      · by_cases hkk : ipKey = k
        · simp [mapGet, hkk, hr1]
        · simp only [mapGet, hkk, if_false]
          exact hrq k
      · simp only [mapGet, hk, if_true, Option.some.injEq] at hl
        subst hl
        obtain ⟨w2, hwr2, hc2⟩ := write_hit_count link0.eqWindow hw0 seq.num v h0 hlt0 hr hv
        have h255 : byteOfInt batTQMaxValue = 255 := by decide
        rw [h255, hwr2] at hwr
        have hww : w2 = w1 := by
          simpa using hwr
        refine ⟨link1, by simp [mapGet, hk], ?_⟩
        rw [he1, ← hww]
        exact hc2
    · obtain ⟨w1, hwr, -⟩ := write_spec link0.eqWindow hw0 seq.num [0] h0 hlt0 (by simp)
      obtain ⟨link1, hm, he1, hr1⟩ := linkData_markEcho_eq link0 seq 0 link0.seen w1 hwr
      refine ⟨(ipKey, link1) :: rest1, ?_, fun k => ?_, fun link v hl hr hv => ?_⟩
      · simp only [nodeLinksMap.markEcho, hk, if_false, hm, hrest, Run.bind]
      · by_cases hkk : ipKey = k
        · simp [mapGet, hkk, hr1]
        · simp only [mapGet, hkk, if_false]
          exact hrq k
      · simp only [mapGet, hk, if_false] at hl ⊢
        exact hcnt link v hl hr hv

/-- The echo case of `processAndForward`. -/
theorem processAndForward_echo (b : Batman) (ogm : OGM) (now1 now2 : Time)
    (links : nodeLinksMap) (httl : 1 ≤ ogm.TTL.val) (ho : ogm.Origin = b.id)
    (hp : ogm.PrevSender = b.id) (hn : mapGet b.neighbors ogm.Sender = some links) :
    b.processAndForward ogm now1 now2 =
      (nodeLinksMap.markEcho links (if ogm.RxAddr = ogm.PrevAddr then ogm.TxAddr else [])
        ogm.SQN now1).bind fun links1 =>
          Run.done { b with neighbors := mapSet b.neighbors ogm.Sender links1 } := by
  have h0 : ¬ ogm.TTL.val ≤ 0 := by omega
  unfold Batman.processAndForward
  simp only [h0, if_false, ho, hp, hn, Option.isSome_some, and_self, if_true, decide_eq_true_eq]

/-! ## Forwarding claims -/

/-- C25: when `N` is neither a known neighbor nor a known origin, an OGM with
origin = sender = `N`, `N` not the node itself, ttl at least 1 and a default
sequence number is processed to the end: afterwards `neighbors[N]` holds
exactly one link, the OGM's `TxAddr`, whose RQ window has exactly one slot
with 255; `nodes[N]` holds exactly one hop, at `TxAddr`, with the OGM's
quality and sequence number; and exactly one OGM is enqueued, with sender the
node's id, `PrevSender = N`, `PrevAddr = TxAddr` and the ttl reduced by 1. -/
theorem first_neighbor_ogm (b : Batman) (ogm : OGM) (now1 now2 : Time)
    (hN : mapGet b.neighbors ogm.Origin = none) (hK : mapGet b.nodes ogm.Origin = none)
    (hso : ogm.Sender = ogm.Origin) (hne : ogm.Origin ≠ b.id) (httl : 1 ≤ ogm.TTL.val)
    (hs : ogm.SQN.isDefault) :
    ∃ b1 link tracker out, b.processAndForward ogm now1 now2 = Run.done b1 ∧
      mapGet b1.neighbors ogm.Origin = some [(ogm.TxAddr, link)] ∧
      link.rqWindow.countHits 255 = 1 ∧
      mapGet b1.nodes ogm.Origin = some tracker ∧
      tracker.nextHops = [(ogm.TxAddr, ⟨ogm.Quality, ogm.SQN, now2⟩)] ∧
      b1.outboundOGM = b.outboundOGM ++ [out] ∧
      out.Sender = b.id ∧ out.PrevSender = ogm.Origin ∧ out.PrevAddr = ogm.TxAddr ∧
      out.TTL.val + 1 = ogm.TTL.val := by
  obtain ⟨link, hm, hc⟩ := markReceive_new_link ogm.TxAddr ogm.SQN now1 hs
  have hu := update_eq newRouteTracker ogm.TxAddr ogm.SQN ogm.Quality now2
  have hg1 : mapGet (mapSet b.neighbors ogm.Origin newNodeLinkMap) ogm.Origin
      = some newNodeLinkMap := mapGet_mapSet_self _ _ _
  have hg2 : mapGet (mapSet b.nodes ogm.Origin newRouteTracker) ogm.Origin
      = some newRouteTracker := mapGet_mapSet_self _ _ _
  have h0 : ¬ ogm.TTL.val ≤ 0 := by omega
  have h1 : ¬ ogm.TTL.val < 1 := by omega
  unfold Batman.processAndForward
  simp only [hN, hK, Option.isSome_none, Bool.false_eq_true, if_false, h0, hne, false_and,
    hso, true_and, ne_eq, not_false_eq_true, if_true, hg1, hg2, hm, hu, Run.bind]
  unfold Batman.rebroadcast
  simp only [h1, if_false]
  refine ⟨_, link, _, _, rfl, mapGet_mapSet_self _ _ _, hc, mapGet_mapSet_self _ _ _, ?_, rfl,
    rfl, hso, rfl, byte_pred_val _ httl⟩
  simp [newRouteTracker, mapGet, mapSet]

theorem first_neighbor_ogm_witness :
    ∃ b1 link tracker out, nodeWithNeighbor.processAndForward neighborOGM 7 8 = Run.done b1 ∧
      mapGet b1.neighbors neighborOGM.Origin = some [(neighborOGM.TxAddr, link)] ∧
      link.rqWindow.countHits 255 = 1 ∧
      mapGet b1.nodes neighborOGM.Origin = some tracker ∧
      tracker.nextHops = [(neighborOGM.TxAddr, ⟨neighborOGM.Quality, neighborOGM.SQN, 8⟩)] ∧
      b1.outboundOGM = nodeWithNeighbor.outboundOGM ++ [out] ∧
      out.Sender = nodeWithNeighbor.id ∧ out.PrevSender = neighborOGM.Origin ∧
      out.PrevAddr = neighborOGM.TxAddr ∧ out.TTL.val + 1 = neighborOGM.TTL.val :=
  first_neighbor_ogm nodeWithNeighbor neighborOGM 7 8 rfl rfl rfl (by decide) (by decide)
    (by decide)

/-- C26: for every node state and every OGM with ttl at least 1,
origin = prev_sender = self, sender a known neighbor whose EQ windows are
default rings, `TxAddr` one of that neighbor's links, `RxAddr = PrevAddr` and a
default sequence number whose position is in that link's EQ window and does
not read 255: `processAndForward` returns, the count of 255 in the EQ window of
the link `TxAddr` is one higher, every RQ window is the same as before, and
nothing is enqueued. -/
theorem echo_marks_link (b : Batman) (ogm : OGM) (now1 now2 : Time) (links : nodeLinksMap)
    (link : linkData) (v : Byte) (httl : 1 ≤ ogm.TTL.val) (ho : ogm.Origin = b.id)
    (hp : ogm.PrevSender = b.id) (hn : mapGet b.neighbors ogm.Sender = some links)
    (hl : mapGet links ogm.TxAddr = some link) (hrx : ogm.RxAddr = ogm.PrevAddr)
    (hwf : links.eqWindowsDefault) (hs : ogm.SQN.isDefault)
    (hr : link.eqWindow.read ogm.SQN.num = Run.done (v, true)) (hv : v ≠ 255) :
    ∃ b1 links1 link1, b.processAndForward ogm now1 now2 = Run.done b1 ∧
      mapGet b1.neighbors ogm.Sender = some links1 ∧
      mapGet links1 ogm.TxAddr = some link1 ∧
      link1.eqWindow.countHits 255 = link.eqWindow.countHits 255 + 1 ∧
      (∀ n ip, b1.rqWindowOf n ip = b.rqWindowOf n ip) ∧
      b1.outboundOGM = b.outboundOGM := by
  obtain ⟨-, -, hn0, hn1⟩ := hs
  obtain ⟨links1, hm, hrq, hcnt⟩ := markEcho_links ogm.TxAddr ogm.SQN now1 hn0 links
    (fun e he => ⟨(hwf e he).1, by rw [(hwf e he).2]; exact hn1⟩)
  obtain ⟨link1, hl1, hc1⟩ := hcnt link v hl hr hv
  refine ⟨{ b with neighbors := mapSet b.neighbors ogm.Sender links1 }, links1, link1, ?_,
    mapGet_mapSet_self _ _ _, hl1, hc1, fun n ip => ?_, rfl⟩
  · rw [processAndForward_echo b ogm now1 now2 links httl ho hp hn, if_pos hrx, hm]
    rfl
  · unfold Batman.rqWindowOf
    by_cases hnn : n = ogm.Sender
    · subst hnn
      rw [mapGet_mapSet_self, hn]
      exact hrq ip
    · rw [mapGet_mapSet_ne _ _ _ _ hnn]

theorem echo_marks_link_witness :
    ∃ b1 links1 link1, nodeWithNeighbor.processAndForward echoOGM 7 8 = Run.done b1 ∧
      mapGet b1.neighbors echoOGM.Sender = some links1 ∧
      mapGet links1 echoOGM.TxAddr = some link1 ∧
      link1.eqWindow.countHits 255 = ringOldHit.countHits 255 + 1 ∧
      (∀ n ip, b1.rqWindowOf n ip = nodeWithNeighbor.rqWindowOf n ip) ∧
      b1.outboundOGM = nodeWithNeighbor.outboundOGM :=
  echo_marks_link nodeWithNeighbor echoOGM 7 8 [([49], { freshLink with eqWindow := ringOldHit })]
    { freshLink with eqWindow := ringOldHit } 0 (by decide) rfl rfl rfl rfl rfl (by decide)
    (by decide) (by decide) (by decide)

/-! ## Forwarding: evaluations -/

/-- C21 (code): a hit recorded on link `B` at position 5 is erased when link
`A` of the same neighbor receives sequence number 5: position 5 is in the RQ
window of `B` before and after the second call, reads 255 before and 0 after. -/
theorem markReceive_erases_sibling_hit :
    ∃ m1 m2 linkB1 linkB2,
      nodeLinksMap.markReceive newNodeLinkMap [66] sqn5 1 = Run.done m1 ∧
      nodeLinksMap.markReceive m1 [65] sqn5 2 = Run.done m2 ∧
      mapGet m1 [66] = some linkB1 ∧ mapGet m2 [66] = some linkB2 ∧
      linkB1.rqWindow.read 5 = Run.done (255, true) ∧
      linkB2.rqWindow.read 5 = Run.done (0, true) := by
  refine ⟨_, _, _, _, rfl, rfl, rfl, rfl, ?_, ?_⟩ <;> decide

/-- C27 (code): a distant OGM (ttl 5, sender a known neighbor other than the
origin and the node, sent from a known link of that neighbor) leaves the node
state as it was: no route tracker is created for the origin. -/
theorem distant_ogm_not_tracked :
    (1 ≤ distantOGM.TTL.val ∧ distantOGM.Sender ≠ distantOGM.Origin ∧
      distantOGM.Origin ≠ nodeWithNeighbor.id ∧ distantOGM.Sender ≠ nodeWithNeighbor.id ∧
      ((mapGet nodeWithNeighbor.neighbors distantOGM.Sender).bind
        fun links => mapGet links distantOGM.TxAddr).isSome = true) ∧
    nodeWithNeighbor.processAndForward distantOGM 7 8 = Run.done nodeWithNeighbor ∧
    mapGet nodeWithNeighbor.nodes distantOGM.Origin = none := by
  decide

/-- C28 (code): an OGM with origin = prev_sender = self from a known neighbor,
sent from an address that is not one of that neighbor's links, is handled as
an echo: the EQ window of the neighbor's link `[49]` is moved to sequence
number 6 and loses its hit. -/
theorem echo_from_unknown_link_marks :
    (echoFromUnknownLink.Origin = nodeWithNeighbor.id ∧
      echoFromUnknownLink.PrevSender = nodeWithNeighbor.id ∧
      mapGet nodeWithNeighbor.neighbors echoFromUnknownLink.Sender
        = some [([49], { freshLink with eqWindow := ringOldHit })] ∧
      mapGet [(([49] : ipAddr), { freshLink with eqWindow := ringOldHit })]
        echoFromUnknownLink.TxAddr = none) ∧
    nodeWithNeighbor.processAndForward echoFromUnknownLink 7 8
      = Run.done { nodeWithNeighbor with
          neighbors := [([78, 49], [([49], { freshLink with eqWindow := ringMovedTo6 })])] } ∧
    ringOldHit.countHits 255 = 1 ∧ ringMovedTo6.countHits 255 = 0 := by
  refine ⟨by decide, ?_, by decide, by decide⟩
  rw [processAndForward_echo nodeWithNeighbor echoFromUnknownLink 7 8
    [([49], { freshLink with eqWindow := ringOldHit })] (by decide) rfl rfl rfl]
  have hm : nodeLinksMap.markEcho [([49], { freshLink with eqWindow := ringOldHit })]
      (if echoFromUnknownLink.RxAddr = echoFromUnknownLink.PrevAddr
        then echoFromUnknownLink.TxAddr else []) echoFromUnknownLink.SQN 7
      = Run.done [([49], { freshLink with eqWindow := ringMovedTo6 })] := by
    set_option maxRecDepth 2000 in decide
  rw [hm]
  rfl

/-! ## Machine-integer lemmas -/

theorem wrapInt_of_fits (x : Int) (h0 : -(2 : Int) ^ 63 ≤ x) (h1 : x ≤ maxInt) :
    wrapInt x = x := by
  unfold wrapInt
  unfold maxInt at h1
  omega

theorem tmod_bounds (x y : Int) (hy : 0 < y) : -y < x.tmod y ∧ x.tmod y < y := by
  refine ⟨?_, Int.tmod_lt_of_pos x hy⟩
  obtain ⟨n, rfl⟩ : ∃ n : Nat, y = (n : Int) := ⟨y.toNat, by omega⟩
  have hn : 0 < n := by omega
  cases x with
  | ofNat m =>
    have h0 : 0 ≤ (Int.ofNat m).tmod (n : Int) := Int.tmod_nonneg (n : Int) (Int.ofNat_nonneg m)
    omega
  | negSucc m =>
    rw [tmod_negSucc_natCast]
    have h2 : (m + 1) % n < n := Nat.mod_lt _ hn
    omega

/-- Where twice the modulus fits in an `int`, `pmod` does not wrap and is the
remainder of flooring division. -/
theorem pmodWrap_eq_emod (x y : Int) (hy : 0 < y) (h2 : 2 * y ≤ maxInt) :
    pmodWrap x y = x % y := by
  obtain ⟨hlo, hhi⟩ := tmod_bounds x y hy
  unfold pmodWrap
  rw [wrapInt_of_fits _ (by unfold maxInt at h2; omega) (by omega)]
  exact pmod_eq_emod x y hy

/-! ## Sequence-number arithmetic claims -/

/-- C35 (amended): for a valid `a` with `2 * a.limit` no larger than the
largest `int` and every `b` with `0 ≤ b.num` an `int`: `a.add b` and
`a.subtract b` have the limit and window of `a`; `a.subtract b` has the number
`(a.num - b.num) mod a.limit`, and `a.add b` has the number
`(a.num + b.num) mod a.limit` when the sum `a.num + b.num` fits in an `int`. -/
theorem add_subtract_spec (a b : sqn) (ha0 : 0 ≤ a.num) (ha1 : a.num < a.limit)
    (hl : 2 * a.limit ≤ maxInt) (hb0 : 0 ≤ b.num) (hb1 : b.num ≤ maxInt) :
    (a.add b).limit = a.limit ∧ (a.add b).window = a.window ∧
    (a.subtract b).limit = a.limit ∧ (a.subtract b).window = a.window ∧
    (a.subtract b).num = (a.num - b.num) % a.limit ∧
    (0 ≤ (a.subtract b).num ∧ (a.subtract b).num < a.limit) ∧
    (a.num + b.num ≤ maxInt →
      (a.add b).num = (a.num + b.num) % a.limit ∧
      0 ≤ (a.add b).num ∧ (a.add b).num < a.limit) := by
  have hL : 0 < a.limit := by omega
  have hm : maxInt = 2 ^ 63 - 1 := rfl
  have hsub : (a.subtract b).num = (a.num - b.num) % a.limit := by
    simp only [sqn.subtract]
    rw [wrapInt_of_fits _ (by omega) (by omega)]
    exact pmodWrap_eq_emod _ _ hL hl
  refine ⟨rfl, rfl, rfl, rfl, hsub, ?_, fun hfit => ?_⟩
  · rw [hsub]
    exact ⟨Int.emod_nonneg _ hL.ne.symm, Int.emod_lt_of_pos _ hL⟩
  · have hadd : (a.add b).num = (a.num + b.num) % a.limit := by
      simp only [sqn.add]
      rw [wrapInt_of_fits _ (by omega) hfit]
      exact pmodWrap_eq_emod _ _ hL hl
    rw [hadd]
    exact ⟨rfl, Int.emod_nonneg _ hL.ne.symm, Int.emod_lt_of_pos _ hL⟩

theorem add_subtract_spec_witness :
    ((sqn.mk 9 10 3).add (sqn.mk 2 10 3)).limit = 10 ∧
    ((sqn.mk 9 10 3).add (sqn.mk 2 10 3)).window = 3 ∧
    ((sqn.mk 9 10 3).subtract (sqn.mk 2 10 3)).limit = 10 ∧
    ((sqn.mk 9 10 3).subtract (sqn.mk 2 10 3)).window = 3 ∧
    ((sqn.mk 9 10 3).subtract (sqn.mk 2 10 3)).num = (9 - 2) % 10 ∧
    (0 ≤ ((sqn.mk 9 10 3).subtract (sqn.mk 2 10 3)).num ∧
      ((sqn.mk 9 10 3).subtract (sqn.mk 2 10 3)).num < 10) ∧
    ((9 : Int) + 2 ≤ maxInt →
      ((sqn.mk 9 10 3).add (sqn.mk 2 10 3)).num = (9 + 2) % 10 ∧
      0 ≤ ((sqn.mk 9 10 3).add (sqn.mk 2 10 3)).num ∧
      ((sqn.mk 9 10 3).add (sqn.mk 2 10 3)).num < 10) :=
  add_subtract_spec (sqn.mk 9 10 3) (sqn.mk 2 10 3) (by decide) (by decide) (by decide)
    (by decide) (by decide)

/-- C35 as stated fails: with `a = {2, 3, 1}`, valid, and `b.num` the largest
`int`, the sum `a.num + b.num` wraps around and `a.add b` has the number 2,
while `(a.num + b.num) mod a.limit` is 0. -/
theorem add_wraps_around :
    (sqn.mk 2 3 1).valid ∧ 0 ≤ (sqn.mk maxInt 3 1).num ∧
      ((sqn.mk 2 3 1).add (sqn.mk maxInt 3 1)).num = 2 ∧
      ((sqn.mk 2 3 1).num + (sqn.mk maxInt 3 1).num) % (sqn.mk 2 3 1).limit = 0 := by
  decide

/-- Over the integers: for valid sequence numbers `a` and `b` with the same limit and window,
the window at least 1, `a.lessThan b` implies `b.greaterThan a` and implies
that `b.lessThan a` is false. -/
theorem lessThan_asymm (a b : sqn) (ha : a.valid) (hb : b.valid)
    (hl : a.limit = b.limit) (hw : a.window = b.window) (_hw1 : 1 ≤ a.window)
    (hlt : a.lessThan b = true) :
    b.greaterThan a = true ∧ b.lessThan a = false := by
  obtain ⟨ha0, ha1, haw⟩ := ha
  obtain ⟨hb0, hb1, _⟩ := hb
  have hL : 0 < a.limit := by omega
  have hgt : b.greaterThan a = true := by
    unfold sqn.lessThan at hlt
    simp only [Bool.and_eq_true, Bool.not_eq_true', sqn.equalTo, decide_eq_false_iff_not]
      at hlt
    obtain ⟨hng, hne⟩ := hlt
    rw [greaterThan_eq a b hL (by omega) (by omega)] at hng
    rw [greaterThan_eq b a (by omega) (by omega) (by omega), ← hl, ← hw]
    have e1 : (a.num - b.num) % a.limit
        = if a.num - b.num < 0 then a.num - b.num + a.limit else a.num - b.num := by
      split_ifs with h
      · exact emod_of_decomp _ _ (-1) _ (by ring) (by omega) (by omega)
      · exact emod_of_decomp _ _ 0 _ (by ring) (by omega) (by omega)
    have e2 : (b.num - a.num) % a.limit
        = if b.num - a.num < 0 then b.num - a.num + a.limit else b.num - a.num := by
      split_ifs with h
      · exact emod_of_decomp _ _ (-1) _ (by ring) (by omega) (by omega)
      · exact emod_of_decomp _ _ 0 _ (by ring) (by omega) (by omega)
    by_cases hc : (b.num - a.num) % a.limit < a.window
    · rw [if_pos hc] at hng
      simp only [Bool.and_eq_false_iff, decide_eq_false_iff_not] at hng
      rw [if_neg]
      rw [e1] at hng ⊢
      rw [e2] at hc
      split_ifs at hng hc ⊢ <;> omega
    · rw [if_neg hc] at hng
      exact absurd hng (by simp)
  exact ⟨hgt, by simp [sqn.lessThan, hgt]⟩

theorem lessThan_asymm_witness :
    (sqn.mk 2046 2048 64).greaterThan (sqn.mk 2040 2048 64) = true ∧
      (sqn.mk 2046 2048 64).lessThan (sqn.mk 2040 2048 64) = false :=
  lessThan_asymm (sqn.mk 2040 2048 64) (sqn.mk 2046 2048 64) (by decide) (by decide) rfl rfl
    (by decide) (by decide)

/-! ## Codec: zero bytes at the right end -/

/-- C34 (code): the field `61 00 00 00` has no leading zero byte, yet
`nodeIDFromBytes` returns the one-byte id `61`: the zero bytes behind the first
non-zero byte are dropped. -/
theorem nodeIDFromBytes_drops_trailing_zeros :
    nodeIDFromBytes ⟨97, 0, 0, 0⟩ = [97] ∧
      (Bytes4.mk 97 0 0 0).toList.dropWhile (fun c => c == 0) = [97, 0, 0, 0] := by
  decide

/-- C33 (code): the RawOGM of the tests with the origin field `61 00 00 00`
(sequence number 42) comes back from `Unpack` and `Pack` with the origin field
`00 00 00 61`, whatever the address parser does. -/
theorem unpack_pack_moves_origin (net : NetLib) :
    trailingZeroOGM.SQN.val < 2048 ∧
      (trailingZeroOGM.Unpack.bind fun x => (OGM.Pack net x).bind fun r => Run.done r.Origin)
        = Run.done ⟨0, 0, 0, 97⟩ ∧
      trailingZeroOGM.Origin = ⟨97, 0, 0, 0⟩ :=
  ⟨by decide, rfl, rfl⟩

/-! ## Rebroadcast: quality -/

/-- C32 (amended): for every OGM with ttl at least 1, `rebroadcast` enqueues
the OGM with its quality unchanged (the factor is 1 and nothing is divided). -/
theorem rebroadcast_quality (b : Batman) (ogm : OGM) (h : 1 ≤ ogm.TTL.val) :
    ∃ out, (b.rebroadcast ogm).outboundOGM = b.outboundOGM ++ [out] ∧
      out.Quality = ogm.Quality := by
  unfold Batman.rebroadcast
  rw [if_neg (by omega)]
  exact ⟨_, rfl, mul_one _⟩

theorem rebroadcast_quality_witness :
    ∃ out, (nodeWithNeighbor.rebroadcast distantOGM).outboundOGM
        = nodeWithNeighbor.outboundOGM ++ [out] ∧ out.Quality = distantOGM.Quality :=
  rebroadcast_quality nodeWithNeighbor distantOGM (by decide)

/-- C32 as stated fails: an OGM with ttl 5 and quality 200, below 255, is
enqueued with quality 200, not 0. -/
theorem rebroadcast_keeps_quality_200 :
    1 ≤ distantOGM.TTL.val ∧ distantOGM.Quality.val < 255 ∧
      (nodeWithNeighbor.rebroadcast distantOGM).outboundOGM.map (fun o => o.Quality)
        = [200] := by
  decide

/-! ## Window ring: runs of writes -/

/-- Writes to positions of the address space keep the ring invariant, so a
run of them never panics. -/
theorem writeAll_wellFormed (writes : List (Int × List Byte)) :
    ∀ w : windowRing, w.wellFormed →
      (∀ e ∈ writes, 0 ≤ e.1 ∧ e.1 < w.addressSize ∧ e.2.length ≤ 1) →
      ∃ w1, w.writeAll writes = Run.done w1 ∧ w1.wellFormed ∧
        w1.addressSize = w.addressSize ∧ w1.windowSize = w.windowSize := by
  induction writes with
  | nil => exact fun w hw _ => ⟨w, rfl, hw, rfl, rfl⟩
  | cons e rest ih =>
    intro w hw hall
    obtain ⟨loc, val⟩ := e
    obtain ⟨h0, h1, hv⟩ := hall (loc, val) (List.mem_cons_self _ _)
    obtain ⟨w1, hwr, hw1, hA, hW, -⟩ := write_spec w hw loc val h0 h1 hv
    obtain ⟨w2, hrest, hw2, hA2, hW2⟩ := ih w1 hw1 (fun e he => by
      rw [hA]
      exact hall e (List.mem_cons_of_mem _ he))
    refine ⟨w2, ?_, hw2, by rw [hA2, hA], by rw [hW2, hW]⟩
    simp only [windowRing.writeAll, hwr, Run.bind]
    exact hrest

/-- Over the integers: for every ring built by `newWindowRing` with
`1 ≤ windowSize ≤ addressSize` and every run of writes to positions
`0 ≤ loc < addressSize`, each with at most one value, the constructor and all
writes return, and the ring then has `windowSize` slots, a window head in
`0 .. windowSize - 1` and an address head in `0 .. addressSize - 1`.  Every
prefix of a run is a run, so this holds after each write. -/
theorem writes_never_panic (addressSize windowSize : Int) (defaultVal : Byte)
    (writes : List (Int × List Byte)) (h1 : 1 ≤ windowSize) (h2 : windowSize ≤ addressSize)
    (hall : ∀ e ∈ writes, 0 ≤ e.1 ∧ e.1 < addressSize ∧ e.2.length ≤ 1) :
    ∃ w0 w, newWindowRing addressSize windowSize defaultVal = Run.done w0 ∧
      w0.writeAll writes = Run.done w ∧
      (w.ring.length : Int) = windowSize ∧
      0 ≤ w.windowHead ∧ w.windowHead < windowSize ∧
      0 ≤ w.addressHead ∧ w.addressHead < addressSize := by
  obtain ⟨w0, hnew, hw0, -, hA0, hW0, -⟩ :=
    newWindowRing_wellFormed addressSize windowSize defaultVal h1 h2
  obtain ⟨w, hrun, hw, hA, hW⟩ := writeAll_wellFormed writes w0 hw0 (fun e he => by
    rw [hA0]
    exact hall e he)
  obtain ⟨hlen, -, -, hh0, hh1, ha0, ha1⟩ := hw
  refine ⟨w0, w, hnew, hrun, ?_, hh0, ?_, ha0, ?_⟩
  · rw [hlen, hW, hW0]
  · rw [← hW0, ← hW]
    exact hh1
  · rw [← hA0, ← hA]
    exact ha1

theorem writes_never_panic_witness :
    ∃ w0 w, newWindowRing 32 4 0 = Run.done w0 ∧
      w0.writeAll [(10, [1]), (31, []), (0, [7])] = Run.done w ∧
      (w.ring.length : Int) = 4 ∧ 0 ≤ w.windowHead ∧ w.windowHead < 4 ∧
      0 ≤ w.addressHead ∧ w.addressHead < 32 :=
  writes_never_panic 32 4 0 [(10, [1]), (31, []), (0, [7])] (by decide) (by decide)
    (by decide)

/-! ## Link metric: the lower bound -/

/-- Least value of the ordinary case with 64-slot windows: it is taken at 10
echo samples and a full receive window. -/
theorem tq_lower (cR cE : Int) (hE : 10 ≤ cE) (hER : cE ≤ cR) (hR : cR ≤ 64) :
    39 ≤ (cE * 255 / cR) * (255 - 255 * (64 - cR) ^ 3 / 64 ^ 3) / 255 := by
  have hR0 : 0 < cR := by omega
  have hraw : 2550 / cR ≤ cE * 255 / cR := Int.ediv_le_ediv hR0 (by omega)
  have hP : 0 ≤ 255 - 255 * (64 - cR) ^ 3 / 64 ^ 3 := by
    have := (tq_bounds cR cE 64 (by omega) hE hER hR).2.2.2.1
    omega
  have hmul : 2550 / cR * (255 - 255 * (64 - cR) ^ 3 / 64 ^ 3)
      ≤ cE * 255 / cR * (255 - 255 * (64 - cR) ^ 3 / 64 ^ 3) :=
    Int.mul_le_mul_of_nonneg_right hraw hP
  have hdiv := Int.ediv_le_ediv (show (0 : Int) < 255 by decide) hmul
  refine le_trans ?_ hdiv
  have h10 : 10 ≤ cR := by omega
  interval_cases cR <;> decide

/-- Value of `updateTQ` when both sample cut-offs are met, for 64-slot windows. -/
theorem updateTQ_ge_39 (link : linkData) (h : link.windowsOfSize 64)
    (hR : 10 ≤ link.countRQ) (hE : 10 ≤ link.countEQ) :
    39 ≤ (link.updateTQ.tq.val : Int) ∧
      (link.countEQ ≤ link.countRQ →
        ¬ ((byteOfInt link.tqUnconverted).val : Int) < batCutoffTQ) := by
  obtain ⟨c0, c1, c2, c3⟩ := counts_range link 64 h
  rw [updateTQ_tq, if_neg (by omega)]
  by_cases hlt : link.countRQ < link.countEQ
  · rw [if_pos hlt]
    exact ⟨by decide, fun hge => by omega⟩
  · rw [if_neg hlt]
    obtain ⟨-, -, -, -, t0, t1⟩ := tq_bounds link.countRQ link.countEQ 64 hR hE (by omega) c1
    have hlow := tq_lower link.countRQ link.countEQ hE (by omega) c1
    have hu := tqUnconverted_eq link 64 h hR hE
    rw [← hu] at t0 t1 hlow
    have hb := byteOfInt_val link.tqUnconverted t0 t1
    have hnc : ¬ ((byteOfInt link.tqUnconverted).val : Int) < 10 := by omega
    rw [if_neg hnc]
    exact ⟨by omega, fun _ => hnc⟩

/-! ## Link metric: the cut-off claim -/

/-- C39: for a link whose two windows have 64 slots, `updateTQ` yields a `tq` of
at least 39 whenever `countRQ ≥ 10` and `countEQ ≥ 10`; in the ordinary case the
value is then not below `batCutoffTQ`, so the final clamp is not taken; and the
resulting `tq` is 0 exactly when a sample cut-off is missed. -/
theorem tq_cutoff_never_clamps (link : linkData) (h : link.windowsOfSize batLocalWindowSize) :
    (10 ≤ link.countRQ → 10 ≤ link.countEQ →
      39 ≤ (link.updateTQ.tq.val : Int) ∧
      (link.countEQ ≤ link.countRQ →
        ¬ ((byteOfInt link.tqUnconverted).val : Int) < batCutoffTQ)) ∧
    (link.updateTQ.tq = 0 ↔
      link.countRQ < batCutoffRQSamples ∨ link.countEQ < batCutoffEQSamples) := by
  refine ⟨fun hR hE => updateTQ_ge_39 link h hR hE, ?_, ?_⟩
  · intro h0
    by_contra hcut
    have hcut' : ¬ (link.countRQ < 10 ∨ link.countEQ < 10) := hcut
    have h39 := (updateTQ_ge_39 link h (by omega) (by omega)).1
    rw [h0] at h39
    exact absurd h39 (by decide)
  · intro hcut
    have hcut' : link.countRQ < 10 ∨ link.countEQ < 10 := hcut
    rw [updateTQ_tq, if_pos hcut']

theorem tq_cutoff_never_clamps_witness :
    (10 ≤ link30x20.countRQ → 10 ≤ link30x20.countEQ →
      39 ≤ (link30x20.updateTQ.tq.val : Int) ∧
      (link30x20.countEQ ≤ link30x20.countRQ →
        ¬ ((byteOfInt link30x20.tqUnconverted).val : Int) < batCutoffTQ)) ∧
    (link30x20.updateTQ.tq = 0 ↔
      link30x20.countRQ < batCutoffRQSamples ∨ link30x20.countEQ < batCutoffEQSamples) :=
  tq_cutoff_never_clamps link30x20 (by decide)

/-! ## Forwarding: what is enqueued -/

/-- What `processAndForward` sends: nothing, or the inbound OGM once, with its
time to live lowered by 1. -/
theorem processAndForward_outbound (b b1 : Batman) (ogm : OGM) (now1 now2 : Time)
    (h : b.processAndForward ogm now1 now2 = Run.done b1) :
    b1.outboundOGM = b.outboundOGM ∨
      ∃ out, b1.outboundOGM = b.outboundOGM ++ [out] ∧ out.TTL.val + 1 = ogm.TTL.val := by
  unfold Batman.processAndForward at h
  dsimp only at h
  split at h
  · left
    injection h with h
    rw [← h]
  split at h
  · left
    split at h
    · injection h with h
      rw [← h]
    · cases hm : nodeLinksMap.markEcho _ _ ogm.SQN now1 with
      | panicked msg =>
        rw [hm] at h
        exact absurd h (by simp [Run.bind])
      | done links1 =>
        rw [hm] at h
        simp only [Run.bind] at h
        injection h with h
        rw [← h]
  split at h
  · right
    split at h
    · rename_i links tracker _ _
      cases hm : nodeLinksMap.markReceive links ogm.TxAddr ogm.SQN now1 with
      | panicked msg =>
        rw [hm] at h
        exact absurd h (by simp [Run.bind])
      | done links1 =>
        cases hu : tracker.update ogm.TxAddr ogm.SQN ogm.Quality now2 with
        | panicked msg =>
          rw [hm, hu] at h
          exact absurd h (by simp [Run.bind])
        | done tracker1 =>
          rw [hm, hu] at h
          simp only [Run.bind] at h
          injection h with h
          rw [← h]
          have httl : 1 ≤ ogm.TTL.val := by omega
          unfold Batman.rebroadcast
          rw [if_neg (by omega)]
          exact ⟨_, rfl, byte_pred_val _ httl⟩
    · exact absurd h (by simp)
  split at h
  · left
    injection h with h
    rw [← h]
  · left
    injection h with h
    rw [← h]

/-! ## Forwarding: the time to live of enqueued OGMs -/

/-- C31 (amended): the node's own advertisement is enqueued with ttl 16; what
`processAndForward` enqueues for an inbound OGM is at most one OGM, with the
inbound ttl lowered by 1, so its ttl is at most 16 whenever the inbound ttl is
at most 17. -/
theorem enqueued_ttl (b : Batman) (ogm : OGM) (now1 now2 : Time) (_hl : 0 < b.sqn.limit)
    (httl : ogm.TTL.val ≤ 17) :
    (∃ out, b.advertiseOGM.outboundOGM = b.outboundOGM ++ [out] ∧ out.TTL.val = 16) ∧
    (∀ b1, b.processAndForward ogm now1 now2 = Run.done b1 →
      ∃ sent, b1.outboundOGM = b.outboundOGM ++ sent ∧ sent.length ≤ 1 ∧
        ∀ o ∈ sent, o.TTL.val + 1 = ogm.TTL.val ∧ o.TTL.val ≤ 16) := by
  refine ⟨⟨_, rfl, rfl⟩, fun b1 h => ?_⟩
  rcases processAndForward_outbound b b1 ogm now1 now2 h with h1 | ⟨out, h1, h2⟩
  · exact ⟨[], by simpa using h1, by simp, by simp⟩
  · refine ⟨[out], h1, by simp, fun o ho => ?_⟩
    rw [List.mem_singleton] at ho
    subst ho
    exact ⟨h2, by omega⟩

theorem enqueued_ttl_witness :
    (∃ out, nodeWithNeighbor.advertiseOGM.outboundOGM = nodeWithNeighbor.outboundOGM ++ [out] ∧
      out.TTL.val = 16) ∧
    (∀ b1, nodeWithNeighbor.processAndForward neighborOGM 7 8 = Run.done b1 →
      ∃ sent, b1.outboundOGM = nodeWithNeighbor.outboundOGM ++ sent ∧ sent.length ≤ 1 ∧
        ∀ o ∈ sent, o.TTL.val + 1 = neighborOGM.TTL.val ∧ o.TTL.val ≤ 16) :=
  enqueued_ttl nodeWithNeighbor neighborOGM 7 8 (by decide) (by decide)

/-- C31 as stated fails: the first OGM of a neighbor that arrives with ttl 200
is enqueued for rebroadcast with ttl 199. -/
theorem rebroadcast_ttl_199 :
    longLivedOGM.Sender = longLivedOGM.Origin ∧ longLivedOGM.Origin ≠ nodeWithNeighbor.id ∧
      ((nodeWithNeighbor.processAndForward longLivedOGM 7 8).bind fun b1 =>
        Run.done (b1.outboundOGM.map fun o => o.TTL.val)) = Run.done [199] ∧
      ¬ 199 ≤ 16 := by
  refine ⟨by decide, by decide, ?_, by decide⟩
  set_option maxRecDepth 4000 in decide

/-! ## Link windows hold marks only -/

theorem advanceBy_mem (k : Nat) :
    ∀ (w : windowRing) (x : Byte), x ∈ (windowRing.advanceBy k w).ring →
      x ∈ w.ring ∨ x = w.defaultVal := by
  induction k with
  | zero => exact fun w x hx => Or.inl hx
  | succ k ih =>
    intro w x hx
    rcases ih w.advance x hx with h | h
    · exact List.mem_or_eq_of_mem_set h
    · exact Or.inr h

theorem store_mem (w : windowRing) (i : Int) (val : List Byte) (x : Byte)
    (hx : x ∈ (w.store i val).ring) : x ∈ w.ring ∨ x ∈ val := by
  cases val with
  | nil => exact Or.inl hx
  | cons v vs =>
    rcases List.mem_or_eq_of_mem_set hx with h | h
    · exact Or.inl h
    · exact Or.inr (by rw [h]; exact List.mem_cons_self _ _)

/-- The slots after a write hold what they held before, the default value or
the value written. -/
theorem write_mem (w w1 : windowRing) (hw : w.wellFormed) (loc : Int) (val : List Byte)
    (h0 : 0 ≤ loc) (h1 : loc < w.addressSize) (hv : val.length ≤ 1)
    (hwr : w.write loc val = Run.done w1) (x : Byte) (hx : x ∈ w1.ring) :
    x ∈ w.ring ∨ x = w.defaultVal ∨ x ∈ val := by
  by_cases hin : w.inWindow loc = true
  · rw [write_inWindow w hw loc val h0 (by omega) hv hin] at hwr
    injection hwr with hwr
    rw [← hwr] at hx
    rcases store_mem _ _ _ _ hx with h | h
    · exact Or.inl h
    · exact Or.inr (Or.inr h)
  · have hout : w.inWindow loc = false := by simpa using hin
    rw [write_advance w hw loc val h0 h1 hv hout] at hwr
    injection hwr with hwr
    rw [← hwr] at hx
    rcases store_mem _ _ _ _ hx with h | h
    · rcases advanceBy_mem _ _ _ h with h | h
      · exact Or.inl h
      · exact Or.inr (Or.inl h)
    · exact Or.inr (Or.inr h)

/-- A mark of 0 or 255 at a default sequence number keeps a link window. -/
theorem write_marksOnly (w : windowRing) (hw : w.marksOnly) (loc : Int) (v : Byte)
    (h0 : 0 ≤ loc) (h1 : loc < 2048) (hv : v = 0 ∨ v = 255) :
    ∃ w1, w.write loc [v] = Run.done w1 ∧ w1.marksOnly := by
  obtain ⟨hwf, hA, hW, hD, hslots⟩ := hw
  have h1' : loc < w.addressSize := by rw [hA]; exact h1
  obtain ⟨w1, hwr, hwf1, hA1, hW1, hD1, -⟩ := write_spec w hwf loc [v] h0 h1' (by simp)
  refine ⟨w1, hwr, hwf1, by rw [hA1, hA], by rw [hW1, hW], by rw [hD1, hD], fun x hx => ?_⟩
  rcases write_mem w w1 hwf loc [v] h0 h1' (by simp) hwr x hx with h | h | h
  · exact hslots x h
  · exact Or.inl (by rw [h, hD])
  · rw [List.mem_singleton] at h
    rw [h]
    exact hv

theorem count_marks (l : List Byte) (h : ∀ x ∈ l, x = 0 ∨ x = 255) :
    l.count 0 + l.count 255 = l.length := by
  induction l with
  | nil => rfl
  | cons a t ih =>
    have ht := ih (fun x hx => h x (List.mem_cons_of_mem _ hx))
    rcases h a (List.mem_cons_self _ _) with ha | ha
    · subst ha
      rw [List.count_cons_self, List.count_cons_of_ne (by decide), List.length_cons]
      omega
    · subst ha
      rw [List.count_cons_self, List.count_cons_of_ne (by decide), List.length_cons]
      omega

/-- In a link window the slots that are not 0 are the slots that hold 255. -/
theorem marksOnly_counts (w : windowRing) (hw : w.marksOnly) :
    w.windowSize - w.countHits 0 = w.countHits 255 := by
  obtain ⟨⟨hlen, -⟩, -, -, -, hslots⟩ := hw
  have hc := count_marks w.ring hslots
  rw [countHits_eq_count, countHits_eq_count, ← hlen]
  omega

/-- On link windows the two implementations of the metric agree. -/
theorem updateTQ_eq_linkMetric (link : linkData) (hr : link.rqWindow.marksOnly)
    (he : link.eqWindow.marksOnly) (t : Byte) (s : sqn) :
    link.updateTQ.tq = (linkMetric.mk t link.rqWindow link.eqWindow s).updateTQ.tq := by
  have cr := marksOnly_counts link.rqWindow hr
  have ce := marksOnly_counts link.eqWindow he
  have hW : link.eqWindow.windowSize = batLocalWindowSize := he.2.2.1
  have h255 : byteOfInt batTQMaxValue = 255 := by decide
  rw [hW] at ce
  simp only [linkData.updateTQ, linkMetric.updateTQ, cr, hW, ce, h255]

theorem updateTQ_marksOnly (link : linkData) (hr : link.rqWindow.marksOnly)
    (he : link.eqWindow.marksOnly) : link.updateTQ.marksOnly :=
  ⟨hr, he, rfl⟩

theorem linkData_markReceive_marksOnly (link : linkData) (h : link.marksOnly) (seq : sqn)
    (hs : seq.isDefault) (v : Byte) (hv : v = 0 ∨ v = 255) (when : Time) :
    ∃ link1, link.markReceive seq v when = Run.done link1 ∧ link1.marksOnly := by
  obtain ⟨-, -, hn0, hn1⟩ := hs
  obtain ⟨hr, he, -⟩ := h
  obtain ⟨w1, hwr, hw1⟩ := write_marksOnly link.rqWindow hr seq.num v hn0 hn1 hv
  unfold linkData.markReceive
  rw [hwr]
  simp only [Run.bind]
  refine ⟨_, rfl, ?_⟩
  split_ifs <;> exact updateTQ_marksOnly _ hw1 he

theorem linkData_markEcho_marksOnly (link : linkData) (h : link.marksOnly) (seq : sqn)
    (hs : seq.isDefault) (v : Byte) (hv : v = 0 ∨ v = 255) (when : Time) :
    ∃ link1, link.markEcho seq v when = Run.done link1 ∧ link1.marksOnly := by
  obtain ⟨-, -, hn0, hn1⟩ := hs
  obtain ⟨hr, he, -⟩ := h
  obtain ⟨w1, hwr, hw1⟩ := write_marksOnly link.eqWindow he seq.num v hn0 hn1 hv
  unfold linkData.markEcho
  rw [hwr]
  simp only [Run.bind]
  refine ⟨_, rfl, ?_⟩
  split_ifs <;> exact updateTQ_marksOnly _ hr hw1

theorem markReceiveEach_marksOnly (ip : ipAddr) (seq : sqn) (hs : seq.isDefault)
    (when : Time) :
    ∀ nlm : nodeLinksMap, (∀ e ∈ nlm, e.2.marksOnly) →
      ∃ nlm1, nodeLinksMap.markReceiveEach ip seq when nlm = Run.done nlm1 ∧
        ∀ e ∈ nlm1, e.2.marksOnly := by
  have h255 : byteOfInt batTQMaxValue = 255 := by decide
  intro nlm
  induction nlm with
  | nil => exact fun _ => ⟨[], rfl, fun e he => absurd he (List.not_mem_nil e)⟩
  | cons e rest ih =>
    intro hall
    obtain ⟨ipKey, link⟩ := e
    obtain ⟨rest1, hrest, hall1⟩ := ih (fun e he => hall e (List.mem_cons_of_mem _ he))
    have hl : link.marksOnly := hall (ipKey, link) (List.mem_cons_self _ _)
    obtain ⟨link1, hm, hl1⟩ : ∃ link1,
        (if ipKey = ip then link.markReceive seq (byteOfInt batTQMaxValue) when
          else link.markReceive seq 0 link.seen) = Run.done link1 ∧ link1.marksOnly := by
      split_ifs
      · rw [h255]
        exact linkData_markReceive_marksOnly link hl seq hs 255 (Or.inr rfl) when
      · exact linkData_markReceive_marksOnly link hl seq hs 0 (Or.inl rfl) link.seen
    refine ⟨(ipKey, link1) :: rest1, ?_, fun e he => ?_⟩
    · simp only [nodeLinksMap.markReceiveEach, hm, hrest, Run.bind]
    · rcases List.mem_cons.1 he with h | h
      · rw [h]
        exact hl1
      · exact hall1 e h

theorem markEcho_marksOnly (ip : ipAddr) (seq : sqn) (hs : seq.isDefault) (when : Time) :
    ∀ nlm : nodeLinksMap, (∀ e ∈ nlm, e.2.marksOnly) →
      ∃ nlm1, nodeLinksMap.markEcho nlm ip seq when = Run.done nlm1 ∧
        ∀ e ∈ nlm1, e.2.marksOnly := by
  have h255 : byteOfInt batTQMaxValue = 255 := by decide
  intro nlm
  induction nlm with
  | nil => exact fun _ => ⟨[], rfl, fun e he => absurd he (List.not_mem_nil e)⟩
  | cons e rest ih =>
    intro hall
    obtain ⟨ipKey, link⟩ := e
    obtain ⟨rest1, hrest, hall1⟩ := ih (fun e he => hall e (List.mem_cons_of_mem _ he))
    have hl : link.marksOnly := hall (ipKey, link) (List.mem_cons_self _ _)
    obtain ⟨link1, hm, hl1⟩ : ∃ link1,
        (if ipKey = ip then link.markEcho seq (byteOfInt batTQMaxValue) when
          else link.markEcho seq 0 link.seen) = Run.done link1 ∧ link1.marksOnly := by
      split_ifs
      · rw [h255]
        exact linkData_markEcho_marksOnly link hl seq hs 255 (Or.inr rfl) when
      · exact linkData_markEcho_marksOnly link hl seq hs 0 (Or.inl rfl) link.seen
    refine ⟨(ipKey, link1) :: rest1, ?_, fun e he => ?_⟩
    · simp only [nodeLinksMap.markEcho, hm, hrest, Run.bind]
    · rcases List.mem_cons.1 he with h | h
      · rw [h]
        exact hl1
      · exact hall1 e h

theorem markReceive_marksOnly (ip : ipAddr) (seq : sqn) (hs : seq.isDefault) (when : Time)
    (nlm : nodeLinksMap) (hall : ∀ e ∈ nlm, e.2.marksOnly) :
    ∃ nlm1, nodeLinksMap.markReceive nlm ip seq when = Run.done nlm1 ∧
      ∀ e ∈ nlm1, e.2.marksOnly := by
  have hfresh : freshLink.marksOnly := by
    set_option maxRecDepth 4000 in decide
  unfold nodeLinksMap.markReceive
  by_cases hk : nlm.any (fun e => e.1 == ip) = true
  · rw [if_pos hk]
    simp only [Run.bind]
    exact markReceiveEach_marksOnly ip seq hs when nlm hall
  · rw [if_neg hk]
    simp only [nodeLinksMap.addLink, newlinkData_eq, Run.bind, if_neg hk]
    apply markReceiveEach_marksOnly ip seq hs when
    intro e he
    rcases List.mem_append.1 he with h | h
    · exact hall e h
    · rw [List.mem_singleton] at h
      rw [h]
      exact hfresh

/-- Every run of calls with default sequence numbers returns and keeps the
links. -/
theorem callAll_marksOnly (calls : List linkCall) :
    ∀ nlm : nodeLinksMap, (∀ e ∈ nlm, e.2.marksOnly) →
      (∀ c ∈ calls, c.seq.isDefault) →
      ∃ nlm1, nodeLinksMap.callAll nlm calls = Run.done nlm1 ∧
        ∀ e ∈ nlm1, e.2.marksOnly := by
  induction calls with
  | nil => exact fun nlm hall _ => ⟨nlm, rfl, hall⟩
  | cons c rest ih =>
    intro nlm hall hcalls
    have hc := hcalls c (List.mem_cons_self _ _)
    have hrest := fun c1 h1 => hcalls c1 (List.mem_cons_of_mem _ h1)
    cases c with
    | receive ip seq when =>
      obtain ⟨nlm1, hm, hall1⟩ := markReceive_marksOnly ip seq hc when nlm hall
      obtain ⟨nlm2, hrun, hall2⟩ := ih nlm1 hall1 hrest
      exact ⟨nlm2, by simp only [nodeLinksMap.callAll, hm, Run.bind]; exact hrun, hall2⟩
    | echo ip seq when =>
      obtain ⟨nlm1, hm, hall1⟩ := markEcho_marksOnly ip seq hc when nlm hall
      obtain ⟨nlm2, hrun, hall2⟩ := ih nlm1 hall1 hrest
      exact ⟨nlm2, by simp only [nodeLinksMap.callAll, hm, Run.bind]; exact hrun, hall2⟩

/-! ## Link map: the two metrics agree -/

/-- C38: every run of `markReceive` and `markEcho` calls with default sequence
numbers on an empty nodeLinksMap returns, and in the map it leaves, for every
link: each slot of the RQ and of the EQ window is 0 or 255; both windows have
address size 2048 and window size 64; `windowSize - countHits(0)` equals
`countHits(255)` for each window; and the `tq` of `linkData.updateTQ`, which is
the `tq` stored in the link, equals the `tq` that `linkMetric.updateTQ`
computes from the same two windows. -/
theorem link_metrics_agree (calls : List linkCall) (hcalls : ∀ c ∈ calls, c.seq.isDefault) :
    ∃ nlm, nodeLinksMap.callAll newNodeLinkMap calls = Run.done nlm ∧
      ∀ e ∈ nlm,
        (∀ x ∈ e.2.rqWindow.ring, x = 0 ∨ x = 255) ∧
        (∀ x ∈ e.2.eqWindow.ring, x = 0 ∨ x = 255) ∧
        e.2.rqWindow.addressSize = 2048 ∧ e.2.rqWindow.windowSize = 64 ∧
        e.2.eqWindow.addressSize = 2048 ∧ e.2.eqWindow.windowSize = 64 ∧
        e.2.rqWindow.windowSize - e.2.rqWindow.countHits 0 = e.2.rqWindow.countHits 255 ∧
        e.2.eqWindow.windowSize - e.2.eqWindow.countHits 0 = e.2.eqWindow.countHits 255 ∧
        e.2.tq = e.2.updateTQ.tq ∧
        ∀ (t : Byte) (s : sqn),
          e.2.updateTQ.tq = (linkMetric.mk t e.2.rqWindow e.2.eqWindow s).updateTQ.tq := by
  obtain ⟨nlm, hrun, hall⟩ := callAll_marksOnly calls newNodeLinkMap
    (fun e he => absurd he (List.not_mem_nil e)) hcalls
  refine ⟨nlm, hrun, fun e he => ?_⟩
  obtain ⟨hr, hq, htq⟩ := hall e he
  exact ⟨hr.2.2.2.2, hq.2.2.2.2, hr.2.1, hr.2.2.1, hq.2.1, hq.2.2.1,
    marksOnly_counts _ hr, marksOnly_counts _ hq, htq,
    fun t s => updateTQ_eq_linkMetric e.2 hr hq t s⟩

theorem link_metrics_agree_witness :
    ∃ nlm, nodeLinksMap.callAll newNodeLinkMap sampleCalls = Run.done nlm ∧
      ∀ e ∈ nlm,
        (∀ x ∈ e.2.rqWindow.ring, x = 0 ∨ x = 255) ∧
        (∀ x ∈ e.2.eqWindow.ring, x = 0 ∨ x = 255) ∧
        e.2.rqWindow.addressSize = 2048 ∧ e.2.rqWindow.windowSize = 64 ∧
        e.2.eqWindow.addressSize = 2048 ∧ e.2.eqWindow.windowSize = 64 ∧
        e.2.rqWindow.windowSize - e.2.rqWindow.countHits 0 = e.2.rqWindow.countHits 255 ∧
        e.2.eqWindow.windowSize - e.2.eqWindow.countHits 0 = e.2.eqWindow.countHits 255 ∧
        e.2.tq = e.2.updateTQ.tq ∧
        ∀ (t : Byte) (s : sqn),
          e.2.updateTQ.tq = (linkMetric.mk t e.2.rqWindow e.2.eqWindow s).updateTQ.tq :=
  link_metrics_agree sampleCalls (by decide)

/-! ## The machine computes the exact functions within the range of `int` -/

theorem absWrap_of_fits (x : Int) (h : -maxInt ≤ x) : absWrap x = Batman.abs x := by
  unfold absWrap Batman.abs
  split_ifs with hx
  · rfl
  · exact wrapInt_of_fits _ (by omega) (by omega)

theorem pmodRun_eq (x y : Int) (hy : 0 < y) (h2 : 2 * y ≤ maxInt) :
    pmodRun x y = Run.done (pmod x y) := by
  unfold pmodRun
  rw [if_neg (by omega), pmodWrap_eq_emod x y hy h2, pmod_eq_emod x y hy]

/-- Where twice the limit fits in an `int`, the machine comparison of two
numbers less than a limit apart is the exact one. -/
theorem greaterThanWrap_eq (s n : sqn) (hL : 0 < s.limit) (h2 : 2 * s.limit ≤ maxInt)
    (hlo : -s.limit < s.num - n.num) (hhi : s.num - n.num < s.limit) :
    s.greaterThanWrap n = Run.done (s.greaterThan n) := by
  have hm : maxInt = 2 ^ 63 - 1 := rfl
  have e1 : wrapInt (s.num - n.num) = s.num - n.num :=
    wrapInt_of_fits _ (by omega) (by omega)
  have e2 : wrapInt (s.num - n.num - s.limit) = s.num - n.num - s.limit :=
    wrapInt_of_fits _ (by omega) (by omega)
  have hmin : Batman.min (s.num - n.num) (s.num - n.num - s.limit)
      = s.num - n.num - s.limit := by
    unfold Batman.min
    rw [if_neg (by omega)]
  have e3 : absWrap (s.num - n.num - s.limit) = Batman.abs (s.num - n.num - s.limit) :=
    absWrap_of_fits _ (by omega)
  unfold sqn.greaterThanWrap sqn.greaterThan
  simp only [e1, e2, hmin, e3, pmodRun_eq _ _ hL h2, Run.bind]
  split_ifs <;> rfl

theorem lessThanWrap_eq (s n : sqn) (hL : 0 < s.limit) (h2 : 2 * s.limit ≤ maxInt)
    (hlo : -s.limit < s.num - n.num) (hhi : s.num - n.num < s.limit) :
    s.lessThanWrap n = Run.done (s.lessThan n) := by
  unfold sqn.lessThanWrap sqn.lessThan
  rw [greaterThanWrap_eq s n hL h2 hlo hhi]
  rfl

/-- The machine comparison returns unless the limit is zero. -/
theorem greaterThanWrap_total (s n : sqn) (hL : s.limit ≠ 0) :
    ∃ g, s.greaterThanWrap n = Run.done g := by
  unfold sqn.greaterThanWrap pmodRun
  simp only [if_neg hL, Run.bind]
  split_ifs
  · exact ⟨_, rfl⟩
  · exact ⟨true, rfl⟩

/-! ## Sequence-number claims on the machine -/

/-- C7 (amended): for valid sequence numbers `a`, `b` with the same limit and
window, `window ≥ 1`, `2 * window ≤ limit` and `2 * limit` at most the largest
`int`: if `a.num = (b.num + x) mod limit` for some `0 < x < window` then, on the
machine, `a.greaterThan b` is true, `b.greaterThan a` is false and
`b.lessThan a` is true, wrap-around of the sequence numbers included. -/
theorem greaterThanWrap_of_step_within_window (a b : sqn) (x : Int)
    (ha : a.valid) (hb : b.valid)
    (hl : a.limit = b.limit) (hw : a.window = b.window)
    (hw1 : 1 ≤ a.window) (h2w : 2 * a.window ≤ a.limit) (h2l : 2 * a.limit ≤ maxInt)
    (hx0 : 0 < x) (hxw : x < a.window)
    (hax : a.num = (b.num + x) % a.limit) :
    a.greaterThanWrap b = Run.done true ∧ b.greaterThanWrap a = Run.done false ∧
      b.lessThanWrap a = Run.done true := by
  obtain ⟨h1, h2, h3⟩ :=
    greaterThan_of_step_within_window a b x ha hb hl hw hw1 h2w hx0 hxw hax
  obtain ⟨ha0, ha1, _⟩ := ha
  obtain ⟨hb0, hb1, _⟩ := hb
  rw [greaterThanWrap_eq a b (by omega) h2l (by omega) (by omega),
    greaterThanWrap_eq b a (by omega) (by omega) (by omega) (by omega),
    lessThanWrap_eq b a (by omega) (by omega) (by omega) (by omega), h1, h2, h3]
  exact ⟨rfl, rfl, rfl⟩

theorem greaterThanWrap_of_step_within_window_witness :
    (sqn.mk 1 2048 64).greaterThanWrap (sqn.mk 2046 2048 64) = Run.done true ∧
    (sqn.mk 2046 2048 64).greaterThanWrap (sqn.mk 1 2048 64) = Run.done false ∧
    (sqn.mk 2046 2048 64).lessThanWrap (sqn.mk 1 2048 64) = Run.done true :=
  greaterThanWrap_of_step_within_window (sqn.mk 1 2048 64) (sqn.mk 2046 2048 64) 3
    (by decide) (by decide) rfl rfl (by decide) (by decide) (by decide) (by decide)
    (by decide) (by decide)

/-- C7 as stated fails: `a = {1, maxInt, 64}` and `b = {0, maxInt, 64}` are
valid, with `2 * window ≤ limit` and `a.num = (b.num + 1) mod limit`; on the
machine `abs` of the least `int` wraps, `b.greaterThan a` is true and
`b.lessThan a` is false. -/
theorem greaterThanWrap_step_at_maxInt :
    (sqn.mk 1 maxInt 64).valid ∧ (sqn.mk 0 maxInt 64).valid ∧ (2 : Int) * 64 ≤ maxInt ∧
      (sqn.mk 1 maxInt 64).num = ((sqn.mk 0 maxInt 64).num + 1) % maxInt ∧
      (sqn.mk 0 maxInt 64).greaterThanWrap (sqn.mk 1 maxInt 64) = Run.done true ∧
      (sqn.mk 0 maxInt 64).lessThanWrap (sqn.mk 1 maxInt 64) = Run.done false := by
  decide

/-- C8 (amended): for valid sequence numbers `a`, `b` with the same limit and
window, `2 * limit` at most the largest `int`, that are at least one window
apart in both directions: on the machine `a.greaterThan b` and
`b.greaterThan a` are both true and neither `a.lessThan b` nor `b.lessThan a`
holds. -/
theorem greaterThanWrap_both_beyond_window (a b : sqn)
    (ha : a.valid) (hb : b.valid)
    (hl : a.limit = b.limit) (hw : a.window = b.window) (h2l : 2 * a.limit ≤ maxInt)
    (hab : (a.num - b.num) % a.limit ≥ a.window)
    (hba : (b.num - a.num) % a.limit ≥ a.window) :
    a.greaterThanWrap b = Run.done true ∧ b.greaterThanWrap a = Run.done true ∧
      a.lessThanWrap b = Run.done false ∧ b.lessThanWrap a = Run.done false := by
  obtain ⟨h1, h2, h3, h4⟩ := greaterThan_both_beyond_window a b ha hb hl hw hab hba
  obtain ⟨ha0, ha1, _⟩ := ha
  obtain ⟨hb0, hb1, _⟩ := hb
  rw [greaterThanWrap_eq a b (by omega) h2l (by omega) (by omega),
    greaterThanWrap_eq b a (by omega) (by omega) (by omega) (by omega),
    lessThanWrap_eq a b (by omega) h2l (by omega) (by omega),
    lessThanWrap_eq b a (by omega) (by omega) (by omega) (by omega), h1, h2, h3, h4]
  exact ⟨rfl, rfl, rfl, rfl⟩

theorem greaterThanWrap_both_beyond_window_witness :
    (sqn.mk 1000 2048 64).greaterThanWrap (sqn.mk 1100 2048 64) = Run.done true ∧
    (sqn.mk 1100 2048 64).greaterThanWrap (sqn.mk 1000 2048 64) = Run.done true ∧
    (sqn.mk 1000 2048 64).lessThanWrap (sqn.mk 1100 2048 64) = Run.done false ∧
    (sqn.mk 1100 2048 64).lessThanWrap (sqn.mk 1000 2048 64) = Run.done false :=
  greaterThanWrap_both_beyond_window (sqn.mk 1000 2048 64) (sqn.mk 1100 2048 64)
    (by decide) (by decide) rfl rfl (by decide) (by decide) (by decide)

/-- C8 as stated fails: `a = {0, maxInt, 64}` and `b = {2^62, maxInt, 64}` are
valid and at least one window apart in both directions; on the machine the sum
inside `pmod` wraps, both `greaterThan` are false and both `lessThan` true. -/
theorem greaterThanWrap_beyond_window_at_maxInt :
    (sqn.mk 0 maxInt 64).valid ∧ (sqn.mk (2 ^ 62) maxInt 64).valid ∧
      ((0 : Int) - 2 ^ 62) % maxInt ≥ 64 ∧ ((2 : Int) ^ 62 - 0) % maxInt ≥ 64 ∧
      (sqn.mk 0 maxInt 64).greaterThanWrap (sqn.mk (2 ^ 62) maxInt 64) = Run.done false ∧
      (sqn.mk (2 ^ 62) maxInt 64).greaterThanWrap (sqn.mk 0 maxInt 64) = Run.done false ∧
      (sqn.mk 0 maxInt 64).lessThanWrap (sqn.mk (2 ^ 62) maxInt 64) = Run.done true ∧
      (sqn.mk (2 ^ 62) maxInt 64).lessThanWrap (sqn.mk 0 maxInt 64) = Run.done true := by
  decide

/-- C37 (amended): for valid sequence numbers `a` and `b` with the same limit
and window, the window at least 1 and `2 * limit` at most the largest `int`:
on the machine both comparisons return, and `a.lessThan b` implies
`b.greaterThan a` and implies that `b.lessThan a` is false. -/
theorem lessThanWrap_asymm (a b : sqn) (ha : a.valid) (hb : b.valid)
    (hl : a.limit = b.limit) (hw : a.window = b.window) (hw1 : 1 ≤ a.window)
    (h2l : 2 * a.limit ≤ maxInt) (hlt : a.lessThanWrap b = Run.done true) :
    b.greaterThanWrap a = Run.done true ∧ b.lessThanWrap a = Run.done false := by
  have ha' := ha
  have hb' := hb
  obtain ⟨ha0, ha1, _⟩ := ha
  obtain ⟨hb0, hb1, _⟩ := hb
  rw [lessThanWrap_eq a b (by omega) h2l (by omega) (by omega)] at hlt
  injection hlt with hlt
  obtain ⟨h1, h2⟩ := lessThan_asymm a b ha' hb' hl hw hw1 hlt
  rw [greaterThanWrap_eq b a (by omega) (by omega) (by omega) (by omega),
    lessThanWrap_eq b a (by omega) (by omega) (by omega) (by omega), h1, h2]
  exact ⟨rfl, rfl⟩

theorem lessThanWrap_asymm_witness :
    (sqn.mk 2046 2048 64).greaterThanWrap (sqn.mk 2040 2048 64) = Run.done true ∧
      (sqn.mk 2046 2048 64).lessThanWrap (sqn.mk 2040 2048 64) = Run.done false :=
  lessThanWrap_asymm (sqn.mk 2040 2048 64) (sqn.mk 2046 2048 64) (by decide) (by decide)
    rfl rfl (by decide) (by decide) (by decide)

/-- C37 as stated fails: for the valid `a = {5, maxInt, 64}` and
`b = {2^62 + 9, maxInt, 64}`, on the machine `a.lessThan b` is true while
`b.greaterThan a` is false and `b.lessThan a` is true. -/
theorem lessThanWrap_symmetric_at_maxInt :
    (sqn.mk 5 maxInt 64).valid ∧ (sqn.mk (2 ^ 62 + 9) maxInt 64).valid ∧
      (sqn.mk 5 maxInt 64).lessThanWrap (sqn.mk (2 ^ 62 + 9) maxInt 64) = Run.done true ∧
      (sqn.mk (2 ^ 62 + 9) maxInt 64).greaterThanWrap (sqn.mk 5 maxInt 64) = Run.done false ∧
      (sqn.mk (2 ^ 62 + 9) maxInt 64).lessThanWrap (sqn.mk 5 maxInt 64) = Run.done true := by
  decide

/-! ## Route tracker on the machine -/

theorem updateWrap_none (r : routeTracker) (link : ipAddr) (s : sqn) (q : Byte) (t : Time)
    (hL : s.limit ≠ 0) (hg : mapGet r.nextHops link = none) :
    ∃ r1, r.updateWrap link s q t = Run.done r1 ∧
      (r1.nextHops = mapSet r.nextHops link ⟨q, s, t⟩ ∨
        r1.nextHops = mapSet (mapSet r.nextHops link ⟨q, s, t⟩) link ⟨q, s, t⟩) := by
  obtain ⟨newer, hnewer⟩ := greaterThanWrap_total s r.latestSQN hL
  obtain ⟨g, hg1⟩ := greaterThanWrap_total s s hL
  have hself : mapGet (mapSet r.nextHops link (hop.mk q s t)) link = some ⟨q, s, t⟩ :=
    mapGet_mapSet_self _ _ _
  unfold routeTracker.updateWrap
  simp only [hg, Option.isNone_none, if_true, hnewer, Run.bind]
  have heq : s.equalTo s = true := by simp [sqn.equalTo]
  cases newer <;> cases g <;> simp [hself, hg1, heq, Run.bind]

theorem updateWrap_some (r : routeTracker) (link : ipAddr) (s : sqn) (q : Byte) (t : Time)
    (hL : s.limit ≠ 0) (h : hop) (hg : mapGet r.nextHops link = some h) :
    ∃ r1 g, r.updateWrap link s q t = Run.done r1 ∧ s.greaterThanWrap h.sqn = Run.done g ∧
      r1.nextHops =
        if (g || s.equalTo h.sqn) = true then mapSet r.nextHops link ⟨q, s, t⟩
        else r.nextHops := by
  obtain ⟨newer, hnewer⟩ := greaterThanWrap_total s r.latestSQN hL
  obtain ⟨g, hg1⟩ := greaterThanWrap_total s h.sqn hL
  unfold routeTracker.updateWrap
  simp only [hg, Option.isNone_some, Bool.false_eq_true, if_false, hnewer, Run.bind]
  cases newer <;> cases g <;> cases he : s.equalTo h.sqn <;> simp [hg, hg1, he, Run.bind]

/-- C22 (amended): for a sequence number `s` whose limit is not 0,
`update(link, s, q, t)` returns, and afterwards the hop of `link` is
`{q, s, t}` if none existed; if a hop existed it is `{q, s, t}` when
`s.greaterThan(hop.sqn)` or `s.equalTo(hop.sqn)` (comparisons of the machine,
which return) and the old hop otherwise; the hops of all other links are
unchanged. -/
theorem updateWrap_hops (r : routeTracker) (link : ipAddr) (s : sqn) (q : Byte) (t : Time)
    (hL : s.limit ≠ 0) :
    ∃ r1, r.updateWrap link s q t = Run.done r1 ∧
      (mapGet r.nextHops link = none → mapGet r1.nextHops link = some ⟨q, s, t⟩) ∧
      (∀ h, mapGet r.nextHops link = some h →
        ∃ g, s.greaterThanWrap h.sqn = Run.done g ∧
          mapGet r1.nextHops link =
            some (if (g || s.equalTo h.sqn) = true then ⟨q, s, t⟩ else h)) ∧
      (∀ other, other ≠ link → mapGet r1.nextHops other = mapGet r.nextHops other) := by
  cases hg : mapGet r.nextHops link with
  | none =>
    obtain ⟨r1, hr1, hn⟩ := updateWrap_none r link s q t hL hg
    refine ⟨r1, hr1, fun _ => ?_, fun h hh => absurd hh (by simp), fun other hne => ?_⟩
    · rcases hn with hn | hn <;> rw [hn] <;> exact mapGet_mapSet_self _ _ _
    · rcases hn with hn | hn
      · rw [hn, mapGet_mapSet_ne _ _ _ _ hne]
      · rw [hn, mapGet_mapSet_ne _ _ _ _ hne, mapGet_mapSet_ne _ _ _ _ hne]
  | some h0 =>
    obtain ⟨r1, g, hr1, hg1, hn⟩ := updateWrap_some r link s q t hL h0 hg
    refine ⟨r1, hr1, fun hnone => absurd hnone (by simp), fun h hh => ?_, fun other hne => ?_⟩
    · injection hh with hh
      subst hh
      refine ⟨g, hg1, ?_⟩
      rw [hn]
      by_cases hc : (g || s.equalTo h0.sqn) = true
      · rw [if_pos hc, if_pos hc]
        exact mapGet_mapSet_self _ _ _
      · rw [if_neg hc, if_neg hc]
        exact hg
    · rw [hn]
      by_cases hc : (g || s.equalTo h0.sqn) = true
      · rw [if_pos hc, mapGet_mapSet_ne _ _ _ _ hne]
      · rw [if_neg hc]

theorem updateWrap_hops_witness :
    ∃ r1, newRouteTracker.updateWrap [49] sqn5 200 7 = Run.done r1 ∧
      (mapGet newRouteTracker.nextHops [49] = none →
        mapGet r1.nextHops [49] = some ⟨200, sqn5, 7⟩) ∧
      (∀ h, mapGet newRouteTracker.nextHops [49] = some h →
        ∃ g, sqn5.greaterThanWrap h.sqn = Run.done g ∧
          mapGet r1.nextHops [49] =
            some (if (g || sqn5.equalTo h.sqn) = true then ⟨200, sqn5, 7⟩ else h)) ∧
      (∀ other, other ≠ [49] →
        mapGet r1.nextHops other = mapGet newRouteTracker.nextHops other) :=
  updateWrap_hops newRouteTracker [49] sqn5 200 7 (by decide)

/-- C22 as stated fails: with the zero value `sqn{}`, whose limit is 0, the
first comparison of `update` divides by zero and the call panics. -/
theorem updateWrap_zero_sqn_panics :
    newRouteTracker.updateWrap [49] ⟨0, 0, 0⟩ 200 7
      = Run.panicked "runtime error: integer divide by zero" := by
  decide

/-! ## The machine ring is the exact ring within the range of `int` -/

theorem inWindowWrap_eq (w : windowRing) (hA : 0 < w.addressSize)
    (h2 : 2 * w.addressSize ≤ maxInt) (loc : Int) (hlo : -maxInt ≤ w.addressHead - loc)
    (hhi : w.addressHead - loc ≤ maxInt) :
    w.inWindowWrap loc = Run.done (w.inWindow loc) := by
  have hm : maxInt = 2 ^ 63 - 1 := rfl
  unfold windowRing.inWindowWrap windowRing.inWindow
  rw [wrapInt_of_fits _ (by omega) hhi, pmodRun_eq _ _ hA h2]
  rfl

theorem readWrap_eq (w : windowRing) (hw : w.wellFormed) (h2 : 2 * w.addressSize ≤ maxInt)
    (loc : Int) (hlo : -maxInt ≤ w.addressHead - loc) (hhi : w.addressHead - loc ≤ maxInt) :
    w.readWrap loc = w.read loc := by
  have hm : maxInt = 2 ^ 63 - 1 := rfl
  obtain ⟨hlen, hW1, hWA, hh0, hh1, ha0, ha1⟩ := hw
  have hd := pmod_range (w.addressHead - loc) w.addressSize (by omega)
  unfold windowRing.readWrap windowRing.read
  rw [wrapInt_of_fits _ (by omega) hhi, pmodRun_eq _ _ (by omega) h2]
  simp only [Run.bind]
  split_ifs with hin
  · rw [wrapInt_of_fits _ (by omega) (by omega), pmodRun_eq _ _ (by omega) (by omega)]
  · rfl

theorem clearLoopWrap_eq (moveBy : Int) (fuel : Nat) :
    ∀ (i : Int) (w : windowRing) (idx : Int), 0 < w.windowSize →
      2 * w.windowSize ≤ maxInt → 0 ≤ w.windowHead → w.windowHead < w.windowSize →
      windowRing.clearLoopWrap moveBy fuel i w idx = windowRing.clearLoop moveBy fuel i w idx := by
  have hm : maxInt = 2 ^ 63 - 1 := rfl
  induction fuel with
  | zero => exact fun _ _ _ _ _ _ _ => rfl
  | succ k ih =>
    intro i w idx hW h2 hh0 hh1
    unfold windowRing.clearLoopWrap windowRing.clearLoop
    split_ifs with hc
    · rw [wrapInt_of_fits _ (by omega) (by omega), pmodRun_eq _ _ hW h2]
      simp only [Run.bind]
      have hr := pmod_range (1 + w.windowHead) w.windowSize hW
      cases ringStore w.ring (pmod (1 + w.windowHead) w.windowSize) w.defaultVal with
      | panicked msg => rfl
      | done ring => exact ih _ _ _ hW h2 hr.1 hr.2
    · rfl

/-- Where twice the address size fits in an `int`, the machine write on a
well-formed ring is the exact write. -/
theorem writeWrap_eq (w : windowRing) (hw : w.wellFormed) (h2 : 2 * w.addressSize ≤ maxInt)
    (loc : Int) (val : List Byte) : w.writeWrap loc val = w.write loc val := by
  have hm : maxInt = 2 ^ 63 - 1 := rfl
  obtain ⟨hlen, hW1, hWA, hh0, hh1, ha0, ha1⟩ := hw
  unfold windowRing.writeWrap windowRing.write
  by_cases g1 : loc < 0
  · rw [if_pos g1, if_pos g1]
  rw [if_neg g1, if_neg g1]
  by_cases g2 : loc > w.addressSize
  · rw [if_pos g2, if_pos g2]
  rw [if_neg g2, if_neg g2]
  by_cases g3 : val.length > 1
  · rw [if_pos g3, if_pos g3]
  rw [if_neg g3, if_neg g3]
  have hA : 0 < w.addressSize := by omega
  rw [inWindowWrap_eq w hA h2 loc (by omega) (by omega)]
  simp only [Run.bind]
  have hd := pmod_range (w.addressHead - loc) w.addressSize hA
  have hmv := pmod_range (loc - w.addressHead) w.addressSize hA
  by_cases hin : w.inWindow loc = true
  · simp only [hin, if_true]
    rw [wrapInt_of_fits (w.addressHead - loc) (by omega) (by omega), pmodRun_eq _ _ hA h2]
    simp only [Run.bind]
    rw [wrapInt_of_fits _ (by omega) (by omega), pmodRun_eq _ _ (by omega) (by omega)]
  · simp only [hin, Bool.false_eq_true, if_false]
    rw [wrapInt_of_fits (loc - w.addressHead) (by omega) (by omega), pmodRun_eq _ _ hA h2]
    simp only [Run.bind]
    rw [wrapInt_of_fits _ (by omega) (by omega), pmodRun_eq _ _ hA h2]
    simp only [Run.bind]
    split_ifs with hne
    · rfl
    · rw [clearLoopWrap_eq _ _ _ _ _ (by dsimp only; omega) (by dsimp only; omega)
        (by dsimp only; omega) (by dsimp only; omega)]

theorem writeAllWrap_eq (ws : List (Int × List Byte)) :
    ∀ w : windowRing, w.wellFormed → 2 * w.addressSize ≤ maxInt →
      (∀ e ∈ ws, 0 ≤ e.1 ∧ e.1 < w.addressSize ∧ e.2.length ≤ 1) →
      w.writeAllWrap ws = w.writeAll ws := by
  induction ws with
  | nil => exact fun _ _ _ _ => rfl
  | cons e rest ih =>
    intro w hw h2 hall
    obtain ⟨p, val⟩ := e
    obtain ⟨hp0, hp1, hv⟩ := hall (p, val) (List.mem_cons_self _ _)
    obtain ⟨w1, hwr, hw1, hA, -⟩ := write_spec w hw p val hp0 hp1 hv
    simp only [windowRing.writeAllWrap, windowRing.writeAll, writeWrap_eq w hw h2, hwr,
      Run.bind]
    exact ih w1 hw1 (by rw [hA]; exact h2)
      (fun e he => by rw [hA]; exact hall e (List.mem_cons_of_mem _ he))

theorem staysInWindowWrap_eq (loc : Int) (ws : List (Int × List Byte)) :
    ∀ w : windowRing, w.wellFormed → 2 * w.addressSize ≤ maxInt →
      0 ≤ loc → loc < w.addressSize →
      (∀ e ∈ ws, 0 ≤ e.1 ∧ e.1 < w.addressSize ∧ e.2.length ≤ 1) →
      w.staysInWindowWrap loc ws = w.staysInWindow loc ws := by
  have hm : maxInt = 2 ^ 63 - 1 := rfl
  induction ws with
  | nil => exact fun _ _ _ _ _ _ => rfl
  | cons e rest ih =>
    intro w hw h2 h0 h1 hall
    obtain ⟨p, val⟩ := e
    obtain ⟨hp0, hp1, hv⟩ := hall (p, val) (List.mem_cons_self _ _)
    obtain ⟨w1, hwr, hw1, hA, -⟩ := write_spec w hw p val hp0 hp1 hv
    have hw1' := hw1
    obtain ⟨-, hW1, hWA, -, -, ha0, ha1⟩ := hw1'
    have hin := inWindowWrap_eq w1 (by omega) (by rw [hA]; exact h2) loc (by omega) (by omega)
    simp only [windowRing.staysInWindowWrap, windowRing.staysInWindow, writeWrap_eq w hw h2,
      hwr, hin]
    rw [ih w1 hw1 (by rw [hA]; exact h2) h0 (by rw [hA]; exact h1)
      (fun e he => by rw [hA]; exact hall e (List.mem_cons_of_mem _ he))]

theorem done_eq_true_iff (b : Bool) : (Run.done b = Run.done true) ↔ b = true := by
  constructor
  · intro h
    injection h
  · intro h
    rw [h]

/-! ## Window-ring claims on the machine -/

/-- C11 (amended): on a ring as `newWindowRing` builds it with
`1 ≤ windowSize ≤ addressSize` (and as writes keep it) whose address size
satisfies `2 * addressSize ≤ maxInt`, for every position `0 ≤ loc < addressSize`
and byte `v`: right after `write(loc, v)`, `read(loc)` returns `(v, true)`, and
it still does after any run of writes to other positions during which `loc`
stays inside the window. -/
theorem writeWrap_then_readWrap (w : windowRing) (hw : w.wellFormed)
    (h2 : 2 * w.addressSize ≤ maxInt) (loc : Int) (v : Byte)
    (h0 : 0 ≤ loc) (h1 : loc < w.addressSize) :
    ∃ w1, w.writeWrap loc [v] = Run.done w1 ∧ w1.readWrap loc = Run.done (v, true) ∧
      ∀ ws : List (Int × List Byte),
        (∀ e ∈ ws, e.1 ≠ loc ∧ 0 ≤ e.1 ∧ e.1 < w.addressSize ∧ e.2.length ≤ 1) →
        w1.staysInWindowWrap loc ws = true →
        ∃ w2, w1.writeAllWrap ws = Run.done w2 ∧ w2.readWrap loc = Run.done (v, true) := by
  have hm : maxInt = 2 ^ 63 - 1 := rfl
  obtain ⟨w1, hwr, hw1, hA, -⟩ := write_spec w hw loc [v] h0 h1 (by simp)
  obtain ⟨w1', hwr', hr1, hrest⟩ := write_then_read w hw loc v h0 h1
  rw [hwr] at hwr'
  injection hwr' with hwr'
  subst hwr'
  have h21 : 2 * w1.addressSize ≤ maxInt := by rw [hA]; exact h2
  have hfit : ∀ u : windowRing, u.wellFormed → u.addressSize = w.addressSize →
      u.readWrap loc = u.read loc := by
    intro u hu hAu
    have hu' := hu
    obtain ⟨-, -, -, -, -, ha0, ha1⟩ := hu'
    exact readWrap_eq u hu (by rw [hAu]; exact h2) loc (by omega) (by omega)
  refine ⟨w1, by rw [writeWrap_eq w hw h2]; exact hwr, by rw [hfit w1 hw1 hA]; exact hr1,
    fun ws hws hstay => ?_⟩
  have hws1 : ∀ e ∈ ws, 0 ≤ e.1 ∧ e.1 < w1.addressSize ∧ e.2.length ≤ 1 := fun e he => by
    rw [hA]
    exact (hws e he).2
  rw [staysInWindowWrap_eq loc ws w1 hw1 h21 h0 (by rw [hA]; exact h1) hws1] at hstay
  obtain ⟨w2, hall, hr2⟩ := hrest ws hws hstay
  obtain ⟨w2', hall', hw2, hA2, -⟩ := writeAll_wellFormed ws w1 hw1 hws1
  rw [hall] at hall'
  injection hall' with hall'
  subst hall'
  exact ⟨w2, by rw [writeAllWrap_eq ws w1 hw1 h21 hws1]; exact hall,
    by rw [hfit w2 hw2 (by rw [hA2, hA])]; exact hr2⟩

theorem writeWrap_then_readWrap_witness :
    ∃ w1, ring2048.writeWrap 0 [255] = Run.done w1 ∧
      w1.readWrap 0 = Run.done (255, true) ∧
      ∀ ws : List (Int × List Byte),
        (∀ e ∈ ws, e.1 ≠ 0 ∧ 0 ≤ e.1 ∧ e.1 < ring2048.addressSize ∧ e.2.length ≤ 1) →
        w1.staysInWindowWrap 0 ws = true →
        ∃ w2, w1.writeAllWrap ws = Run.done w2 ∧ w2.readWrap 0 = Run.done (255, true) :=
  writeWrap_then_readWrap ring2048 (by decide) (by decide) 0 255 (by decide) (by decide)

/-- C11 as stated fails: on the ring of `newWindowRing(maxInt, 1, 0)` the write
of 255 to the position `2^62 + 5` does not return: the sums inside `pmod`
wrap, the new address head is not the position, and the assertion of `write`
panics. -/
theorem writeWrap_panics_at_maxInt :
    newWindowRing maxInt 1 0 = Run.done ringMaxInt1 ∧ ringMaxInt1.wellFormed ∧
      (0 : Int) ≤ 2 ^ 62 + 5 ∧ (2 : Int) ^ 62 + 5 < ringMaxInt1.addressSize ∧
      ringMaxInt1.writeWrap (2 ^ 62 + 5) [255]
        = Run.panicked "windowRing: write: addressHead/loc mismatch!" := by
  decide

/-- C12 (amended): on a well-formed ring with `2 * addressSize ≤ maxInt`, for
`0 ≤ loc < addressSize` and an optional value, `write(loc, val?)` returns,
leaves `addressHead` alone when `loc` was inside the window and sets it to
`loc` otherwise; every position of the new window that received no value reads
its old value when it was inside the window before and `defaultVal` otherwise;
a write without value to a position inside the window changes nothing. -/
theorem writeWrap_frame (w : windowRing) (hw : w.wellFormed)
    (h2 : 2 * w.addressSize ≤ maxInt) (loc : Int) (val : List Byte)
    (h0 : 0 ≤ loc) (h1 : loc < w.addressSize) (hv : val.length ≤ 1) :
    ∃ w1, w.writeWrap loc val = Run.done w1 ∧
      w1.addressHead = (if w.inWindowWrap loc = Run.done true then w.addressHead else loc) ∧
      (∀ p : Int, 0 ≤ p → p < w.addressSize → w1.inWindowWrap p = Run.done true →
        (p ≠ loc ∨ val = []) →
        w1.readWrap p = if w.inWindowWrap p = Run.done true then w.readWrap p
          else Run.done (w.defaultVal, true)) ∧
      (val = [] → w.inWindowWrap loc = Run.done true → w1 = w) := by
  have hm : maxInt = 2 ^ 63 - 1 := rfl
  obtain ⟨w1, hwr, hw1, hA, -⟩ := write_spec w hw loc val h0 h1 hv
  obtain ⟨w1', hwr', hH, hread, hsame⟩ := write_frame w hw loc val h0 h1 hv
  rw [hwr] at hwr'
  injection hwr' with hwr'
  subst hwr'
  have hw' := hw
  have hw1' := hw1
  obtain ⟨-, hW1, hWA, -, -, ha0, ha1⟩ := hw'
  obtain ⟨-, -, -, -, -, hb0, hb1⟩ := hw1'
  have hinw : ∀ p : Int, 0 ≤ p → p < w.addressSize →
      w.inWindowWrap p = Run.done (w.inWindow p) := fun p hp0 hp1 =>
    inWindowWrap_eq w (by omega) h2 p (by omega) (by omega)
  have hinw1 : ∀ p : Int, 0 ≤ p → p < w.addressSize →
      w1.inWindowWrap p = Run.done (w1.inWindow p) := fun p hp0 hp1 =>
    inWindowWrap_eq w1 (by omega) (by rw [hA]; exact h2) p (by omega) (by omega)
  refine ⟨w1, by rw [writeWrap_eq w hw h2]; exact hwr, ?_, fun p hp0 hp1 hpin hno => ?_,
    fun hnil hin => ?_⟩
  · rw [hinw loc h0 h1]
    simp only [done_eq_true_iff]
    exact hH
  · rw [hinw1 p hp0 hp1, done_eq_true_iff] at hpin
    rw [readWrap_eq w1 hw1 (by rw [hA]; exact h2) p (by omega) (by omega),
      readWrap_eq w hw h2 p (by omega) (by omega), hinw p hp0 hp1]
    simp only [done_eq_true_iff]
    exact hread p hp0 hp1 hpin hno
  · rw [hinw loc h0 h1, done_eq_true_iff] at hin
    exact hsame hnil hin

theorem writeWrap_frame_witness :
    ∃ w1, ring32At10.writeWrap 12 [] = Run.done w1 ∧
      w1.addressHead
        = (if ring32At10.inWindowWrap 12 = Run.done true then ring32At10.addressHead
            else 12) ∧
      (∀ p : Int, 0 ≤ p → p < ring32At10.addressSize → w1.inWindowWrap p = Run.done true →
        (p ≠ 12 ∨ ([] : List Byte) = []) →
        w1.readWrap p = if ring32At10.inWindowWrap p = Run.done true then ring32At10.readWrap p
          else Run.done (ring32At10.defaultVal, true)) ∧
      (([] : List Byte) = [] → ring32At10.inWindowWrap 12 = Run.done true →
        w1 = ring32At10) :=
  writeWrap_frame ring32At10 (by decide) (by decide) 12 [] (by decide) (by decide)
    (by decide)

/-- C12 as stated fails: the ring of `newWindowRing(maxInt, 4, 0)` is
well-formed and `2^62 + 5` is a position of its address space, yet the write
without value to it does not return but panics on the assertion of `write`. -/
theorem writeWrap_frame_panics_at_maxInt :
    ringMaxInt4.wellFormed ∧ (0 : Int) ≤ 2 ^ 62 + 5 ∧
      (2 : Int) ^ 62 + 5 < ringMaxInt4.addressSize ∧
      ringMaxInt4.writeWrap (2 ^ 62 + 5) []
        = Run.panicked "windowRing: write: addressHead/loc mismatch!" := by
  decide

/-- C14 (amended): on a well-formed ring with `2 * addressSize ≤ maxInt` and for
a position `loc` whose difference `addressHead - loc` is an `int` (between
`-maxInt` and `maxInt`): `inWindow(loc)` is
`(addressHead - loc) mod addressSize < windowSize`, `read(loc)` returns
`ok = true` exactly when `inWindow(loc)`, and `(0, false)` for every position
outside the window; after a write that advances the head to `loc`, every
position `p` that is `windowSize` or more steps behind `loc`, with `loc - p`
an `int`, reads `(0, false)`. -/
theorem readWrap_ok_iff_inWindowWrap (w : windowRing) (hw : w.wellFormed)
    (h2 : 2 * w.addressSize ≤ maxInt) (loc : Int)
    (hlo : -maxInt ≤ w.addressHead - loc) (hhi : w.addressHead - loc ≤ maxInt) :
    w.inWindowWrap loc
      = Run.done (decide ((w.addressHead - loc) % w.addressSize < w.windowSize)) ∧
    ((∃ v, w.readWrap loc = Run.done (v, true)) ↔ w.inWindowWrap loc = Run.done true) ∧
    (w.inWindowWrap loc = Run.done false → w.readWrap loc = Run.done (0, false)) ∧
    (∀ val : List Byte, 0 ≤ loc → loc < w.addressSize → val.length ≤ 1 →
      w.inWindowWrap loc = Run.done false →
      ∃ w1, w.writeWrap loc val = Run.done w1 ∧ w1.addressHead = loc ∧
        ∀ p : Int, -maxInt ≤ loc - p → loc - p ≤ maxInt →
          (loc - p) % w.addressSize ≥ w.windowSize →
          w1.readWrap p = Run.done (0, false)) := by
  have hA : 0 < w.addressSize := by
    obtain ⟨-, hW1, hWA, -⟩ := hw
    omega
  obtain ⟨e1, e2, e3, e4⟩ := read_ok_iff_inWindow w hw loc
  have hin := inWindowWrap_eq w hA h2 loc hlo hhi
  have hrd := readWrap_eq w hw h2 loc hlo hhi
  refine ⟨?_, ?_, ?_, ?_⟩
  · rw [hin]
    congr 1
    rw [Bool.eq_iff_iff, e1]
    simp
  · rw [hrd, hin, done_eq_true_iff]
    exact e2
  · intro hout
    rw [hin] at hout
    injection hout with hout
    rw [hrd]
    exact e3 hout
  · intro val h0 h1 hv hout
    rw [hin] at hout
    injection hout with hout
    obtain ⟨w1, hwr, hH, hp⟩ := e4 val h0 h1 hv hout
    obtain ⟨w1', hwr', hw1, hA1, -⟩ := write_spec w hw loc val h0 h1 hv
    rw [hwr] at hwr'
    injection hwr' with hwr'
    subst hwr'
    refine ⟨w1, by rw [writeWrap_eq w hw h2]; exact hwr, hH, fun p hplo hphi hfar => ?_⟩
    rw [readWrap_eq w1 hw1 (by rw [hA1]; exact h2) p (by rw [hH]; exact hplo)
      (by rw [hH]; exact hphi)]
    exact hp p hfar

theorem readWrap_ok_iff_inWindowWrap_witness :
    ∃ w1, ring32At10.writeWrap 20 [7] = Run.done w1 ∧ w1.addressHead = 20 ∧
      ∀ p : Int, -maxInt ≤ 20 - p → 20 - p ≤ maxInt →
        (20 - p) % ring32At10.addressSize ≥ ring32At10.windowSize →
        w1.readWrap p = Run.done (0, false) :=
  (readWrap_ok_iff_inWindowWrap ring32At10 (by decide) (by decide) 20 (by decide)
    (by decide)).2.2.2 [7] (by decide) (by decide) (by decide) (by decide)

/-- C14 as stated fails: on the fresh ring of `newWindowRing(maxInt, 4, 0)` the
position `-5` is outside the window, `(addressHead - loc) mod addressSize` being
5, yet the sum inside `pmod` wraps and `read(-5)` returns `(0, true)`. -/
theorem readWrap_outside_window_at_maxInt :
    newWindowRing maxInt 4 0 = Run.done ringMaxInt4 ∧ ringMaxInt4.wellFormed ∧
      ¬ (ringMaxInt4.addressHead - (-5)) % ringMaxInt4.addressSize < ringMaxInt4.windowSize ∧
      ringMaxInt4.inWindowWrap (-5) = Run.done true ∧
      ringMaxInt4.readWrap (-5) = Run.done (0, true) := by
  decide

/-- C36 (amended): for every ring built by `newWindowRing` with
`1 ≤ windowSize ≤ addressSize` and `2 * addressSize ≤ maxInt`, and every run of
writes to positions `0 ≤ loc < addressSize`, each with at most one value, the
constructor and all writes return, and the ring then has `windowSize` slots, a
window head in `0 .. windowSize - 1` and an address head in
`0 .. addressSize - 1`.  Every prefix of a run is a run, so this holds after
each write. -/
theorem writesWrap_never_panic (addressSize windowSize : Int) (defaultVal : Byte)
    (writes : List (Int × List Byte)) (h1 : 1 ≤ windowSize) (h2 : windowSize ≤ addressSize)
    (hfit : 2 * addressSize ≤ maxInt)
    (hall : ∀ e ∈ writes, 0 ≤ e.1 ∧ e.1 < addressSize ∧ e.2.length ≤ 1) :
    ∃ w0 w, newWindowRing addressSize windowSize defaultVal = Run.done w0 ∧
      w0.writeAllWrap writes = Run.done w ∧
      (w.ring.length : Int) = windowSize ∧
      0 ≤ w.windowHead ∧ w.windowHead < windowSize ∧
      0 ≤ w.addressHead ∧ w.addressHead < addressSize := by
  obtain ⟨w0, w, hnew, hrun, hrest⟩ :=
    writes_never_panic addressSize windowSize defaultVal writes h1 h2 hall
  obtain ⟨w0', hnew', hw0, -, hA0, -⟩ :=
    newWindowRing_wellFormed addressSize windowSize defaultVal h1 h2
  rw [hnew] at hnew'
  injection hnew' with hnew'
  subst hnew'
  refine ⟨w0, w, hnew, ?_, hrest⟩
  rw [writeAllWrap_eq writes w0 hw0 (by rw [hA0]; exact hfit)
    (fun e he => by rw [hA0]; exact hall e he)]
  exact hrun

theorem writesWrap_never_panic_witness :
    ∃ w0 w, newWindowRing 32 4 0 = Run.done w0 ∧
      w0.writeAllWrap [(10, [1]), (31, []), (0, [7])] = Run.done w ∧
      (w.ring.length : Int) = 4 ∧ 0 ≤ w.windowHead ∧ w.windowHead < 4 ∧
      0 ≤ w.addressHead ∧ w.addressHead < 32 :=
  writesWrap_never_panic 32 4 0 [(10, [1]), (31, []), (0, [7])] (by decide) (by decide)
    (by decide) (by decide)

/-- C36 as stated fails: `newWindowRing(maxInt, 1, 0)` satisfies
`1 ≤ windowSize ≤ addressSize`, and the run of the one write to the position
`2^62 + 5` panics on the assertion of `write`. -/
theorem writesWrap_panic_at_maxInt :
    (1 : Int) ≤ 1 ∧ (1 : Int) ≤ maxInt ∧ (0 : Int) ≤ 2 ^ 62 + 5 ∧ (2 : Int) ^ 62 + 5 < maxInt ∧
      ((newWindowRing maxInt 1 0).bind fun w0 => w0.writeAllWrap [(2 ^ 62 + 5, [255])])
        = Run.panicked "windowRing: write: addressHead/loc mismatch!" := by
  decide

end Batman
